import Mathlib

/-!
# snap-plugin-collector-iocore: a shallow embedding of `iocore/iocore.go`

The collector keeps two snapshots of per-core cycle counters (`data`, `dataPrev`)
and a table of derived values (`output`).  Each call of `CollectMetrics` stashes
the current snapshot, re-reads the two pseudo-files, recomputes the derived
values and projects them onto the requested metric namespaces.

Modelling conventions.

* `uint64` values are `Nat` with an explicit `% 2 ^ 64` at every arithmetic step.
* `float64` values are the type `F64`: IEEE 754 binary64 with round-to-nearest,
  ties-to-even, written with integer arithmetic only.
* Go maps are association lists (`GoMap`).  The order in which `range` visits a map
  and the result of converting a non-representable `float64` to `int` are left open
  by the Go language; both are taken from a `Runtime` value, and the general theorems
  hold for every `Runtime`.
* A Go run-time panic (index out of range) is the result `Result.panic`; a returned
  error is `Result.error`.  Every function returns the collector as it leaves it.
* Text files are Lean strings (valid UTF-8); `int` is 64 bits wide; `time.Now()` is a
  clock reading supplied with the input.
* The file system below the configured `vhost_path` is the input `Vhost` of a call;
  `getVhostPath` itself, `Meta`, `GetConfigPolicy` and `GetMetricTypes` only talk to the
  plugin framework and are not modelled (the two metric types of `GetMetricTypes` are
  the requests `reqNumIOcores` and `reqCpuUtilization`).
-/

namespace Iocore

/-! ## IEEE 754 binary64 -/

/-- A `float64`: not-a-number, a signed infinity, or the finite value `± m * 2 ^ e`.
Values produced by `F64.round` satisfy `m < 2 ^ 53` and `-1074 ≤ e ≤ 971`; a zero is
written with `m = 0` and `e = 0`. -/
inductive F64
  | nan
  | inf (neg : Bool)
  | fin (neg : Bool) (m : Nat) (e : Int)
deriving DecidableEq, Repr

namespace F64

/-- Exponent of the least significant bit of a subnormal number. -/
def minExp : Int := -1074

/-- Exponent of the least significant bit of the largest finite numbers. -/
def maxExp : Int := 971

/-- Binary logarithm of a natural number, rounded down, by repeated halving. -/
def log2Fuel : Nat → Nat → Nat
  | 0, _ => 0
  | fuel + 1, n => if n < 2 then 0 else log2Fuel fuel (n / 2) + 1

/-- Floor of the binary logarithm (`0` at `0`). -/
def ilog2 (n : Nat) : Nat := log2Fuel n n

/-- Floor of the binary logarithm of the positive rational `n / d`. -/
def floorLog2 (n d : Nat) : Int :=
  let l : Int := (ilog2 n : Int) - (ilog2 d : Int)
  if d * 2 ^ l.toNat ≤ n * 2 ^ (-l).toNat then l else l - 1

/-- The integer nearest to `N / D`, ties going to the even neighbour. -/
def roundHalfEven (N D : Nat) : Nat :=
  let q := N / D
  let r := N % D
  if 2 * r < D then q else if D < 2 * r then q + 1 else if q % 2 = 0 then q else q + 1

/-- Renormalise a significand that was rounded up to `2 ^ 53`, detect overflow, and
write a result that was rounded down to zero with exponent `0`. -/
def pack (neg : Bool) (m : Nat) (e : Int) : F64 :=
  if m = 0 then .fin neg 0 0
  else if m = 2 ^ 53 then (if maxExp < e + 1 then .inf neg else .fin neg (2 ^ 52) (e + 1))
  else if maxExp < e then .inf neg else .fin neg m e

/-- Round the rational magnitude `n / d` (with `d ≠ 0`) to the nearest binary64 value. -/
def round (neg : Bool) (n d : Nat) : F64 :=
  if n = 0 then .fin neg 0 0 else
  let e : Int := max (floorLog2 n d - 52) minExp
  pack neg (roundHalfEven (n * 2 ^ (-e).toNat) (d * 2 ^ e.toNat)) e

/-- Conversion `float64(n)` of an unsigned integer. -/
def ofNat (n : Nat) : F64 := round false n 1

/-- Conversion `float64(i)` of a signed integer. -/
def ofInt (i : Int) : F64 := round (decide (i < 0)) i.natAbs 1

/-- The constant `0`. -/
def zero : F64 := .fin false 0 0

/-- Floating-point multiplication `x * y`. -/
def mul : F64 → F64 → F64
  | .fin s m1 e1, .fin t m2 e2 =>
      round (xor s t) (m1 * m2 * 2 ^ (e1 + e2).toNat) (2 ^ (-(e1 + e2)).toNat)
  | .fin s m _, .inf t => if m = 0 then .nan else .inf (xor s t)
  | .inf s, .fin t m _ => if m = 0 then .nan else .inf (xor s t)
  | .inf s, .inf t => .inf (xor s t)
  | _, _ => .nan

/-- Floating-point division `x / y`. -/
def div : F64 → F64 → F64
  | .fin s m1 e1, .fin t m2 e2 =>
      if m2 = 0 then (if m1 = 0 then .nan else .inf (xor s t))
      else round (xor s t) (m1 * 2 ^ (e1 - e2).toNat) (m2 * 2 ^ (e2 - e1).toNat)
  | .fin s _ _, .inf t => .fin (xor s t) 0 0
  | .inf s, .fin t _ _ => .inf (xor s t)
  | _, _ => .nan

/-- The signed integer `± m * 2 ^ (e - base)`, for `base ≤ e`. -/
def scaled (base : Int) (neg : Bool) (m : Nat) (e : Int) : Int :=
  if neg then -((m * 2 ^ (e - base).toNat : Nat) : Int) else ((m * 2 ^ (e - base).toNat : Nat) : Int)

/-- Floating-point addition `x + y`. -/
def add : F64 → F64 → F64
  | .fin s m1 e1, .fin t m2 e2 =>
      let b := min e1 e2
      let c : Int := scaled b s m1 e1 + scaled b t m2 e2
      if c = 0 then .fin (s && t) 0 0
      else round (decide (c < 0)) (c.natAbs * 2 ^ b.toNat) (2 ^ (-b).toNat)
  | .fin _ _ _, .inf t => .inf t
  | .inf s, .fin _ _ _ => .inf s
  | .inf s, .inf t => if s = t then .inf s else .nan
  | _, _ => .nan

/-- The comparison `x < y`. -/
def lt : F64 → F64 → Bool
  | .fin s m1 e1, .fin t m2 e2 =>
      decide (scaled (min e1 e2) s m1 e1 < scaled (min e1 e2) t m2 e2)
  | .fin _ _ _, .inf t => !t
  | .inf s, .fin _ _ _ => s
  | .inf s, .inf t => s && !t
  | _, _ => false

/-- The comparison `x == y`. -/
def eq : F64 → F64 → Bool
  | .fin s m1 e1, .fin t m2 e2 =>
      decide (scaled (min e1 e2) s m1 e1 = scaled (min e1 e2) t m2 e2)
  | .inf s, .inf t => s == t
  | _, _ => false

/-- The comparison `x <= y`. -/
def le (x y : F64) : Bool := lt x y || eq x y

/-- The test `math.IsNaN`. -/
def isNaN : F64 → Bool
  | .nan => true
  | _ => false

/-- The test `math.IsInf(x, sign)` for `sign = 1` (`neg = false`) and `sign = -1`. -/
def isInf (x : F64) (neg : Bool) : Bool :=
  match x with
  | .inf s => s == neg
  | _ => false

/-- The test `math.Signbit`. -/
def signbit : F64 → Bool
  | .nan => false
  | .inf s => s
  | .fin s _ _ => s

/-- The library function `math.Max`. -/
def Max (x y : F64) : F64 :=
  if isInf x false || isInf y false then .inf false
  else if isNaN x || isNaN y then .nan
  else if eq x zero && eq x y then (if signbit x then y else x)
  else if lt y x then x else y

/-- The library function `math.Min`. -/
def Min (x y : F64) : F64 :=
  if isInf x true || isInf y true then .inf true
  else if isNaN x || isNaN y then .nan
  else if eq x zero && eq x y then (if signbit x then x else y)
  else if lt x y then x else y

/-- Truncation toward zero of a finite value that fits a 64-bit `int`. -/
def trunc : F64 → Option Int
  | .fin s m e =>
      let q : Nat := m * 2 ^ e.toNat / 2 ^ (-e).toNat
      let i : Int := if s then -(q : Int) else (q : Int)
      if -(2 ^ 63 : Int) ≤ i ∧ i < (2 ^ 63 : Int) then some i else none
  | _ => none

end F64

/-! ## Strings (`strings`, `strconv`, `bufio`) -/

/-- The predicate `unicode.IsSpace`. -/
def isSpace (c : Char) : Bool :=
  let n := c.toNat
  (0x09 ≤ n && n ≤ 0x0D) || n = 0x20 || n = 0x85 || n = 0xA0 || n = 0x1680 ||
    (0x2000 ≤ n && n ≤ 0x200A) || n = 0x2028 || n = 0x2029 || n = 0x202F || n = 0x205F ||
    n = 0x3000

/-- Worker of `strings.Fields`: `cur` is the field being read, in reverse. -/
def fieldsAux : List Char → Option (List Char) → List String
  | [], none => []
  | [], some cur => [String.mk cur.reverse]
  | c :: cs, none => if isSpace c then fieldsAux cs none else fieldsAux cs (some [c])
  | c :: cs, some cur =>
      if isSpace c then String.mk cur.reverse :: fieldsAux cs none
      else fieldsAux cs (some (c :: cur))

/-- The library function `strings.Fields`. -/
def Fields (s : String) : List String := fieldsAux s.data none

/-- Split a character list around every occurrence of `sep`. -/
def splitOnChar (sep : Char) : List Char → List (List Char)
  | [] => [[]]
  | c :: cs =>
      if c = sep then [] :: splitOnChar sep cs
      else match splitOnChar sep cs with
        | [] => [[c]]
        | w :: ws => (c :: w) :: ws

/-- The call `strings.Split(s, "/")`. -/
def Split (s : String) : List String := (splitOnChar '/' s.data).map String.mk

/-- The call `strings.Join(elems, "/")`. -/
def Join : List String → String
  | [] => ""
  | [a] => a
  | a :: b :: rest => a ++ "/" ++ Join (b :: rest)

/-- Cut a text at every newline; a text that ends in a newline has no empty last line. -/
def splitLines : List Char → List (List Char)
  | [] => []
  | c :: cs =>
      if c = '\n' then [] :: splitLines cs
      else match splitLines cs with
        | [] => [[c]]
        | l :: ls => (c :: l) :: ls

/-- Drop one trailing carriage return, as `bufio.ScanLines` does. -/
def dropCR (l : List Char) : List Char :=
  match l.reverse with
  | '\r' :: r => r.reverse
  | _ => l

/-- Number of bytes of the UTF-8 encoding. -/
def utf8Len (l : List Char) : Nat := (l.map Char.utf8Size).sum

/-- The constant `bufio.MaxScanTokenSize`. -/
def maxScanTokenSize : Nat := 64 * 1024

/-- The lines a `bufio.Scanner` hands out: scanning stops at the first line that does
not fit the scanner's buffer. -/
def scanLines (content : String) : List String :=
  ((splitLines content.data).takeWhile (fun l => utf8Len l < maxScanTokenSize)).map
    (fun l => String.mk (dropCR l))

/-- The constant `uintMax = ^uint64(0)`. -/
def uintMax : Nat := 2 ^ 64 - 1

/-- Digit loop of `strconv.ParseUint(s, 10, 64)`: the value and whether an error is set. -/
def parseUintLoop : List Char → Nat → Nat × Bool
  | [], n => (n, false)
  | c :: cs, n =>
      if '0' ≤ c ∧ c ≤ '9' then
        if uintMax / 10 + 1 ≤ n then (uintMax, true)
        else
          let n1 := n * 10 + (c.toNat - '0'.toNat)
          if uintMax < n1 then (uintMax, true) else parseUintLoop cs n1
      else (0, true)

/-- The library function `strconv.ParseUint(s, 10, 64)`. -/
def ParseUint (s : String) : Nat × Bool :=
  if s.data = [] then (0, true) else parseUintLoop s.data 0

/-- The library function `strconv.Atoi`; `none` stands for a returned error. -/
def Atoi (s : String) : Option Int :=
  match s.data with
  | [] => none
  | c :: cs =>
      let neg := decide (c = '-')
      let digits := if c = '+' ∨ c = '-' then cs else c :: cs
      if digits = [] then none else
      match parseUintLoop digits 0 with
      | (_, true) => none
      | (un, false) =>
          if neg then (if 2 ^ 63 < un then none else some (-(un : Int)))
          else (if 2 ^ 63 ≤ un then none else some (un : Int))

/-! ## Go maps and the choices the language leaves open -/

/-- A Go map with string keys: the first pair with a given key is the binding. -/
structure GoMap (V : Type) where
  entries : List (String × V)
deriving DecidableEq, Repr

namespace GoMap

variable {V : Type}

/-- A map made by `make` or by an empty literal. -/
def empty : GoMap V := ⟨[]⟩

/-- Search of an association list. -/
def find : List (String × V) → String → Option V
  | [], _ => none
  | (k, v) :: rest, key => if k = key then some v else find rest key

/-- The two-result index expression `v, ok := m[key]`. -/
def lookup (m : GoMap V) (key : String) : Option V := find m.entries key

/-- Assignment in an association list. -/
def assign : List (String × V) → String → V → List (String × V)
  | [], key, v => [(key, v)]
  | (k, w) :: rest, key, v => if k = key then (key, v) :: rest else (k, w) :: assign rest key v

/-- The assignment `m[key] = v`. -/
def insert (m : GoMap V) (key : String) (v : V) : GoMap V := ⟨assign m.entries key v⟩

/-- The built-in `delete(m, key)`. -/
def erase (m : GoMap V) (key : String) : GoMap V := ⟨m.entries.filter (fun p => p.1 ≠ key)⟩

/-- The keys, in the order of the association list. -/
def keys (m : GoMap V) : List String := m.entries.map Prod.fst

end GoMap

/-- The index expression `m[key]` on a map of `uint64`: a missing key reads as `0`. -/
def GoMap.index (m : GoMap Nat) (key : String) : Nat := (m.lookup key).getD 0

/-- The index expression `m[key]` on a map of `float64`: a missing key reads as `0`. -/
def GoMap.indexF (m : GoMap F64) (key : String) : F64 := (m.lookup key).getD F64.zero

/-- The `range` loops over maps in the source. -/
inductive RangeSite
  | clearOutput
  | clearStats
  | stash
  | derivOuter
  | derivInner (iocore : String)
  | derivSum
  | emitOutput (j : Nat)
  | emitStats (j : Nat)

/-- What the Go language leaves to the implementation: the order in which each `range`
loop visits a map, and the `int` obtained from a `float64` that no `int` represents. -/
structure Runtime where
  rangeOrder : {V : Type} → RangeSite → List (String × V) → List (String × V)
  rangeOrder_perm : ∀ {V : Type} (site : RangeSite) (l : List (String × V)),
    (rangeOrder site l).Perm l
  floatToInt : F64 → Int

/-- The pairs of a map in the order in which the loop at `site` visits them. -/
def Runtime.range (rt : Runtime) {V : Type} (site : RangeSite) (m : GoMap V) :
    List (String × V) :=
  rt.rangeOrder site m.entries

/-- The conversion `int(x)`. -/
def Runtime.toInt (rt : Runtime) (x : F64) : Int :=
  match F64.trunc x with
  | some i => i
  | none => rt.floatToInt x

/-- A run time that visits maps in insertion order and converts like amd64 does. -/
def Runtime.amd64 : Runtime where
  rangeOrder := fun _ l => l
  rangeOrder_perm := fun _ l => List.Perm.refl l
  floatToInt := fun _ => -(2 ^ 63 : Int)

/-- A run time that visits maps in reverse insertion order and converts like arm64 does
for a not-a-number. -/
def Runtime.reversed : Runtime where
  rangeOrder := fun _ l => l.reverse
  rangeOrder_perm := fun _ l => List.reverse_perm l
  floatToInt := fun _ => 0

/-- The loop `for key := range m { delete(m, key) }`. -/
def clearMap (rt : Runtime) {V : Type} (site : RangeSite) (m : GoMap V) : GoMap V :=
  (rt.range site m).foldl (fun acc p => acc.erase p.1) m

/-! ## The collector -/

/-- Outcome of a call: a returned value, a returned error, or a run-time panic. -/
inductive Result (α : Type)
  | ok (a : α)
  | error
  | panic
deriving DecidableEq, Repr

def nsVendor : String := "ibm"
def nsClass : String := "sysfs"
def nsType : String := "iocore"
def nTotalWorkCycles : String := "total_work_cycles"
def nTotalCycles : String := "total_cycles"
def nCpuUtilization : String := "cpu_utilization"
def nNumIOcores : String := "nr_iocores"

/-- The package variable named prefix in the source. -/
def nsPrefix : List String := [nsVendor, nsClass, nsType]

/-- The type `iocoreStats`; the time stamp is a clock reading. -/
structure iocoreStats where
  stats : GoMap (GoMap Nat)
  timestamp : Nat
deriving DecidableEq, Repr

/-- The type `IOCoreCollector`. -/
structure IOCoreCollector where
  data : iocoreStats
  dataPrev : iocoreStats
  output : GoMap F64
  first : Bool
deriving DecidableEq, Repr

/-- The type `core.NamespaceElement`. -/
structure NamespaceElement where
  Value : String
  Description : String
  Name : String
deriving DecidableEq, Repr

/-- A value of interface type in the field `Data_`. -/
inductive Data
  | none
  | float64 (x : F64)
  | int (n : Int)
deriving DecidableEq, Repr

/-- The fields of `plugin.MetricType` that the collector reads or writes. -/
structure MetricType where
  Namespace_ : List NamespaceElement
  Data_ : Data
  Timestamp_ : Nat
deriving DecidableEq, Repr

/-- What one collection finds below the configured `vhost_path`: the clock reading and
the contents of the two pseudo-files (`none`: the file cannot be opened). -/
structure Vhost where
  now : Nat
  iocores_utilization : Option String
  nr_iocores : Option String

/-- The constructor `New`. -/
def New (now₁ now₂ : Nat) : IOCoreCollector :=
  { data := { stats := GoMap.empty, timestamp := now₁ }
    dataPrev := { stats := GoMap.empty, timestamp := now₂ }
    output := GoMap.empty
    first := true }

/-- The function `core.NewNamespace`. -/
def NewNamespace (strs : List String) : List NamespaceElement :=
  strs.map (fun s => { Value := s, Description := "", Name := "" })

/-- The method `Namespace.Strings`. -/
def Strings (ns : List NamespaceElement) : List String := ns.map (fun el => el.Value)

/-- The assignment `ns[i].Name = name`. -/
def setNameAt : List NamespaceElement → Nat → String → List NamespaceElement
  | [], _, _ => []
  | el :: els, 0, name => { el with Name := name } :: els
  | el :: els, i + 1, name => el :: setNameAt els i name

/-- Addition of `uint64` values. -/
def u64add (a b : Nat) : Nat := (a + b) % 2 ^ 64

/-- Subtraction of `uint64` values. -/
def u64sub (a b : Nat) : Nat := (a % 2 ^ 64 + 2 ^ 64 - b % 2 ^ 64) % 2 ^ 64

/-- The change of a counter in `calcDerivatives`: the branch on `val < valPrev`. -/
def diffVal (val valPrev : Nat) : Nat :=
  if val < valPrev then u64add (u64add 1 val) (u64sub uintMax valPrev)
  else u64sub val valPrev

/-- The utilisation stored for one core: the three statements that end the loop body of
`calcDerivatives`, as a function of `data[nTotalWorkCycles]` and `data[nTotalCycles]`. -/
def utilization (rt : Runtime) (work total : Nat) : F64 :=
  let util := F64.div (F64.mul (F64.ofNat 100) (F64.ofNat work)) (F64.ofNat total)
  let util := F64.Max (F64.ofNat 0) (F64.Min (F64.ofNat 100) util)
  F64.div (F64.ofInt (rt.toInt (F64.mul util (F64.ofNat 10)))) (F64.ofNat 10)

/-- Inner loop of `calcDerivatives`: the changes of the counters of one core. -/
def diffLoop (rt : Runtime) (iocore : String) (values valuesPrev data : GoMap Nat) :
    GoMap Nat :=
  (rt.range (.derivInner iocore) values).foldl
    (fun data kv => data.insert kv.1 (diffVal kv.2 (valuesPrev.index kv.1))) data

/-- Body of the outer loop of `calcDerivatives`; the state is `dc.output` and the local
map `data`. -/
def derivStep (rt : Runtime) (prev : GoMap (GoMap Nat)) (st : GoMap F64 × GoMap Nat)
    (kv : String × GoMap Nat) : GoMap F64 × GoMap Nat :=
  match prev.lookup kv.1 with
  | none => st
  | some valuesPrev =>
      let data := diffLoop rt kv.1 kv.2 valuesPrev st.2
      (st.1.insert (kv.1 ++ "/" ++ nCpuUtilization)
        (utilization rt (data.index nTotalWorkCycles) (data.index nTotalCycles)), data)

/-- The method `calcDerivatives`; it always returns a nil error. -/
def calcDerivatives (rt : Runtime) (dc : IOCoreCollector) : IOCoreCollector :=
  let out := ((rt.range .derivOuter dc.data.stats).foldl (derivStep rt dc.dataPrev.stats)
    (dc.output, GoMap.empty)).1
  let total_util := (rt.range .derivSum out).foldl (fun t kv => F64.add t kv.2) (F64.ofNat 0)
  { dc with output := out.insert ("cpu/" ++ nCpuUtilization) total_util }

/-- The function `stashData`. -/
def stashData (rt : Runtime) (dst src : iocoreStats) : iocoreStats :=
  { timestamp := src.timestamp
    stats := (rt.range .stash src.stats).foldl (fun m kv => m.insert kv.1 kv.2) dst.stats }

/-- The function `createNamespace`. -/
def createNamespace (name : String) : List String := nsPrefix ++ Split name

/-- The function `parseNamespace`; slicing a namespace shorter than the three leading
elements panics. -/
def parseNamespace (ns : List String) : Result String :=
  if ns.length < nsPrefix.length then .panic else .ok (Join (ns.drop nsPrefix.length))

/-- Scanner loop of `getIOCoreStats`. -/
def scanLoop : List String → GoMap (GoMap Nat) → GoMap (GoMap Nat) × Result Unit
  | [], stats => (stats, .ok ())
  | line :: rest, stats =>
      match Fields line with
      | iocoreName :: f1 :: f2 :: _ =>
          let data : GoMap Nat := GoMap.empty
          let data := data.insert nTotalWorkCycles (ParseUint f1).1
          let data := data.insert nTotalCycles (ParseUint f2).1
          scanLoop rest (stats.insert iocoreName data)
      | _ => (stats, .panic)

/-- The method `getIOCoreStats`. -/
def getIOCoreStats (rt : Runtime) (fs : Vhost) (dc : IOCoreCollector) :
    IOCoreCollector × Result Unit :=
  match fs.iocores_utilization with
  | none => (dc, .error)
  | some content =>
      let r := scanLoop (scanLines content) (clearMap rt .clearStats dc.data.stats)
      ({ dc with data := { stats := r.1, timestamp := fs.now } }, r.2)

/-- The method `getNumOfIOCores`. -/
def getNumOfIOCores (fs : Vhost) : Result Int :=
  match fs.nr_iocores with
  | none => .error
  | some content =>
      match Fields content with
      | [] => .panic
      | f :: _ =>
          match Atoi f with
          | none => .error
          | some n => .ok n

/-- The last element of `strings.Split(i, "/")`. -/
def lastSegment (i : String) : String := (Split i).getLast?.getD ""

/-- The metric built in the first wildcard loop of `CollectMetrics`. -/
def foundMetric (dc : IOCoreCollector) (wildName : String) (i : String) : MetricType :=
  let ns1 := NewNamespace (createNamespace i)
  { Namespace_ := setNameAt ns1 (ns1.length - 2) wildName
    Data_ := .float64 (dc.output.indexF i)
    Timestamp_ := dc.data.timestamp }

/-- The metric built in the second wildcard loop of `CollectMetrics`. -/
def zeroMetric (dc : IOCoreCollector) (wildName : String) (i : String) : MetricType :=
  let ns1 := NewNamespace (createNamespace i)
  { Namespace_ := setNameAt ns1 (ns1.length - 2) wildName
    Data_ := .int 0
    Timestamp_ := dc.data.timestamp }

/-- Body of the loop over the requested metrics in `CollectMetrics`; `j` is the position
of `m` in the request. -/
def collectOne (rt : Runtime) (dc : IOCoreCollector) (j : Nat) (m : MetricType)
    (metrics : List MetricType) : Result (List MetricType) :=
  let ns := m.Namespace_
  if ns.length < 2 then .panic else
  match ns[ns.length - 2]?, ns[ns.length - 1]? with
  | some wild, some last =>
      if wild.Value = "*" then
        let r := (rt.range (.emitOutput j) dc.output).foldl
          (fun (acc : List MetricType × Bool) kv =>
            if lastSegment kv.1 = last.Value then
              (acc.1 ++ [foundMetric dc wild.Name kv.1], true)
            else acc) (metrics, false)
        if r.2 then .ok r.1
        else
          .ok ((rt.range (.emitStats j) dc.data.stats).foldl
            (fun (acc : List MetricType) kv =>
              if lastSegment kv.1 = last.Value then acc ++ [zeroMetric dc wild.Name kv.1]
              else acc) r.1)
      else
        match parseNamespace (Strings ns) with
        | .ok key =>
            match dc.output.lookup key with
            | some v =>
                .ok (metrics ++ [{ Namespace_ := ns, Data_ := .float64 v,
                                   Timestamp_ := dc.data.timestamp }])
            | none => .ok metrics
        | _ => .panic
  | _, _ => .panic

/-- The loop over the requested metrics in `CollectMetrics`. -/
def collectLoop (rt : Runtime) (dc : IOCoreCollector) :
    Nat → List MetricType → List MetricType → Result (List MetricType)
  | _, [], metrics => .ok metrics
  | j, m :: rest, metrics =>
      match collectOne rt dc j m metrics with
      | .ok metrics => collectLoop rt dc (j + 1) rest metrics
      | r => r

/-- The method `CollectMetrics`: the collector as the call leaves it, and the result. -/
def CollectMetrics (rt : Runtime) (fs : Vhost) (dc : IOCoreCollector)
    (mts : List MetricType) : IOCoreCollector × Result (List MetricType) :=
  match mts with
  | [] => (dc, .panic)
  | _ :: _ =>
      let first := dc.first
      let dc := if first then { dc with first := false } else dc
      let dc := if !first then { dc with dataPrev := stashData rt dc.dataPrev dc.data } else dc
      let dc := { dc with output := clearMap rt .clearOutput dc.output }
      match getIOCoreStats rt fs dc with
      | (dc, .panic) => (dc, .panic)
      | (dc, .error) => (dc, .error)
      | (dc, .ok _) =>
          match getNumOfIOCores fs with
          | .panic => (dc, .panic)
          | .error => (dc, .error)
          | .ok nr_iocores =>
              let dc := if !first then calcDerivatives rt dc else dc
              let dc := { dc with output := dc.output.insert nNumIOcores (F64.ofInt nr_iocores) }
              (dc, collectLoop rt dc 0 mts [])

/-- The rational value of the finite number `± m * 2 ^ e`. -/
def F64.sval (s : Bool) (m : Nat) (e : Int) : ℚ := (if s then -1 else 1) * ((m : ℚ) * 2 ^ e)

/-- The utilisation of one core from its counters in two snapshots. -/
def coreUtilization (rt : Runtime) (values valuesPrev : GoMap Nat) : F64 :=
  utilization rt
    (diffVal (values.index nTotalWorkCycles) (valuesPrev.index nTotalWorkCycles))
    (diffVal (values.index nTotalCycles) (valuesPrev.index nTotalCycles))

/-- The pair that one pass of the outer loop of `calcDerivatives` stores in `dc.output`
for the core `kv.1`: nothing when the previous snapshot lacks the core. -/
def derivEntry (rt : Runtime) (prev : GoMap (GoMap Nat)) (kv : String × GoMap Nat) :
    Option (String × F64) :=
  (prev.lookup kv.1).map (fun pv => (kv.1 ++ "/" ++ nCpuUtilization, coreUtilization rt kv.2 pv))

/-- The collector as a call of `CollectMetrics` leaves it when both pseudo-files are read
without error: `stats` is the snapshot that was read and `nr` the number of cores. -/
def refreshed (rt : Runtime) (dc : IOCoreCollector) (now : Nat) (stats : GoMap (GoMap Nat))
    (nr : Int) : IOCoreCollector :=
  let dc1 : IOCoreCollector :=
    { data := { stats := stats, timestamp := now }
      dataPrev := if dc.first then dc.dataPrev else stashData rt dc.dataPrev dc.data
      output := GoMap.empty
      first := false }
  let dc2 := if dc.first then dc1 else calcDerivatives rt dc1
  { dc2 with output := dc2.output.insert nNumIOcores (F64.ofInt nr) }

/-! ## The utilisation in the words of the specification -/

namespace Spec

/-- Clamp to the closed interval from `0` to `100`. -/
def clamp (x : F64) : F64 :=
  if F64.lt x (F64.ofNat 0) then F64.ofNat 0
  else if F64.lt (F64.ofNat 100) x then F64.ofNat 100
  else x

/-- Truncate at the tenths digit: multiply by ten, truncate toward zero, divide by ten. -/
def truncTenths (x : F64) : F64 :=
  F64.div (F64.ofInt ((F64.trunc (F64.mul x (F64.ofNat 10))).getD 0)) (F64.ofNat 10)

/-- The quotient `100 * delta(work) / delta(total)`, clamped and truncated. -/
def utilization (deltaWork deltaTotal : Nat) : F64 :=
  truncTenths (clamp (F64.div (F64.mul (F64.ofNat 100) (F64.ofNat deltaWork))
    (F64.ofNat deltaTotal)))

end Spec

/-- The two counters of the core `r` in the current snapshot. -/
def counters (dc : IOCoreCollector) (r : String) : Option (Nat × Nat) :=
  (dc.data.stats.lookup r).map (fun v => (v.index nTotalWorkCycles, v.index nTotalCycles))

/-- The request for `/ibm/sysfs/iocore/nr_iocores`. -/
def reqNumIOcores : MetricType :=
  { Namespace_ := NewNamespace [nsVendor, nsClass, nsType, nNumIOcores], Data_ := .none,
    Timestamp_ := 0 }

/-- The request for `/ibm/sysfs/iocore/*/cpu_utilization`, as `GetMetricTypes` declares it. -/
def reqCpuUtilization : MetricType :=
  { Namespace_ := NewNamespace nsPrefix ++
      [{ Value := "*", Description := "I/O core effective utilization (percentage)",
         Name := "iocore" },
       { Value := nCpuUtilization, Description := "", Name := "" }]
    Data_ := .none, Timestamp_ := 0 }

/-! ## Scenarios of the specification, as inputs -/

/-- A pseudo-file directory with the given clock reading, counters file and count file. -/
def vhost (now : Nat) (counters count : String) : Vhost :=
  { now := now, iocores_utilization := some counters, nr_iocores := some count }

/-- The metric a request for `nr_iocores` is answered with. -/
def numIOcoresMetric (n : Nat) (timestamp : Nat) : MetricType :=
  { Namespace_ := reqNumIOcores.Namespace_, Data_ := .float64 (F64.ofNat n),
    Timestamp_ := timestamp }

/-- Scenario B: the collector after the first call, which reads the counters `(100, 1000)`. -/
def scenarioB₁ : IOCoreCollector :=
  (CollectMetrics Runtime.amd64 (vhost 1 "iocore0 100 1000\n" "1\n") (New 0 0)
    [reqNumIOcores]).1

/-- Scenario B: the collector after the second call, which reads the counters `(300, 1500)`. -/
def scenarioB₂ : IOCoreCollector :=
  (CollectMetrics Runtime.reversed (vhost 2 "iocore0 300 1500\n" "1\n") scenarioB₁
    [reqNumIOcores]).1

/-- A per-core map as `getIOCoreStats` builds it. -/
def IsCounters (v : GoMap Nat) : Prop :=
  ∃ w t, v = ⟨[(nTotalWorkCycles, w), (nTotalCycles, t)]⟩

/-- A snapshot as `getIOCoreStats` builds it: distinct cores, two counters each. -/
def WellFormed (stats : GoMap (GoMap Nat)) : Prop :=
  stats.keys.Nodup ∧ ∀ p ∈ stats.entries, IsCounters p.2

/-- Put `sep` between the pieces of a split text. -/
def joinChars (sep : Char) : List (List Char) → List Char
  | [] => []
  | [w] => w
  | w :: w' :: ws => w ++ sep :: joinChars sep (w' :: ws)

/-- The returned value of a call, or `d` when the call fails. -/
def Result.getD {α : Type} (r : Result α) (d : α) : α :=
  match r with
  | .ok a => a
  | _ => d

/-- A collector that has collected before: the first call reads the core `a`. -/
def scenarioNew₁ : IOCoreCollector :=
  (CollectMetrics Runtime.amd64 (vhost 1 "a 1 10\n" "1\n") (New 0 0) [reqCpuUtilization]).1

/-- The second call reads the cores `a` and `b`; `b` is new. -/
def scenarioNew₂ : IOCoreCollector × Result (List MetricType) :=
  CollectMetrics Runtime.reversed (vhost 2 "a 2 20\nb 1 10\n" "2\n") scenarioNew₁
    [reqCpuUtilization, reqNumIOcores]

/-- The per-core map that `getIOCoreStats` stores for a line of three or more fields. -/
def lineCounters (line : String) : GoMap Nat :=
  ((GoMap.empty : GoMap Nat).insert nTotalWorkCycles (ParseUint ((Fields line).getD 1 "")).1).insert
    nTotalCycles (ParseUint ((Fields line).getD 2 "")).1

/-- First call of the scenario of a core that leaves and comes back: the core `a` alone. -/
def scenarioBack₁ : IOCoreCollector :=
  (CollectMetrics Runtime.amd64 (vhost 1 "a 0 100\n" "1\n") (New 0 0) [reqCpuUtilization]).1

/-- Second call: the core `a` is gone, the core `b` is there. -/
def scenarioBack₂ : IOCoreCollector :=
  (CollectMetrics Runtime.amd64 (vhost 2 "b 0 100\n" "1\n") scenarioBack₁ [reqCpuUtilization]).1

/-- Third call: the core `a` is back, the core `b` is gone. -/
def scenarioBack₃ : IOCoreCollector :=
  (CollectMetrics Runtime.amd64 (vhost 3 "a 50 200\n" "1\n") scenarioBack₂ [reqCpuUtilization]).1

/-- The number `v` is the whole number `k`, stored exactly. -/
def F64.IsNat (v : F64) (k : Nat) : Prop :=
  ∃ m e, v = .fin false m e ∧ (m : ℚ) * 2 ^ e = (k : ℚ)

/-- Two cores, first call: both counters start at `(0, 100)`. -/
def scenarioSum₁ : IOCoreCollector :=
  (CollectMetrics Runtime.amd64 (vhost 1 "a 0 100\nb 0 100\n" "2\n") (New 0 0)
    [reqCpuUtilization]).1

/-- Two cores, second call: core `a` has worked 40 of 100 cycles, core `b` all 100. -/
def scenarioSum₂ : IOCoreCollector :=
  (CollectMetrics Runtime.reversed (vhost 2 "a 40 200\nb 100 200\n" "2\n") scenarioSum₁
    [reqCpuUtilization]).1

/-- The last `/`-separated segment of a key in the words of the specification: the text
after the last `/` of the key, and the whole key when it holds no `/`. -/
def Spec.lastSegment (key : String) : String :=
  String.mk (key.data.reverse.takeWhile (fun c => c ≠ '/')).reverse

/-- A decimal digit. -/
def isDigit (c : Char) : Bool := decide ('0' ≤ c ∧ c ≤ '9')

/-- The number written by the decimal digits `ds` after the digits of the number `n`. -/
def decimalFrom (n : Nat) (ds : List Char) : Nat :=
  ds.foldl (fun k c => k * 10 + (c.toNat - '0'.toNat)) n

/-- The number that a text of decimal digits denotes. -/
def decimal (ds : List Char) : Nat := decimalFrom 0 ds

/-- A field that is a decimal number of the `uint64` range: it is not empty, all its
characters are decimal digits, and the number is at most `max_uint64`. -/
def IsUint64 (field : String) : Prop :=
  field.data ≠ [] ∧ field.data.all isDigit = true ∧ decimal field.data ≤ uintMax

/-! ## Facts about the binary64 model -/

namespace F64

theorem log2Fuel_spec (fuel : Nat) : ∀ n : Nat, n ≠ 0 → n ≤ fuel →
    2 ^ log2Fuel fuel n ≤ n ∧ n < 2 ^ (log2Fuel fuel n + 1) := by
  induction fuel with
  | zero => intro n hn hf; omega
  | succ k ih =>
    intro n hn hf
    unfold log2Fuel
    split_ifs with h
    · constructor <;> simp <;> omega
    · have h2 : n / 2 ≠ 0 := by omega
      obtain ⟨h3, h4⟩ := ih (n / 2) h2 (by omega)
      constructor
      · calc 2 ^ (log2Fuel k (n / 2) + 1) = 2 ^ log2Fuel k (n / 2) * 2 := pow_succ _ _
          _ ≤ n / 2 * 2 := Nat.mul_le_mul_right _ h3
          _ ≤ n := Nat.div_mul_le_self n 2
      · rw [pow_succ]
        omega

theorem ilog2_spec (n : Nat) (hn : n ≠ 0) : 2 ^ ilog2 n ≤ n ∧ n < 2 ^ (ilog2 n + 1) :=
  log2Fuel_spec n n hn (le_refl n)

theorem two_zpow_split (k : Int) :
    ((2 ^ k.toNat : Nat) : ℚ) / ((2 ^ (-k).toNat : Nat) : ℚ) = (2 : ℚ) ^ k := by
  obtain ⟨n, rfl | rfl⟩ := Int.eq_nat_or_neg k
  · simp
  · simp

theorem zpow_le_of_scaled (n d : Nat) (l : Int) (hd : 0 < d)
    (h : d * 2 ^ l.toNat ≤ n * 2 ^ (-l).toNat) : (2 : ℚ) ^ l ≤ (n : ℚ) / d := by
  have hdq : (0 : ℚ) < d := by exact_mod_cast hd
  rw [← two_zpow_split, div_le_div_iff₀ (by positivity) hdq]
  have h' : ((d * 2 ^ l.toNat : Nat) : ℚ) ≤ ((n * 2 ^ (-l).toNat : Nat) : ℚ) := by
    exact_mod_cast h
  push_cast at h' ⊢
  linarith

theorem floorLog2_le (n d : Nat) (hn : 0 < n) (hd : 0 < d) :
    (2 : ℚ) ^ floorLog2 n d ≤ (n : ℚ) / d := by
  have hdq : (0 : ℚ) < d := by exact_mod_cast hd
  unfold floorLog2
  simp only
  split_ifs with h
  · exact zpow_le_of_scaled n d _ hd h
  · have h1 := (ilog2_spec n (by omega)).1
    have h2 := (ilog2_spec d (by omega)).2
    have e1 : (2 : ℚ) ^ ((ilog2 n : Int) - (ilog2 d : Int) - 1) =
        (2 : ℚ) ^ ilog2 n / (2 : ℚ) ^ (ilog2 d + 1) := by
      rw [show (ilog2 n : Int) - (ilog2 d : Int) - 1 = (ilog2 n : Int) - ((ilog2 d + 1 : Nat) : Int) by
        push_cast; ring]
      rw [zpow_sub₀ (by norm_num), zpow_natCast, zpow_natCast]
    rw [e1]
    have h1q : (2 : ℚ) ^ ilog2 n ≤ n := by exact_mod_cast h1
    have h2q : (d : ℚ) ≤ (2 : ℚ) ^ (ilog2 d + 1) := by exact_mod_cast h2.le
    exact div_le_div₀ (by positivity) h1q hdq h2q

theorem roundHalfEven_cases (N D : Nat) (hD : 0 < D) :
    roundHalfEven N D = N / D ∨ (roundHalfEven N D = N / D + 1 ∧ N % D ≠ 0) := by
  unfold roundHalfEven
  simp only
  split_ifs with h1 h2 h3
  · exact Or.inl rfl
  · exact Or.inr ⟨rfl, by omega⟩
  · exact Or.inl rfl
  · exact Or.inr ⟨rfl, by omega⟩

/-- The exponent chosen by `round`. -/
theorem round_exp (n d : Nat) (hn : 0 < n) (hd : 0 < d) :
    max (floorLog2 n d - 52) minExp = minExp ∨
      (2 : ℚ) ^ (max (floorLog2 n d - 52) minExp + 52) ≤ (n : ℚ) / d := by
  rcases le_total (floorLog2 n d - 52) minExp with h | h
  · left; exact max_eq_right h
  · right
    rw [max_eq_left h]
    have := floorLog2_le n d hn hd
    simpa using this

theorem scaled_ratio (n d : Nat) (e : Int) (hd : 0 < d) :
    ((n * 2 ^ (-e).toNat : Nat) : ℚ) / ((d * 2 ^ e.toNat : Nat) : ℚ) = (n : ℚ) / d / (2 : ℚ) ^ e := by
  have hdq : (0 : ℚ) < d := by exact_mod_cast hd
  rw [← two_zpow_split e]
  push_cast
  field_simp

end F64

namespace F64

theorem pack_val (neg : Bool) (m : Nat) (e : Int) :
    pack neg m e = .inf neg ∨
      ∃ m' e', pack neg m e = .fin neg m' e' ∧ (m' : ℚ) * 2 ^ e' = (m : ℚ) * 2 ^ e := by
  unfold pack
  split_ifs with h0 h1 h2 h3
  · right; exact ⟨0, 0, rfl, by simp [h0]⟩
  · left; rfl
  · right
    refine ⟨2 ^ 52, e + 1, rfl, ?_⟩
    rw [h1, zpow_add_one₀ (by norm_num)]
    push_cast
    ring
  · left; rfl
  · right; exact ⟨m, e, rfl, rfl⟩

theorem pack_fin (neg : Bool) (m : Nat) (e : Int) (h1 : e ≤ maxExp)
    (h2 : m = 2 ^ 53 → e + 1 ≤ maxExp) :
    ∃ m' e', pack neg m e = .fin neg m' e' ∧ (m' : ℚ) * 2 ^ e' = (m : ℚ) * 2 ^ e := by
  rcases pack_val neg m e with h | h
  · exfalso
    unfold pack at h
    split_ifs at h with h0 h3 h4 h5
    · exact absurd (h2 h3) (not_le.mpr h4)
    · exact absurd h1 (not_le.mpr h5)
  · exact h

theorem round_le (neg : Bool) (n d M : Nat) (E : Int) (hd : 0 < d) (hM : M < 2 ^ 53)
    (hE1 : minExp ≤ E) (hE2 : E ≤ maxExp) (h : (n : ℚ) / d ≤ (M : ℚ) * 2 ^ E) :
    ∃ m e, round neg n d = .fin neg m e ∧ (m : ℚ) * 2 ^ e ≤ (M : ℚ) * 2 ^ E := by
  unfold round
  split_ifs with hn
  · exact ⟨0, 0, rfl, by simp; positivity⟩
  · simp only
    have hnpos : 0 < n := Nat.pos_of_ne_zero hn
    have hex := round_exp n d hnpos hd
    have hemin : minExp ≤ max (floorLog2 n d - 52) minExp := le_max_right _ _
    generalize max (floorLog2 n d - 52) minExp = e at hex hemin ⊢
    have hdq : (0 : ℚ) < d := by exact_mod_cast hd
    have hEe : e ≤ E := by
      by_contra hlt
      push_neg at hlt
      rcases hex with h1 | h1
      · omega
      · have h3 : (M : ℚ) * 2 ^ E < 2 ^ (e + 52) := by
          calc (M : ℚ) * 2 ^ E < 2 ^ 53 * 2 ^ E := by
                apply mul_lt_mul_of_pos_right _ (by positivity)
                exact_mod_cast hM
            _ = 2 ^ (E + 53) := by
                rw [zpow_add₀ (by norm_num : (2 : ℚ) ≠ 0)]
                norm_num
                ring
            _ ≤ 2 ^ (e + 52) := zpow_le_zpow_right₀ (by norm_num) (by omega)
        linarith
    have hND := scaled_ratio n d e hd
    have hD : 0 < d * 2 ^ e.toNat := by positivity
    generalize n * 2 ^ (-e).toNat = N at hND ⊢
    generalize d * 2 ^ e.toNat = D at hND hD ⊢
    have hDq : (0 : ℚ) < D := by exact_mod_cast hD
    obtain ⟨k, hk⟩ : ∃ k : Nat, E = e + k := ⟨(E - e).toNat, by omega⟩
    have hY : ((M * 2 ^ k : Nat) : ℚ) * 2 ^ e = M * 2 ^ E := by
      rw [hk, zpow_add₀ (by norm_num : (2 : ℚ) ≠ 0), zpow_natCast]
      push_cast
      ring
    have hNY : N ≤ M * 2 ^ k * D := by
      have h1 : (N : ℚ) / D ≤ ((M * 2 ^ k : Nat) : ℚ) := by
        rw [hND, div_le_iff₀ (by positivity), hY]
        exact h
      rw [div_le_iff₀ hDq] at h1
      exact_mod_cast h1
    have hmY : roundHalfEven N D ≤ M * 2 ^ k := by
      rcases roundHalfEven_cases N D hD with h1 | ⟨h1, h2⟩
      · rw [h1]
        exact Nat.div_le_of_le_mul (by rw [Nat.mul_comm]; exact hNY)
      · rw [h1]
        have h3 : N / D * D < N := by
          have h4 := Nat.div_add_mod N D
          have h5 := Nat.pos_of_ne_zero h2
          nlinarith
        have h6 : N / D < M * 2 ^ k := by
          by_contra hc
          push_neg at hc
          have := Nat.mul_le_mul_right D hc
          omega
        omega
    have hval : ((roundHalfEven N D : Nat) : ℚ) * 2 ^ e ≤ M * 2 ^ E := by
      rw [← hY]
      apply mul_le_mul_of_nonneg_right _ (by positivity)
      exact_mod_cast hmY
    obtain ⟨m', e', h1, h2⟩ := pack_fin neg (roundHalfEven N D) e (by omega) (by
      intro hm
      have hk1 : k ≠ 0 := by
        intro hk0
        rw [hk0] at hmY
        omega
      omega)
    exact ⟨m', e', h1, by rw [h2]; exact hval⟩

theorem round_ge (neg : Bool) (n d M : Nat) (E : Int) (hd : 0 < d) (hM : M < 2 ^ 53)
    (hE1 : minExp ≤ E) (h : (M : ℚ) * 2 ^ E ≤ (n : ℚ) / d) :
    round neg n d = .inf neg ∨
      ∃ m e, round neg n d = .fin neg m e ∧ (M : ℚ) * 2 ^ E ≤ (m : ℚ) * 2 ^ e := by
  unfold round
  split_ifs with hn
  · right
    refine ⟨0, 0, rfl, ?_⟩
    rw [hn] at h
    simpa using h
  · simp only
    have hnpos : 0 < n := Nat.pos_of_ne_zero hn
    have hex := round_exp n d hnpos hd
    have hemin : minExp ≤ max (floorLog2 n d - 52) minExp := le_max_right _ _
    generalize max (floorLog2 n d - 52) minExp = e at hex hemin ⊢
    have hdq : (0 : ℚ) < d := by exact_mod_cast hd
    have hND := scaled_ratio n d e hd
    have hD : 0 < d * 2 ^ e.toNat := by positivity
    generalize n * 2 ^ (-e).toNat = N at hND ⊢
    generalize d * 2 ^ e.toNat = D at hND hD ⊢
    have hDq : (0 : ℚ) < D := by exact_mod_cast hD
    have hq : N / D ≤ roundHalfEven N D := by
      rcases roundHalfEven_cases N D hD with h1 | ⟨h1, _⟩ <;> omega
    have hval : (M : ℚ) * 2 ^ E ≤ ((roundHalfEven N D : Nat) : ℚ) * 2 ^ e := by
      rcases le_total e E with hle | hle
      · obtain ⟨k, hk⟩ : ∃ k : Nat, E = e + k := ⟨(E - e).toNat, by omega⟩
        have hY : ((M * 2 ^ k : Nat) : ℚ) * 2 ^ e = M * 2 ^ E := by
          rw [hk, zpow_add₀ (by norm_num : (2 : ℚ) ≠ 0), zpow_natCast]
          push_cast
          ring
        have hNY : M * 2 ^ k * D ≤ N := by
          have h1 : ((M * 2 ^ k : Nat) : ℚ) ≤ (N : ℚ) / D := by
            rw [hND, le_div_iff₀ (by positivity), hY]
            exact h
          rw [le_div_iff₀ hDq] at h1
          exact_mod_cast h1
        have h2 : M * 2 ^ k ≤ N / D := (Nat.le_div_iff_mul_le hD).mpr hNY
        rw [← hY]
        apply mul_le_mul_of_nonneg_right _ (by positivity)
        exact_mod_cast le_trans h2 hq
      · rcases eq_or_lt_of_le hle with heq | hlt
        · -- E = e : same as above with k = 0
          subst heq
          have hNY : M * D ≤ N := by
            have h1 : (M : ℚ) ≤ (N : ℚ) / D := by
              rw [hND, le_div_iff₀ (by positivity)]
              exact h
            rw [le_div_iff₀ hDq] at h1
            exact_mod_cast h1
          have h2 : M ≤ N / D := (Nat.le_div_iff_mul_le hD).mpr hNY
          apply mul_le_mul_of_nonneg_right _ (by positivity)
          exact_mod_cast le_trans h2 hq
        · rcases hex with h1 | h1
          · omega
          · -- 2 ^ 52 ≤ N / D
            have h3 : (2 : ℚ) ^ 52 ≤ (N : ℚ) / D := by
              rw [hND, le_div_iff₀ (by positivity), ← zpow_natCast, ← zpow_add₀ (by norm_num : (2 : ℚ) ≠ 0)]
              rw [show ((52 : Nat) : Int) + e = e + 52 by push_cast; ring]
              exact h1
            have h4 : 2 ^ 52 * D ≤ N := by
              rw [le_div_iff₀ hDq] at h3
              exact_mod_cast h3
            have h5 : 2 ^ 52 ≤ N / D := (Nat.le_div_iff_mul_le hD).mpr h4
            calc (M : ℚ) * 2 ^ E ≤ 2 ^ 53 * 2 ^ E := by
                  apply mul_le_mul_of_nonneg_right _ (by positivity)
                  exact_mod_cast hM.le
              _ = 2 ^ (E + 53) := by
                  rw [zpow_add₀ (by norm_num : (2 : ℚ) ≠ 0)]
                  norm_num
                  ring
              _ ≤ 2 ^ (e + 52) := zpow_le_zpow_right₀ (by norm_num) (by omega)
              _ = 2 ^ 52 * 2 ^ e := by
                  rw [zpow_add₀ (by norm_num : (2 : ℚ) ≠ 0)]
                  norm_num
                  ring
              _ ≤ ((roundHalfEven N D : Nat) : ℚ) * 2 ^ e := by
                  apply mul_le_mul_of_nonneg_right _ (by positivity)
                  exact_mod_cast le_trans h5 hq
    rcases pack_val neg (roundHalfEven N D) e with h1 | ⟨m', e', h1, h2⟩
    · exact Or.inl h1
    · exact Or.inr ⟨m', e', h1, by rw [h2]; exact hval⟩

end F64

namespace F64

theorem zpow_gt_of_scaled (n d : Nat) (l : Int) (hd : 0 < d)
    (h : n * 2 ^ (-l).toNat < d * 2 ^ l.toNat) : (n : ℚ) / d < (2 : ℚ) ^ l := by
  have hdq : (0 : ℚ) < d := by exact_mod_cast hd
  rw [← two_zpow_split, div_lt_div_iff₀ hdq (by positivity)]
  have h' : ((n * 2 ^ (-l).toNat : Nat) : ℚ) < ((d * 2 ^ l.toNat : Nat) : ℚ) := by
    exact_mod_cast h
  push_cast at h' ⊢
  linarith

theorem floorLog2_lt (n d : Nat) (hn : 0 < n) (hd : 0 < d) :
    (n : ℚ) / d < (2 : ℚ) ^ (floorLog2 n d + 1) := by
  have hdq : (0 : ℚ) < d := by exact_mod_cast hd
  unfold floorLog2
  simp only
  split_ifs with h
  · have h1 := (ilog2_spec n (by omega)).2
    have h2 := (ilog2_spec d (by omega)).1
    have e1 : (2 : ℚ) ^ ((ilog2 n : Int) - (ilog2 d : Int) + 1) =
        (2 : ℚ) ^ (ilog2 n + 1) / (2 : ℚ) ^ ilog2 d := by
      rw [show (ilog2 n : Int) - (ilog2 d : Int) + 1 = ((ilog2 n + 1 : Nat) : Int) - (ilog2 d : Int) by
        push_cast; ring]
      rw [zpow_sub₀ (by norm_num), zpow_natCast, zpow_natCast]
    rw [e1]
    have h1q : (n : ℚ) < (2 : ℚ) ^ (ilog2 n + 1) := by exact_mod_cast h1
    have h2q : (2 : ℚ) ^ ilog2 d ≤ (d : ℚ) := by exact_mod_cast h2
    exact div_lt_div₀ h1q h2q (by positivity) (by positivity)
  · rw [sub_add_cancel]
    exact zpow_gt_of_scaled n d _ hd (not_le.mp h)

/-- The distance from `roundHalfEven N D` to `N / D` is at most the distance to either
neighbouring integer. -/
theorem roundHalfEven_near (N D : Nat) (hD : 0 < D) :
    |((roundHalfEven N D : Nat) : ℚ) - (N : ℚ) / D| ≤ (N : ℚ) / D - ((N / D : Nat) : ℚ) ∧
    |((roundHalfEven N D : Nat) : ℚ) - (N : ℚ) / D| ≤ ((N / D : Nat) : ℚ) + 1 - (N : ℚ) / D := by
  have hDq : (0 : ℚ) < D := by exact_mod_cast hD
  have hdm : (N : ℚ) = (D : ℚ) * ((N / D : Nat) : ℚ) + ((N % D : Nat) : ℚ) := by
    exact_mod_cast (Nat.div_add_mod N D).symm
  have hs : (N : ℚ) / D = ((N / D : Nat) : ℚ) + ((N % D : Nat) : ℚ) / D := by
    rw [hdm]
    field_simp
    ring
  have hr0 : (0 : ℚ) ≤ ((N % D : Nat) : ℚ) / D := by positivity
  have hr1 : ((N % D : Nat) : ℚ) / D < 1 := by
    rw [div_lt_one hDq]
    exact_mod_cast Nat.mod_lt N hD
  unfold roundHalfEven
  simp only
  have key1 : 2 * (N % D) < D → ((N % D : Nat) : ℚ) / D < 1 / 2 := by
    intro h
    rw [div_lt_iff₀ hDq]
    have : ((2 * (N % D) : Nat) : ℚ) < D := by exact_mod_cast h
    push_cast at this
    linarith
  have key2 : D < 2 * (N % D) → 1 / 2 < ((N % D : Nat) : ℚ) / D := by
    intro h
    rw [lt_div_iff₀ hDq]
    have : (D : ℚ) < ((2 * (N % D) : Nat) : ℚ) := by exact_mod_cast h
    push_cast at this
    linarith
  have key3 : ¬ 2 * (N % D) < D → ¬ D < 2 * (N % D) → ((N % D : Nat) : ℚ) / D = 1 / 2 := by
    intro h1 h2
    have h3 : 2 * (N % D) = D := by omega
    rw [div_eq_iff (ne_of_gt hDq)]
    have : ((2 * (N % D) : Nat) : ℚ) = D := by exact_mod_cast h3
    push_cast at this
    linarith
  split_ifs with h1 h2 h3
  · have := key1 h1
    rw [hs]
    refine ⟨abs_le.mpr ⟨?_, ?_⟩, abs_le.mpr ⟨?_, ?_⟩⟩ <;> linarith
  · have := key2 h2
    push_cast
    rw [hs]
    refine ⟨abs_le.mpr ⟨?_, ?_⟩, abs_le.mpr ⟨?_, ?_⟩⟩ <;> linarith
  · have := key3 h1 h2
    rw [hs]
    refine ⟨abs_le.mpr ⟨?_, ?_⟩, abs_le.mpr ⟨?_, ?_⟩⟩ <;> linarith
  · have := key3 h1 h2
    push_cast
    rw [hs]
    refine ⟨abs_le.mpr ⟨?_, ?_⟩, abs_le.mpr ⟨?_, ?_⟩⟩ <;> linarith

/-- A finite result of `round` is a binary64 number: the significand has at most 53 bits,
the exponent is in range, and a significand of fewer than 53 bits belongs to a zero or to
a subnormal number. -/
theorem round_representable (neg s : Bool) (n d m : Nat) (e : Int) (hd : 0 < d)
    (h : round neg n d = .fin s m e) :
    s = neg ∧ m < 2 ^ 53 ∧ minExp ≤ e ∧ e ≤ maxExp ∧ (m = 0 → e = 0) ∧
      (m < 2 ^ 52 → m = 0 ∨ e = minExp) := by
  unfold round at h
  split_ifs at h with hn
  · injection h with h1 h2 h3
    subst h2; subst h3
    exact ⟨h1.symm, by norm_num, by decide, by decide, fun _ => rfl, fun _ => Or.inl rfl⟩
  · simp only at h
    have hnpos : 0 < n := Nat.pos_of_ne_zero hn
    have hex := round_exp n d hnpos hd
    have hlt := floorLog2_lt n d hnpos hd
    have hemin : minExp ≤ max (floorLog2 n d - 52) minExp := le_max_right _ _
    have hemax : floorLog2 n d - 52 ≤ max (floorLog2 n d - 52) minExp := le_max_left _ _
    generalize max (floorLog2 n d - 52) minExp = e₀ at h hex hemin hemax
    have hdq : (0 : ℚ) < d := by exact_mod_cast hd
    have hND := scaled_ratio n d e₀ hd
    have hD : 0 < d * 2 ^ e₀.toNat := by positivity
    generalize n * 2 ^ (-e₀).toNat = N at hND h
    generalize d * 2 ^ e₀.toNat = D at hND hD h
    have hDq : (0 : ℚ) < D := by exact_mod_cast hD
    -- the scaled value is below `2 ^ 53`
    have hs : (N : ℚ) / D < 2 ^ 53 := by
      rw [hND, div_lt_iff₀ (by positivity)]
      calc (n : ℚ) / d < (2 : ℚ) ^ (floorLog2 n d + 1) := hlt
        _ ≤ (2 : ℚ) ^ (e₀ + 53) := zpow_le_zpow_right₀ (by norm_num) (by omega)
        _ = 2 ^ 53 * 2 ^ e₀ := by
            rw [zpow_add₀ (by norm_num : (2 : ℚ) ≠ 0)]
            norm_num
            ring
    have hq : N / D < 2 ^ 53 := by
      have h1 : ((N / D : Nat) : ℚ) ≤ (N : ℚ) / D := Nat.cast_div_le
      have h2 : ((N / D : Nat) : ℚ) < 2 ^ 53 := lt_of_le_of_lt h1 hs
      exact_mod_cast h2
    have hm : roundHalfEven N D ≤ 2 ^ 53 := by
      rcases roundHalfEven_cases N D hD with h1 | ⟨h1, _⟩ <;> omega
    -- a normal number has a full significand
    have hnorm : e₀ ≠ minExp → 2 ^ 52 ≤ roundHalfEven N D := by
      intro hne
      rcases hex with h1 | h1
      · exact absurd h1 hne
      · have h3 : (2 : ℚ) ^ 52 ≤ (N : ℚ) / D := by
          rw [hND, le_div_iff₀ (by positivity), ← zpow_natCast,
            ← zpow_add₀ (by norm_num : (2 : ℚ) ≠ 0)]
          rw [show ((52 : Nat) : Int) + e₀ = e₀ + 52 by push_cast; ring]
          exact h1
        have h4 : 2 ^ 52 * D ≤ N := by
          rw [le_div_iff₀ hDq] at h3
          exact_mod_cast h3
        have h5 : 2 ^ 52 ≤ N / D := (Nat.le_div_iff_mul_le hD).mpr h4
        rcases roundHalfEven_cases N D hD with h1 | ⟨h1, _⟩ <;> omega
    unfold pack at h
    split_ifs at h with h0 h1 h2 h3
    · injection h with h4 h5 h6
      subst h5; subst h6
      exact ⟨h4.symm, by norm_num, by decide, by decide, fun _ => rfl, fun _ => Or.inl rfl⟩
    · injection h with h4 h5 h6
      subst h5; subst h6
      refine ⟨h4.symm, by norm_num, by omega, by omega, fun hc => by norm_num at hc,
        fun hc => by norm_num at hc⟩
    · injection h with h4 h5 h6
      subst h5; subst h6
      refine ⟨h4.symm, by omega, hemin, by omega, fun hc => absurd hc h0, ?_⟩
      intro hlt52
      right
      by_contra hne
      have := hnorm hne
      omega

/-- A finite result of `round` is a binary64 number nearest to the rounded value: no
number `M * 2 ^ E` with a significand of at most 53 bits and an exponent of at least
`-1074` is closer to `n / d`. -/
theorem round_nearest (neg s : Bool) (n d m M : Nat) (e E : Int) (hd : 0 < d)
    (h : round neg n d = .fin s m e) (hM : M < 2 ^ 53) (hE : minExp ≤ E) :
    |(m : ℚ) * 2 ^ e - (n : ℚ) / d| ≤ |(M : ℚ) * 2 ^ E - (n : ℚ) / d| := by
  unfold round at h
  split_ifs at h with hn
  · injection h with h1 h2 h3
    subst h2; subst h3; subst hn
    simp only [Nat.cast_zero, zero_mul, zero_div, sub_zero, abs_zero]
    exact abs_nonneg _
  · simp only at h
    have hnpos : 0 < n := Nat.pos_of_ne_zero hn
    have hex := round_exp n d hnpos hd
    have hemin : minExp ≤ max (floorLog2 n d - 52) minExp := le_max_right _ _
    generalize max (floorLog2 n d - 52) minExp = e₀ at h hex hemin
    have hdq : (0 : ℚ) < d := by exact_mod_cast hd
    have hND := scaled_ratio n d e₀ hd
    have hD : 0 < d * 2 ^ e₀.toNat := by positivity
    generalize n * 2 ^ (-e₀).toNat = N at hND h
    generalize d * 2 ^ e₀.toNat = D at hND hD h
    have hDq : (0 : ℚ) < D := by exact_mod_cast hD
    have hp : (0 : ℚ) < 2 ^ e₀ := by positivity
    -- the packed value is the rounded significand times `2 ^ e₀`
    have hval : (m : ℚ) * 2 ^ e = ((roundHalfEven N D : Nat) : ℚ) * 2 ^ e₀ := by
      rcases pack_val neg (roundHalfEven N D) e₀ with h1 | ⟨m', e', h1, h2⟩
      · rw [h1] at h; simp at h
      · rw [h1] at h
        injection h with _ h5 h6
        subst h5; subst h6
        exact h2
    have hx : (n : ℚ) / d = (N : ℚ) / D * 2 ^ e₀ := by
      rw [hND, div_mul_cancel₀ _ (ne_of_gt hp)]
    obtain ⟨hn1, hn2⟩ := roundHalfEven_near N D hD
    have hfl : ((N / D : Nat) : ℚ) ≤ (N : ℚ) / D := Nat.cast_div_le
    have hab := abs_nonneg (((roundHalfEven N D : Nat) : ℚ) - (N : ℚ) / D)
    rw [hval, hx, ← sub_mul, abs_mul, abs_of_pos hp]
    -- the scaled distance of the competitor
    have hgoal : ∀ t : ℚ, |((roundHalfEven N D : Nat) : ℚ) - (N : ℚ) / D| ≤ |t - (N : ℚ) / D| →
        (M : ℚ) * 2 ^ E = t * 2 ^ e₀ →
        |((roundHalfEven N D : Nat) : ℚ) - (N : ℚ) / D| * 2 ^ e₀ ≤
          |(M : ℚ) * 2 ^ E - (N : ℚ) / D * 2 ^ e₀| := by
      intro t ht hMt
      rw [hMt, ← sub_mul, abs_mul, abs_of_pos hp]
      exact mul_le_mul_of_nonneg_right ht hp.le
    rcases le_or_lt e₀ E with hle | hlt
    · -- the competitor is an integer multiple of `2 ^ e₀`
      obtain ⟨k, hk⟩ : ∃ k : Nat, E = e₀ + k := ⟨(E - e₀).toNat, by omega⟩
      have hY : (M : ℚ) * 2 ^ E = ((M * 2 ^ k : Nat) : ℚ) * 2 ^ e₀ := by
        rw [hk, zpow_add₀ (by norm_num : (2 : ℚ) ≠ 0), zpow_natCast]
        push_cast
        ring
      apply hgoal _ _ hY
      generalize M * 2 ^ k = Y
      rcases Nat.lt_or_ge (N / D) Y with h1 | h1
      · have h2 : ((N / D : Nat) : ℚ) + 1 ≤ (Y : ℚ) := by exact_mod_cast h1
        rw [abs_of_nonneg (a := (Y : ℚ) - (N : ℚ) / D) (by linarith)]
        linarith
      · have h2 : (Y : ℚ) ≤ ((N / D : Nat) : ℚ) := by exact_mod_cast h1
        rw [abs_of_nonpos (a := (Y : ℚ) - (N : ℚ) / D) (by linarith)]
        linarith
    · -- the competitor lies below the binade of `n / d`
      rcases hex with h1 | h1
      · omega
      · have h3 : (2 : ℚ) ^ 52 ≤ (N : ℚ) / D := by
          rw [hND, le_div_iff₀ (by positivity), ← zpow_natCast,
            ← zpow_add₀ (by norm_num : (2 : ℚ) ≠ 0)]
          rw [show ((52 : Nat) : Int) + e₀ = e₀ + 52 by push_cast; ring]
          exact h1
        have h4 : 2 ^ 52 * D ≤ N := by
          rw [le_div_iff₀ hDq] at h3
          exact_mod_cast h3
        have h5 : 2 ^ 52 ≤ N / D := (Nat.le_div_iff_mul_le hD).mpr h4
        have h5q : (2 : ℚ) ^ 52 ≤ ((N / D : Nat) : ℚ) := by exact_mod_cast h5
        have hy : (M : ℚ) * 2 ^ E ≤ 2 ^ 52 * 2 ^ e₀ := by
          calc (M : ℚ) * 2 ^ E ≤ 2 ^ 53 * 2 ^ E := by
                apply mul_le_mul_of_nonneg_right _ (by positivity)
                exact_mod_cast hM.le
            _ = 2 ^ (E + 53) := by
                rw [zpow_add₀ (by norm_num : (2 : ℚ) ≠ 0)]
                norm_num
                ring
            _ ≤ 2 ^ (e₀ + 52) := zpow_le_zpow_right₀ (by norm_num) (by omega)
            _ = 2 ^ 52 * 2 ^ e₀ := by
                rw [zpow_add₀ (by norm_num : (2 : ℚ) ≠ 0)]
                norm_num
                ring
        have hxy : (M : ℚ) * 2 ^ E - (N : ℚ) / D * 2 ^ e₀ ≤ 0 := by
          have : (2 : ℚ) ^ 52 * 2 ^ e₀ ≤ (N : ℚ) / D * 2 ^ e₀ :=
            mul_le_mul_of_nonneg_right h3 hp.le
          linarith
        rw [abs_of_nonpos hxy]
        have h6 : |((roundHalfEven N D : Nat) : ℚ) - (N : ℚ) / D| ≤ (N : ℚ) / D - 2 ^ 52 := by
          linarith
        have h7 := mul_le_mul_of_nonneg_right h6 hp.le
        linarith

set_option maxRecDepth 100000 in
/-- Known values of binary64 arithmetic: `0.1`, `0.1 + 0.2`, `0.3`, the largest finite
number and the overflow threshold, the smallest subnormal number and a tie below it. -/
theorem known_values :
    div (ofNat 1) (ofNat 10) = .fin false 0x1999999999999a (-56) ∧
    add (div (ofNat 1) (ofNat 10)) (div (ofNat 2) (ofNat 10)) = .fin false 0x13333333333334 (-54) ∧
    div (ofNat 3) (ofNat 10) = .fin false 0x13333333333333 (-54) ∧
    ofNat (2 ^ 53 + 1) = .fin false (2 ^ 52) 1 ∧
    ofNat (2 ^ 53 + 3) = .fin false (2 ^ 52 + 2) 1 ∧
    ofNat (2 ^ 64 - 1) = .fin false (2 ^ 52) 12 ∧
    mul (ofNat 3) (div (ofNat 1) (ofNat 3)) = ofNat 1 ∧
    trunc (div (ofInt (-7)) (ofNat 2)) = some (-3) := by
  decide

end F64

namespace F64

theorem scaled_cast (b : Int) (s : Bool) (m : Nat) (e : Int) (hb : b ≤ e) :
    ((scaled b s m e : Int) : ℚ) = sval s m e / 2 ^ b := by
  obtain ⟨k, hk⟩ : ∃ k : Nat, e = b + k := ⟨(e - b).toNat, by omega⟩
  have h1 : (e - b).toNat = k := by omega
  have h2 : (2 : ℚ) ^ e = 2 ^ b * 2 ^ k := by
    rw [hk, zpow_add₀ (by norm_num : (2 : ℚ) ≠ 0), zpow_natCast]
  have h3 : (2 : ℚ) ^ b ≠ 0 := by positivity
  unfold scaled sval
  rw [h1, h2]
  cases s <;> simp <;> field_simp <;> ring

theorem lt_fin_iff (s t : Bool) (m1 m2 : Nat) (e1 e2 : Int) :
    lt (.fin s m1 e1) (.fin t m2 e2) = true ↔ sval s m1 e1 < sval t m2 e2 := by
  unfold lt
  rw [decide_eq_true_iff, ← Int.cast_lt (R := ℚ), scaled_cast _ _ _ _ (min_le_left _ _),
    scaled_cast _ _ _ _ (min_le_right _ _), div_lt_div_iff_of_pos_right (by positivity)]

theorem eq_fin_iff (s t : Bool) (m1 m2 : Nat) (e1 e2 : Int) :
    eq (.fin s m1 e1) (.fin t m2 e2) = true ↔ sval s m1 e1 = sval t m2 e2 := by
  unfold eq
  rw [decide_eq_true_iff, ← Int.cast_inj (α := ℚ), scaled_cast _ _ _ _ (min_le_left _ _),
    scaled_cast _ _ _ _ (min_le_right _ _), div_left_inj' (by positivity)]

theorem le_fin_iff (s t : Bool) (m1 m2 : Nat) (e1 e2 : Int) :
    le (.fin s m1 e1) (.fin t m2 e2) = true ↔ sval s m1 e1 ≤ sval t m2 e2 := by
  unfold le
  rw [Bool.or_eq_true, lt_fin_iff, eq_fin_iff, le_iff_lt_or_eq]

theorem sval_false (m : Nat) (e : Int) : sval false m e = (m : ℚ) * 2 ^ e := by
  simp [sval]

theorem sval_true_nonpos (m : Nat) (e : Int) : sval true m e ≤ 0 := by
  have : (0 : ℚ) ≤ (m : ℚ) * 2 ^ e := by positivity
  simp [sval]
  linarith

theorem ofNat_zero : ofNat 0 = .fin false 0 0 := by decide
theorem ofNat_ten : ofNat 10 = .fin false 5629499534213120 (-49) := by decide
theorem ofNat_hundred : ofNat 100 = .fin false 7036874417766400 (-46) := by decide

theorem sval_hundred : sval false 7036874417766400 (-46) = 100 := by
  rw [sval_false]
  norm_num [zpow_neg]

theorem sval_ten : sval false 5629499534213120 (-49) = 10 := by
  rw [sval_false]
  norm_num [zpow_neg]

theorem round_cases (neg : Bool) (n d : Nat) :
    round neg n d = .inf neg ∨ ∃ m e, round neg n d = .fin neg m e := by
  unfold round
  split_ifs with h
  · exact Or.inr ⟨0, 0, rfl⟩
  · rcases pack_val neg _ _ with h1 | ⟨m, e, h1, _⟩
    · exact Or.inl h1
    · exact Or.inr ⟨m, e, h1⟩

/-- The clamp `math.Max(0, math.Min(100, u))` of anything but a not-a-number is a finite
number between `0` and `100`. -/
theorem clamp_range (u : F64) (hu : u ≠ .nan) :
    ∃ m e, Max (ofNat 0) (Min (ofNat 100) u) = .fin false m e ∧ (m : ℚ) * 2 ^ e ≤ 100 := by
  rw [ofNat_zero, ofNat_hundred]
  have h100 : lt (.fin false 7036874417766400 (-46)) (.fin false 0 0) = false := by decide
  have hmax100 : Max (.fin false 0 0) (.fin false 7036874417766400 (-46)) =
      .fin false 7036874417766400 (-46) := by decide
  cases u with
  | nan => exact absurd rfl hu
  | inf s =>
    cases s
    · refine ⟨7036874417766400, -46, by decide, ?_⟩
      have := sval_hundred
      rw [sval_false] at this
      rw [this]
    · exact ⟨0, 0, by decide, by norm_num⟩
  | fin s m e =>
    have hmin : Min (.fin false 7036874417766400 (-46)) (.fin s m e) =
        if lt (.fin false 7036874417766400 (-46)) (.fin s m e) then .fin false 7036874417766400 (-46)
        else .fin s m e := by
      have : eq (.fin false 7036874417766400 (-46)) zero = false := by decide
      simp [Min, isInf, isNaN, this]
    rw [hmin]
    by_cases hlt : lt (.fin false 7036874417766400 (-46)) (.fin s m e) = true
    · rw [if_pos hlt, hmax100]
      refine ⟨7036874417766400, -46, rfl, ?_⟩
      have := sval_hundred
      rw [sval_false] at this
      rw [this]
    · rw [if_neg hlt]
      have hle : sval s m e ≤ 100 := by
        rw [lt_fin_iff, sval_hundred] at hlt
        exact not_lt.mp hlt
      by_cases heq : eq (.fin false 0 0) (.fin s m e) = true
      · refine ⟨0, 0, ?_, by norm_num⟩
        have h0 : eq (.fin false 0 0) zero = true := by decide
        simp [Max, isInf, isNaN, h0, heq, signbit]
      · have hmax : Max (.fin false 0 0) (.fin s m e) =
            if lt (.fin s m e) (.fin false 0 0) then .fin false 0 0 else .fin s m e := by
          simp [Max, isInf, isNaN, heq]
        rw [hmax]
        by_cases hneg : lt (.fin s m e) (.fin false 0 0) = true
        · rw [if_pos hneg]
          exact ⟨0, 0, rfl, by norm_num⟩
        · rw [if_neg hneg]
          have h0 : sval false 0 0 = 0 := by simp [sval]
          rw [lt_fin_iff, h0] at hneg
          rw [eq_fin_iff, h0] at heq
          have hpos : 0 < sval s m e := lt_of_le_of_ne (not_lt.mp hneg) heq
          cases s
          · exact ⟨m, e, rfl, by rw [← sval_false]; exact hle⟩
          · exact absurd hpos (not_lt.mpr (sval_true_nonpos m e))

end F64

namespace F64

/-- The sum of two finite numbers is a zero when the exact sum is zero, and the rounding
of the magnitude of the exact sum, with its sign, otherwise. -/
theorem add_fin (s t : Bool) (m1 m2 : Nat) (e1 e2 : Int) :
    (sval s m1 e1 + sval t m2 e2 = 0 ∧ add (.fin s m1 e1) (.fin t m2 e2) = .fin (s && t) 0 0) ∨
    (sval s m1 e1 + sval t m2 e2 ≠ 0 ∧ ∃ (neg : Bool) (n d : Nat), 0 < d ∧
      (neg = true ↔ sval s m1 e1 + sval t m2 e2 < 0) ∧
      (n : ℚ) / d = |sval s m1 e1 + sval t m2 e2| ∧
      add (.fin s m1 e1) (.fin t m2 e2) = round neg n d) := by
  have hb1 : min e1 e2 ≤ e1 := min_le_left _ _
  have hb2 : min e1 e2 ≤ e2 := min_le_right _ _
  have hc : ((scaled (min e1 e2) s m1 e1 + scaled (min e1 e2) t m2 e2 : Int) : ℚ) =
      (sval s m1 e1 + sval t m2 e2) / 2 ^ (min e1 e2) := by
    push_cast
    rw [scaled_cast _ _ _ _ hb1, scaled_cast _ _ _ _ hb2, add_div]
  have hp : (0 : ℚ) < 2 ^ (min e1 e2) := by positivity
  unfold add
  simp only
  generalize scaled (min e1 e2) s m1 e1 + scaled (min e1 e2) t m2 e2 = c at hc
  generalize min e1 e2 = b at hc hp
  generalize sval s m1 e1 + sval t m2 e2 = S at hc
  have hS : S = (c : ℚ) * 2 ^ b := by
    rw [hc, div_mul_cancel₀ _ (ne_of_gt hp)]
  by_cases h0 : c = 0
  · left
    rw [if_pos h0]
    refine ⟨?_, rfl⟩
    rw [hS, h0]
    simp
  · right
    rw [if_neg h0]
    have hcq : (c : ℚ) ≠ 0 := by exact_mod_cast h0
    refine ⟨?_, decide (c < 0), c.natAbs * 2 ^ b.toNat, 2 ^ (-b).toNat, by positivity, ?_, ?_, rfl⟩
    · rw [hS]
      exact mul_ne_zero hcq (ne_of_gt hp)
    · rw [decide_eq_true_iff, hS]
      constructor
      · intro h
        have : (c : ℚ) < 0 := by exact_mod_cast h
        exact mul_neg_of_neg_of_pos this hp
      · intro h
        have : (c : ℚ) < 0 := by
          by_contra hc'
          push_neg at hc'
          have := mul_nonneg hc' hp.le
          linarith
        exact_mod_cast this
    · have h2 := two_zpow_split b
      have habs : ((c.natAbs : Nat) : ℚ) = |(c : ℚ)| := by
        rw [Nat.cast_natAbs, Int.cast_abs]
      rw [hS, abs_mul, abs_of_pos hp, ← h2, ← habs]
      push_cast
      ring

/-- A finite sum of two finite numbers is a binary64 number nearest to the exact sum. -/
theorem add_nearest (s t u w : Bool) (m1 m2 m M : Nat) (e1 e2 e E : Int)
    (h : add (.fin s m1 e1) (.fin t m2 e2) = .fin u m e) (hM : M < 2 ^ 53) (hE : minExp ≤ E) :
    |sval u m e - (sval s m1 e1 + sval t m2 e2)| ≤
      |sval w M E - (sval s m1 e1 + sval t m2 e2)| := by
  rcases add_fin s t m1 m2 e1 e2 with ⟨hS, ha⟩ | ⟨hS, neg, n, d, hd, hneg, hnd, ha⟩
  · rw [ha] at h
    injection h with _ h2 h3
    subst h2; subst h3
    rw [hS]
    simp only [sval, Nat.cast_zero, zero_mul, mul_zero, sub_zero, abs_zero]
    exact abs_nonneg _
  · generalize sval s m1 e1 + sval t m2 e2 = S at hS hneg hnd
    rw [ha] at h
    have hu : u = neg := (round_representable neg u n d m e hd h).1
    have hn1 := round_nearest neg u n d m M e E hd h hM hE
    have hn0 := round_nearest neg u n d m 0 e 0 hd h (by norm_num) (by decide)
    rw [hnd] at hn1 hn0
    simp only [Nat.cast_zero, zero_mul, zero_sub, abs_neg, abs_abs] at hn0
    have hm0 : (0 : ℚ) ≤ (m : ℚ) * 2 ^ e := by positivity
    have hM0 : (0 : ℚ) ≤ (M : ℚ) * 2 ^ E := by positivity
    rcases lt_or_gt_of_ne hS with hlt | hgt
    · -- the exact sum is negative
      have hnt : neg = true := hneg.mpr hlt
      have habs : |S| = -S := abs_of_neg hlt
      rw [habs] at hn1 hn0
      have hl : sval u m e - S = -((m : ℚ) * 2 ^ e - -S) := by
        rw [hu, hnt]
        simp only [sval, if_true]
        ring
      rw [hl, abs_neg]
      cases w
      · have hr : |sval false M E - S| = (M : ℚ) * 2 ^ E + -S := by
          rw [sval_false, abs_of_nonneg (by linarith)]
          ring
        rw [hr]
        linarith
      · have hr : sval true M E - S = -((M : ℚ) * 2 ^ E - -S) := by
          simp only [sval, if_true]
          ring
        rw [hr, abs_neg]
        exact hn1
    · -- the exact sum is positive
      have hnf : neg = false := by
        cases neg
        · rfl
        · exact absurd (hneg.mp rfl) (not_lt.mpr (le_of_lt hgt))
      have habs : |S| = S := abs_of_pos hgt
      rw [habs] at hn1 hn0
      have hl : sval u m e - S = (m : ℚ) * 2 ^ e - S := by
        rw [hu, hnf, sval_false]
      rw [hl]
      cases w
      · rw [sval_false]
        exact hn1
      · have hr : |sval true M E - S| = (M : ℚ) * 2 ^ E + S := by
          have : sval true M E - S = -((M : ℚ) * 2 ^ E + S) := by
            simp only [sval, if_true]
            ring
          rw [this, abs_neg, abs_of_nonneg (by linarith)]
        rw [hr]
        linarith

/-- The sum of two whole numbers is exact as long as it stays below `2 ^ 53`. -/
theorem add_isNat (x y : F64) (a b : Nat) (hx : IsNat x a) (hy : IsNat y b)
    (hab : a + b < 2 ^ 53) : IsNat (add x y) (a + b) := by
  obtain ⟨m1, e1, rfl, h1⟩ := hx
  obtain ⟨m2, e2, rfl, h2⟩ := hy
  have hS : sval false m1 e1 + sval false m2 e2 = ((a + b : Nat) : ℚ) := by
    rw [sval_false, sval_false, h1, h2]
    push_cast
    ring
  rcases add_fin false false m1 m2 e1 e2 with ⟨h0, ha⟩ | ⟨h0, neg, n, d, hd, hneg, hnd, ha⟩
  · rw [ha]
    refine ⟨0, 0, rfl, ?_⟩
    rw [← hS, h0]
    simp
  · rw [ha]
    rw [hS] at hneg hnd h0
    have hpos : (0 : ℚ) ≤ ((a + b : Nat) : ℚ) := by positivity
    have hnf : neg = false := by
      cases neg
      · rfl
      · exact absurd (hneg.mp rfl) (not_lt.mpr hpos)
    rw [abs_of_nonneg hpos] at hnd
    rw [hnf]
    obtain ⟨m, e, h3, h4⟩ := round_le false n d (a + b) 0 hd hab (by decide) (by decide)
      (by rw [hnd]; simp)
    rcases round_ge false n d (a + b) 0 hd hab (by decide) (by rw [hnd]; simp) with
      h5 | ⟨m', e', h5, h6⟩
    · rw [h3] at h5
      simp at h5
    · rw [h3] at h5
      injection h5 with _ hm he
      subst hm; subst he
      refine ⟨m, e, h3, ?_⟩
      simp only [zpow_zero, mul_one] at h4 h6
      exact le_antisymm h4 h6

/-- Adding up whole numbers one after the other is exact as long as the total stays
below `2 ^ 53`. -/
theorem foldl_add_isNat (vs : List F64) :
    ∀ (ks : List Nat) (acc : F64) (a : Nat), List.Forall₂ IsNat vs ks → IsNat acc a →
      a + ks.sum < 2 ^ 53 → IsNat (vs.foldl add acc) (a + ks.sum) := by
  induction vs with
  | nil =>
    intro ks acc a hf ha _
    cases hf
    simpa using ha
  | cons v vs ih =>
    intro ks acc a hf ha hlt
    cases hf with
    | cons hv hrest =>
      rename_i k ks'
      rw [List.sum_cons] at hlt
      rw [List.foldl_cons, List.sum_cons, ← Nat.add_assoc]
      exact ih ks' (add acc v) (a + k) hrest (add_isNat acc v a k ha hv (by omega))
        (by omega)

theorem round_exact (neg : Bool) (n : Nat) (h : n < 2 ^ 53) :
    ∃ m e, round neg n 1 = .fin neg m e ∧ (m : ℚ) * 2 ^ e = (n : ℚ) := by
  obtain ⟨m, e, h1, h2⟩ := round_le neg n 1 n 0 (by norm_num) h (by decide) (by decide)
    (by simp)
  rcases round_ge neg n 1 n 0 (by norm_num) h (by decide) (by simp) with h3 | ⟨m', e', h3, h4⟩
  · rw [h1] at h3
    simp at h3
  · rw [h1] at h3
    injection h3 with _ hm he
    subst hm
    subst he
    refine ⟨m, e, h1, ?_⟩
    simp only [zpow_zero, mul_one] at h2 h4
    exact le_antisymm h2 h4
theorem isNat_ofNat (n : Nat) (h : n < 2 ^ 53) : IsNat (ofNat n) n := round_exact false n h

theorem isNat_zero : IsNat (ofNat 0) 0 := ⟨0, 0, by decide, by simp⟩

end F64

namespace F64

theorem mul_fin (s t : Bool) (m1 m2 : Nat) (e1 e2 : Int) :
    ∃ n d : Nat, mul (.fin s m1 e1) (.fin t m2 e2) = round (xor s t) n d ∧ 0 < d ∧
      (n : ℚ) / d = ((m1 : ℚ) * 2 ^ e1) * ((m2 : ℚ) * 2 ^ e2) := by
  refine ⟨m1 * m2 * 2 ^ (e1 + e2).toNat, 2 ^ (-(e1 + e2)).toNat, rfl, by positivity, ?_⟩
  have h := two_zpow_split (e1 + e2)
  rw [zpow_add₀ (by norm_num : (2 : ℚ) ≠ 0)] at h
  push_cast at h ⊢
  rw [mul_div_assoc, h]
  ring

theorem div_fin (s t : Bool) (m1 m2 : Nat) (e1 e2 : Int) (h2 : m2 ≠ 0) :
    ∃ n d : Nat, div (.fin s m1 e1) (.fin t m2 e2) = round (xor s t) n d ∧ 0 < d ∧
      (n : ℚ) / d = ((m1 : ℚ) * 2 ^ e1) / ((m2 : ℚ) * 2 ^ e2) := by
  refine ⟨m1 * 2 ^ (e1 - e2).toNat, m2 * 2 ^ (e2 - e1).toNat, ?_, ?_, ?_⟩
  · simp [div, h2]
  · have := Nat.pos_of_ne_zero h2
    positivity
  · have h := two_zpow_split (e1 - e2)
    rw [neg_sub, zpow_sub₀ (by norm_num : (2 : ℚ) ≠ 0)] at h
    have hm : (m2 : ℚ) ≠ 0 := by exact_mod_cast h2
    have hp1 : (2 : ℚ) ^ e2 ≠ 0 := by positivity
    have hp2 : ((2 ^ (e2 - e1).toNat : Nat) : ℚ) ≠ 0 := by positivity
    push_cast at h hp2 ⊢
    rw [div_eq_div_iff hp2 hp1] at h
    rw [div_eq_div_iff (by positivity) (by positivity)]
    linear_combination (m1 : ℚ) * (m2 : ℚ) * h

theorem mul_ne_nan_of_fin (s : Bool) (m : Nat) (e : Int) (hm : m ≠ 0) (y : F64)
    (hy : y ≠ .nan) : mul (.fin s m e) y ≠ .nan := by
  cases y with
  | nan => exact absurd rfl hy
  | inf t => simp [mul, hm]
  | fin t m2 e2 =>
    obtain ⟨n, d, h, _, _⟩ := mul_fin s t m m2 e e2
    rw [h]
    rcases round_cases (xor s t) n d with h1 | ⟨a, b, h1⟩ <;> rw [h1] <;> simp

theorem div_ne_nan_of_fin (x : F64) (hx : x ≠ .nan) (t : Bool) (m : Nat) (e : Int)
    (hm : m ≠ 0) : div x (.fin t m e) ≠ .nan := by
  cases x with
  | nan => exact absurd rfl hx
  | inf s => simp [div]
  | fin s m1 e1 =>
    obtain ⟨n, d, h, _, _⟩ := div_fin s t m1 m e1 e hm
    rw [h]
    rcases round_cases (xor s t) n d with h1 | ⟨a, b, h1⟩ <;> rw [h1] <;> simp

theorem ofNat_ne_nan (n : Nat) : ofNat n ≠ .nan := by
  unfold ofNat
  rcases round_cases false n 1 with h1 | ⟨a, b, h1⟩ <;> rw [h1] <;> simp

/-- A non-zero `uint64` converts to a finite, non-zero `float64`. -/
theorem ofNat_fin_pos (n : Nat) (h0 : n ≠ 0) (h : n < 2 ^ 64) :
    ∃ m e, ofNat n = .fin false m e ∧ m ≠ 0 := by
  obtain ⟨m, e, h1, _⟩ := round_le false n 1 1 64 (by norm_num) (by norm_num)
    (by decide) (by decide) (by
      norm_num
      omega)
  rcases round_ge false n 1 1 0 (by norm_num) (by norm_num) (by decide) (by
      have : (1 : ℚ) ≤ n := by exact_mod_cast Nat.one_le_iff_ne_zero.mpr h0
      simpa using this) with h2 | ⟨m', e', h2, h3⟩
  · unfold ofNat; rw [h1] at h2; exact absurd h2 (by simp)
  · unfold ofNat
    refine ⟨m, e, h1, ?_⟩
    rw [h1] at h2
    injection h2 with _ hm he
    subst hm
    intro hz
    rw [hz] at h3
    norm_num at h3

/-- A non-zero unsigned integer converts to an infinity or to a number that is at least
one. -/
theorem ofNat_pos (n : Nat) (h0 : n ≠ 0) :
    ofNat n = .inf false ∨ ∃ m e, ofNat n = .fin false m e ∧ 1 ≤ (m : ℚ) * 2 ^ e := by
  rcases round_ge false n 1 1 0 (by norm_num) (by norm_num) (by decide) (by
      have : (1 : ℚ) ≤ n := by exact_mod_cast Nat.one_le_iff_ne_zero.mpr h0
      simpa using this) with h2 | ⟨m', e', h2, h3⟩
  · exact Or.inl h2
  · exact Or.inr ⟨m', e', h2, by simpa using h3⟩

theorem trunc_fin_small (m : Nat) (e : Int) (q : Nat)
    (hq : m * 2 ^ e.toNat / 2 ^ (-e).toNat = q) (hle : q ≤ 1000) :
    trunc (.fin false m e) = some (q : Int) := by
  unfold trunc
  simp only [Bool.false_eq_true, if_false]
  rw [hq, if_pos]
  constructor <;> omega

/-- A clamped value times ten truncates to an integer between `0` and `1000`. -/
theorem mul_ten_trunc (m : Nat) (e : Int) (hc : (m : ℚ) * 2 ^ e ≤ 100) :
    ∃ q : Nat, q ≤ 1000 ∧ trunc (mul (.fin false m e) (ofNat 10)) = some (q : Int) := by
  have h10 := sval_ten
  rw [sval_false] at h10
  rw [ofNat_ten]
  obtain ⟨n, d, hmul, hd, hnd⟩ := mul_fin false false m 5629499534213120 e (-49)
  rw [h10] at hnd
  obtain ⟨mt, et, ht, htv⟩ := round_le false n d 1000 0 hd (by norm_num) (by decide) (by decide)
    (by rw [hnd]; norm_num; linarith)
  rw [hmul]
  simp only [Bool.xor_false] at ht ⊢
  rw [ht]
  have htv' : (mt : ℚ) * 2 ^ et ≤ 1000 := by simpa using htv
  have hq : mt * 2 ^ et.toNat / 2 ^ (-et).toNat ≤ 1000 := by
    have h1 : ((mt * 2 ^ et.toNat / 2 ^ (-et).toNat : Nat) : ℚ) ≤
        ((mt * 2 ^ et.toNat : Nat) : ℚ) / ((2 ^ (-et).toNat : Nat) : ℚ) := Nat.cast_div_le
    have h2 : ((mt * 2 ^ et.toNat : Nat) : ℚ) / ((2 ^ (-et).toNat : Nat) : ℚ) = (mt : ℚ) * 2 ^ et := by
      rw [← two_zpow_split et]
      push_cast
      ring
    have h3 : ((mt * 2 ^ et.toNat / 2 ^ (-et).toNat : Nat) : ℚ) ≤ 1000 := by linarith
    exact_mod_cast h3
  exact ⟨_, hq, trunc_fin_small mt et _ rfl hq⟩

/-- An integer between `0` and `1000`, converted and divided by ten, is a number between
`0` and `100`. -/
theorem div_ten_range (q : Nat) (hq : q ≤ 1000) :
    ∃ mr er, div (ofInt (q : Int)) (ofNat 10) = .fin false mr er ∧ (mr : ℚ) * 2 ^ er ≤ 100 := by
  have h10 := sval_ten
  rw [sval_false] at h10
  rw [ofNat_ten]
  have hofInt : ofInt (q : Int) = round false q 1 := by
    unfold ofInt
    have : ¬ ((q : Int) < 0) := by omega
    simp [this]
  rw [hofInt]
  obtain ⟨mf, ef, hf, hfv⟩ := round_le false q 1 1000 0 (by norm_num) (by norm_num) (by decide)
    (by decide) (by
      have : (q : ℚ) ≤ 1000 := by exact_mod_cast hq
      simpa using this)
  rw [hf]
  have hfv' : (mf : ℚ) * 2 ^ ef ≤ 1000 := by simpa using hfv
  obtain ⟨n2, d2, hdiv, hd2, hnd2⟩ := div_fin false false mf 5629499534213120 ef (-49) (by norm_num)
  rw [h10] at hnd2
  obtain ⟨mr, er, hr, hrv⟩ := round_le false n2 d2 100 0 hd2 (by norm_num) (by decide) (by decide)
    (by rw [hnd2, div_le_iff₀ (by norm_num)]; norm_num; linarith)
  rw [hdiv]
  simp only [Bool.xor_false] at hr ⊢
  exact ⟨mr, er, hr, by simpa using hrv⟩

/-- The last line of the loop body of `calcDerivatives`: a clamped value, multiplied by
ten, truncated and divided by ten, is again between `0` and `100`. -/
theorem tenths_range (toInt : F64 → Int)
    (htr : ∀ x i, trunc x = some i → toInt x = i) (m : Nat) (e : Int)
    (hc : (m : ℚ) * 2 ^ e ≤ 100) :
    ∃ mr er, div (ofInt (toInt (mul (.fin false m e) (ofNat 10)))) (ofNat 10) = .fin false mr er ∧
      (mr : ℚ) * 2 ^ er ≤ 100 := by
  obtain ⟨q, hq, ht⟩ := mul_ten_trunc m e hc
  rw [htr _ _ ht]
  exact div_ten_range q hq

theorem le_zero_fin (m : Nat) (e : Int) : le (ofNat 0) (.fin false m e) = true := by
  rw [ofNat_zero, le_fin_iff, sval_false, sval_false]
  have : (0 : ℚ) ≤ (m : ℚ) * 2 ^ e := by positivity
  simpa using this

theorem le_hundred_fin (m : Nat) (e : Int) (h : (m : ℚ) * 2 ^ e ≤ 100) :
    le (.fin false m e) (ofNat 100) = true := by
  rw [ofNat_hundred, le_fin_iff, sval_hundred, sval_false]
  exact h

end F64

theorem Runtime.toInt_of_trunc (rt : Runtime) (x : F64) (i : Int) (h : F64.trunc x = some i) :
    rt.toInt x = i := by
  unfold Runtime.toInt
  rw [h]

/-- With a non-zero change of the total cycles the stored utilisation is a number between
`0` and `100`. -/
theorem utilization_range (rt : Runtime) (work total : Nat)
    (ht : total < 2 ^ 64) (hne : total ≠ 0) :
    F64.le (F64.ofNat 0) (utilization rt work total) = true ∧
      F64.le (utilization rt work total) (F64.ofNat 100) = true := by
  unfold utilization
  simp only
  obtain ⟨mb, eb, hb, hmb⟩ := F64.ofNat_fin_pos _ hne ht
  have hu : F64.div (F64.mul (F64.ofNat 100) (F64.ofNat work)) (F64.ofNat total) ≠ .nan := by
    rw [hb]
    apply F64.div_ne_nan_of_fin _ _ _ _ _ hmb
    rw [F64.ofNat_hundred]
    exact F64.mul_ne_nan_of_fin _ _ _ (by norm_num) _ (F64.ofNat_ne_nan _)
  obtain ⟨m, e, hc, hcv⟩ := F64.clamp_range _ hu
  rw [hc]
  obtain ⟨mr, er, hr, hrv⟩ := F64.tenths_range rt.toInt (Runtime.toInt_of_trunc rt) m e hcv
  rw [hr]
  exact ⟨F64.le_zero_fin mr er, F64.le_hundred_fin mr er hrv⟩

set_option maxRecDepth 4000 in
/-- With no change of the total cycles and some change of the work cycles the quotient is
`+Inf`, which the clamp turns into `100`. -/
theorem utilization_zero_total (rt : Runtime) (work total : Nat)
    (h0 : total = 0) (hw : work ≠ 0) :
    utilization rt work total = F64.ofNat 100 := by
  unfold utilization
  simp only
  have hq : F64.div (F64.mul (F64.ofNat 100) (F64.ofNat work)) (F64.ofNat total) =
      .inf false := by
    rw [h0, F64.ofNat_zero, F64.ofNat_hundred]
    rcases F64.ofNat_pos _ hw with ha | ⟨m, e, ha, hv⟩
    · rw [ha]
      simp [F64.mul, F64.div]
    · rw [ha]
      obtain ⟨n, d, hmul, hd, hnd⟩ := F64.mul_fin false false 7036874417766400 m (-46) e
      have h100 := F64.sval_hundred
      rw [F64.sval_false] at h100
      rw [h100] at hnd
      rw [hmul]
      rcases F64.round_ge (xor false false) n d 100 0 hd (by norm_num) (by decide)
        (by rw [hnd]; norm_num; linarith) with hp | ⟨mp, ep, hp, hpv⟩
      · rw [hp]
        simp [F64.div]
      · rw [hp]
        have hmp : mp ≠ 0 := by
          intro hz
          rw [hz] at hpv
          norm_num at hpv
        simp [F64.div, hmp]
  rw [hq]
  have h1 : F64.Max (F64.ofNat 0) (F64.Min (F64.ofNat 100) (.inf false)) =
      .fin false 7036874417766400 (-46) := by decide
  have h2 : F64.mul (.fin false 7036874417766400 (-46)) (F64.ofNat 10) =
      .fin false 8796093022208000 (-43) := by decide
  have h3 : F64.trunc (.fin false 8796093022208000 (-43)) = some 1000 := by decide
  have h4 : F64.div (F64.ofInt 1000) (F64.ofNat 10) = F64.ofNat 100 := by decide
  rw [h1, h2, Runtime.toInt_of_trunc rt _ _ h3, h4]

set_option maxRecDepth 100000 in
/-- With no change of either counter the quotient is a not-a-number, which passes the
clamp; the stored value is then whatever the conversion to `int` makes of it: a large
negative number with the conversion of amd64, zero with a conversion that sends a
not-a-number to `0`. -/
theorem utilization_nan_evaluation :
    F64.div (F64.mul (F64.ofNat 100) (F64.ofNat 0)) (F64.ofNat 0) = .nan ∧
    F64.Max (F64.ofNat 0) (F64.Min (F64.ofNat 100) .nan) = .nan ∧
    utilization Runtime.amd64 (diffVal 7 7) (diffVal 9 9) =
      .fin true 0x1999999999999a 7 ∧
    utilization Runtime.reversed (diffVal 7 7) (diffVal 9 9) = F64.ofNat 0 := by
  decide

namespace F64

theorem round_canonical (neg : Bool) (n d : Nat) :
    round neg n d = .inf neg ∨ ∃ m e, round neg n d = .fin neg m e ∧ (m = 0 → e = 0) := by
  unfold round
  split_ifs with h
  · exact Or.inr ⟨0, 0, rfl, fun _ => rfl⟩
  · simp only
    unfold pack
    split_ifs with h0 h1 h2 h3
    · exact Or.inr ⟨0, 0, rfl, fun _ => rfl⟩
    · exact Or.inl rfl
    · exact Or.inr ⟨2 ^ 52, _, rfl, fun hc => by norm_num at hc⟩
    · exact Or.inl rfl
    · exact Or.inr ⟨_, _, rfl, fun hc => absurd hc h0⟩

theorem Min_hundred_fin (s : Bool) (m : Nat) (e : Int) :
    Min (.fin false 7036874417766400 (-46)) (.fin s m e) =
      if lt (.fin false 7036874417766400 (-46)) (.fin s m e) then
        .fin false 7036874417766400 (-46)
      else .fin s m e := by
  have : eq (.fin false 7036874417766400 (-46)) zero = false := by decide
  simp [Min, isInf, isNaN, this]

theorem lt_zero_fin_false (m : Nat) (e : Int) : lt (.fin false m e) (.fin false 0 0) = false := by
  rw [← Bool.not_eq_true, lt_fin_iff, sval_false, sval_false]
  have : (0 : ℚ) ≤ (m : ℚ) * 2 ^ e := by positivity
  simp only [Nat.cast_zero, zero_mul, not_lt]
  exact this

/-- On the quotient of two non-negative numbers the composition of `math.Max` and
`math.Min` is the clamp of the specification. -/
theorem clamp_eq_spec (u : F64)
    (hu : u = .inf false ∨ ∃ m e, u = .fin false m e ∧ (m = 0 → e = 0)) :
    Max (ofNat 0) (Min (ofNat 100) u) = Spec.clamp u := by
  rcases hu with rfl | ⟨m, e, rfl, hcan⟩
  · decide
  · unfold Spec.clamp
    rw [ofNat_zero, ofNat_hundred, Min_hundred_fin, lt_zero_fin_false]
    simp only [Bool.false_eq_true, if_false]
    by_cases hlt : lt (.fin false 7036874417766400 (-46)) (.fin false m e) = true
    · rw [if_pos hlt]
      decide
    · rw [if_neg hlt]
      have h0 : eq (.fin false 0 0) zero = true := by decide
      by_cases heq : eq (.fin false 0 0) (.fin false m e) = true
      · have hm : m = 0 := by
          rw [eq_fin_iff, sval_false, sval_false] at heq
          have h2 : (m : ℚ) * 2 ^ e = 0 := by simpa using heq.symm
          have h3 : (2 : ℚ) ^ e ≠ 0 := by positivity
          rcases mul_eq_zero.mp h2 with h4 | h4
          · exact_mod_cast h4
          · exact absurd h4 h3
        have he := hcan hm
        subst hm
        subst he
        decide
      · simp [Max, isInf, isNaN, heq, lt_zero_fin_false]

end F64

theorem diffVal_lt (val valPrev : Nat) : diffVal val valPrev < 2 ^ 64 := by
  unfold diffVal u64add u64sub
  split_ifs <;> exact Nat.mod_lt _ (by norm_num)

/-- With a non-zero change of the total cycles the stored utilisation is the value the
specification describes; it does not depend on the run time. -/
theorem utilization_eq_spec (rt : Runtime) (work total : Nat)
    (ht : total < 2 ^ 64) (hne : total ≠ 0) :
    utilization rt work total = Spec.utilization work total := by
  unfold utilization Spec.utilization Spec.truncTenths
  simp only
  obtain ⟨mb, eb, hb, hmb⟩ := F64.ofNat_fin_pos _ hne ht
  have hu : F64.div (F64.mul (F64.ofNat 100) (F64.ofNat work)) (F64.ofNat total) = .inf false ∨
      ∃ m e, F64.div (F64.mul (F64.ofNat 100) (F64.ofNat work)) (F64.ofNat total) =
        .fin false m e ∧ (m = 0 → e = 0) := by
    rw [hb, F64.ofNat_hundred]
    have hp : F64.mul (.fin false 7036874417766400 (-46)) (F64.ofNat work) = .inf false ∨
        ∃ mp ep, F64.mul (.fin false 7036874417766400 (-46)) (F64.ofNat work) =
          .fin false mp ep := by
      unfold F64.ofNat
      rcases F64.round_cases false work 1 with ha | ⟨ma, ea, ha⟩
      · rw [ha]; left; simp [F64.mul]
      · rw [ha]
        obtain ⟨n, d, hmul, _, _⟩ := F64.mul_fin false false 7036874417766400 ma (-46) ea
        rw [hmul]
        exact F64.round_cases _ n d
    rcases hp with hp | ⟨mp, ep, hp⟩
    · rw [hp]; left; simp [F64.div]
    · rw [hp]
      obtain ⟨n, d, hdiv, _, _⟩ := F64.div_fin false false mp mb ep eb hmb
      rw [hdiv]
      exact F64.round_canonical _ n d
  have hnan : F64.div (F64.mul (F64.ofNat 100) (F64.ofNat work)) (F64.ofNat total) ≠ .nan := by
    rcases hu with h | ⟨m, e, h, _⟩ <;> rw [h] <;> simp
  obtain ⟨m, e, hc, hcv⟩ := F64.clamp_range _ hnan
  rw [← F64.clamp_eq_spec _ hu, hc]
  obtain ⟨q, _, hq⟩ := F64.mul_ten_trunc m e hcv
  rw [Runtime.toInt_of_trunc rt _ _ hq, hq]
  rfl

/-! ## Facts about Go maps -/

namespace GoMap

variable {V : Type}

theorem find_assign_same (l : List (String × V)) (k : String) (v : V) :
    find (assign l k v) k = some v := by
  induction l with
  | nil => simp [assign, find]
  | cons p l ih =>
    obtain ⟨k', w⟩ := p
    by_cases h : k' = k
    · simp [assign, find, h]
    · simp [assign, find, h, ih]

theorem find_assign_ne (l : List (String × V)) (k k' : String) (v : V) (h : k' ≠ k) :
    find (assign l k v) k' = find l k' := by
  induction l with
  | nil => simp [assign, find, Ne.symm h]
  | cons p l ih =>
    obtain ⟨k'', w⟩ := p
    by_cases h1 : k'' = k
    · subst h1
      simp [assign, find, Ne.symm h]
    · by_cases h2 : k'' = k'
      · subst h2
        simp [assign, find, h1]
      · simp [assign, find, h1, h2, ih]

theorem lookup_insert_same (m : GoMap V) (k : String) (v : V) :
    (m.insert k v).lookup k = some v := find_assign_same m.entries k v

theorem lookup_insert_ne (m : GoMap V) (k k' : String) (v : V) (h : k' ≠ k) :
    (m.insert k v).lookup k' = m.lookup k' := find_assign_ne m.entries k k' v h

theorem find_eq_none_iff (l : List (String × V)) (k : String) :
    find l k = none ↔ k ∉ l.map Prod.fst := by
  induction l with
  | nil => simp [find]
  | cons p l ih =>
    obtain ⟨k', w⟩ := p
    by_cases h : k' = k
    · simp [find, h]
    · simp [find, h, ih, Ne.symm h]

theorem find_mem (l : List (String × V)) (k : String) (v : V) (h : find l k = some v) :
    (k, v) ∈ l := by
  induction l with
  | nil => simp [find] at h
  | cons p l ih =>
    obtain ⟨k', w⟩ := p
    by_cases h1 : k' = k
    · simp [find, h1] at h
      simp [h1, h]
    · simp [find, h1] at h
      exact List.mem_cons_of_mem _ (ih h)

theorem find_of_mem_nodup (l : List (String × V)) (k : String) (v : V)
    (hn : (l.map Prod.fst).Nodup) (h : (k, v) ∈ l) : find l k = some v := by
  induction l with
  | nil => simp at h
  | cons p l ih =>
    obtain ⟨k', w⟩ := p
    simp only [List.map_cons, List.nodup_cons] at hn
    rcases List.mem_cons.mp h with h1 | h1
    · injection h1 with h2 h3
      simp [find, h2, h3]
    · have hk : k ∈ l.map Prod.fst := List.mem_map.mpr ⟨(k, v), h1, rfl⟩
      have hne : k' ≠ k := by
        intro he
        exact hn.1 (he ▸ hk)
      simp [find, hne, ih hn.2 h1]

theorem find_perm (l l' : List (String × V)) (k : String) (hn : (l.map Prod.fst).Nodup)
    (hp : l.Perm l') : find l k = find l' k := by
  have hn' : (l'.map Prod.fst).Nodup := (hp.map Prod.fst).nodup_iff.mp hn
  cases h : find l k with
  | none =>
    have h1 := (find_eq_none_iff l k).mp h
    have h2 : k ∉ l'.map Prod.fst := fun hc => h1 ((hp.map Prod.fst).mem_iff.mpr hc)
    exact ((find_eq_none_iff l' k).mpr h2).symm
  | some v =>
    have h1 := find_mem l k v h
    exact (find_of_mem_nodup l' k v hn' (hp.mem_iff.mp h1)).symm

theorem assign_of_not_mem (l : List (String × V)) (k : String) (v : V)
    (h : k ∉ l.map Prod.fst) : assign l k v = l ++ [(k, v)] := by
  induction l with
  | nil => simp [assign]
  | cons p l ih =>
    obtain ⟨k', w⟩ := p
    simp only [List.map_cons, List.mem_cons, not_or] at h
    simp [assign, Ne.symm h.1, ih h.2]

theorem mem_assign (l : List (String × V)) (k : String) (v : V) (p : String × V)
    (h : p ∈ assign l k v) : p = (k, v) ∨ p ∈ l := by
  induction l with
  | nil => simpa [assign] using h
  | cons q l ih =>
    obtain ⟨k', w⟩ := q
    by_cases h1 : k' = k
    · simp [assign, h1] at h
      rcases h with h | h
      · exact Or.inl h
      · exact Or.inr (List.mem_cons_of_mem _ h)
    · simp [assign, h1] at h
      rcases h with h | h
      · exact Or.inr (by simp [h])
      · rcases ih h with h2 | h2
        · exact Or.inl h2
        · exact Or.inr (List.mem_cons_of_mem _ h2)

theorem keys_assign (l : List (String × V)) (k : String) (v : V) :
    (assign l k v).map Prod.fst = if k ∈ l.map Prod.fst then l.map Prod.fst
      else l.map Prod.fst ++ [k] := by
  induction l with
  | nil => simp [assign]
  | cons p l ih =>
    obtain ⟨k', w⟩ := p
    by_cases h1 : k' = k
    · simp [assign, h1]
    · by_cases h2 : k ∈ l.map Prod.fst
      · simp only [assign, h1, if_false, List.map_cons, ih, h2, if_true, List.mem_cons, or_true]
      · simp only [assign, h1, if_false, List.map_cons, ih, h2, List.mem_cons, Ne.symm h1, or_self,
          List.cons_append]

theorem nodup_assign (l : List (String × V)) (k : String) (v : V)
    (hn : (l.map Prod.fst).Nodup) : ((assign l k v).map Prod.fst).Nodup := by
  rw [keys_assign]
  split_ifs with h
  · exact hn
  · exact List.Nodup.append hn (List.nodup_singleton k) (by
      intro a ha hb
      rw [List.mem_singleton] at hb
      exact h (hb ▸ ha))

theorem foldl_erase (L : List (String × V)) :
    ∀ m : GoMap V, (L.foldl (fun acc p => acc.erase p.1) m).entries =
      m.entries.filter (fun p => decide (p.1 ∉ L.map Prod.fst)) := by
  induction L with
  | nil => intro m; simp
  | cons q L ih =>
    intro m
    rw [List.foldl_cons, ih]
    simp only [erase, List.filter_filter, List.map_cons, List.mem_cons, not_or]
    congr 1
    funext p
    by_cases h1 : p.1 = q.1 <;> by_cases h2 : p.1 ∈ L.map Prod.fst <;> simp [h1, h2]

end GoMap

theorem clearMap_eq (rt : Runtime) {V : Type} (site : RangeSite) (m : GoMap V) :
    clearMap rt site m = GoMap.empty := by
  unfold clearMap Runtime.range
  have hp := rt.rangeOrder_perm site m.entries
  have h := GoMap.foldl_erase (rt.rangeOrder site m.entries) m
  have h2 : m.entries.filter (fun p => decide (p.1 ∉ (rt.rangeOrder site m.entries).map Prod.fst)) = [] := by
    rw [List.filter_eq_nil_iff]
    intro p hp'
    have : p.1 ∈ (rt.rangeOrder site m.entries).map Prod.fst :=
      List.mem_map.mpr ⟨p, hp.mem_iff.mpr hp', rfl⟩
    simp [this]
  rw [h2] at h
  cases hm : List.foldl (fun acc p => acc.erase p.1) m (rt.rangeOrder site m.entries) with
  | mk es =>
    rw [hm] at h
    simp only at h
    rw [h]
    rfl

theorem perm_pair {α : Type} (a b : α) (l : List α) (h : l.Perm [a, b]) :
    l = [a, b] ∨ l = [b, a] := by
  have hlen := h.length_eq
  match l, hlen with
  | [x, y], _ =>
    have hx : x ∈ [a, b] := h.mem_iff.mp (by simp)
    simp only [List.mem_cons, List.mem_singleton, List.not_mem_nil, or_false] at hx
    rcases hx with hx | hx
    · subst hx
      have h2 := (List.perm_cons x).mp h
      rw [List.perm_singleton] at h2
      left; rw [h2]
    · subst hx
      have h3 : [x, y].Perm [x, a] := h.trans (List.Perm.swap x a [])
      have h2 := (List.perm_cons x).mp h3
      rw [List.perm_singleton] at h2
      right; rw [h2]

theorem foldl_insert_lookup {V : Type} (L : List (String × V)) (hn : (L.map Prod.fst).Nodup) :
    ∀ (m : GoMap V) (k : String),
      (L.foldl (fun m kv => m.insert kv.1 kv.2) m).lookup k =
        match GoMap.find L k with
        | some v => some v
        | none => m.lookup k := by
  induction L with
  | nil => intro m k; simp [GoMap.find]
  | cons p L ih =>
    intro m k
    obtain ⟨k', w⟩ := p
    simp only [List.map_cons, List.nodup_cons] at hn
    rw [List.foldl_cons, ih hn.2]
    by_cases h : k' = k
    · subst h
      have h1 : GoMap.find L k' = none := (GoMap.find_eq_none_iff L k').mpr hn.1
      simp [GoMap.find, h1, GoMap.lookup_insert_same]
    · simp only [GoMap.find, h, if_false]
      rw [GoMap.lookup_insert_ne _ _ _ _ (Ne.symm h)]

/-- After `stashData` the previous snapshot binds every core of the source snapshot to the
source's counters and keeps every other binding it had. -/
theorem stashData_lookup (rt : Runtime) (dst src : iocoreStats) (k : String)
    (hn : src.stats.keys.Nodup) :
    (stashData rt dst src).stats.lookup k =
      match src.stats.lookup k with
      | some v => some v
      | none => dst.stats.lookup k := by
  unfold stashData Runtime.range
  have hp := rt.rangeOrder_perm .stash src.stats.entries
  have hn' : ((rt.rangeOrder .stash src.stats.entries).map Prod.fst).Nodup :=
    (hp.map Prod.fst).nodup_iff.mpr hn
  simp only
  rw [foldl_insert_lookup _ hn', GoMap.find_perm _ _ k hn' hp]
  simp only [GoMap.lookup]
  cases GoMap.find src.stats.entries k <;> rfl

theorem wellFormed_empty : WellFormed GoMap.empty :=
  ⟨List.nodup_nil, fun p hp => by simp [GoMap.empty] at hp⟩

theorem wellFormed_insert (stats : GoMap (GoMap Nat)) (k : String) (v : GoMap Nat)
    (h : WellFormed stats) (hv : IsCounters v) : WellFormed (stats.insert k v) := by
  refine ⟨GoMap.nodup_assign _ _ _ h.1, ?_⟩
  intro p hp
  rcases GoMap.mem_assign _ _ _ _ hp with h1 | h1
  · rw [h1]; exact hv
  · exact h.2 p h1

theorem isCounters_mk (w t : Nat) :
    IsCounters (((GoMap.empty : GoMap Nat).insert nTotalWorkCycles w).insert nTotalCycles t) := by
  refine ⟨w, t, ?_⟩
  have h : nTotalWorkCycles ≠ nTotalCycles := by decide
  simp [GoMap.insert, GoMap.empty, GoMap.assign, h]

theorem scanLoop_wellFormed (lines : List String) :
    ∀ stats, WellFormed stats → WellFormed (scanLoop lines stats).1 := by
  induction lines with
  | nil => intro stats h; exact h
  | cons line rest ih =>
    intro stats h
    unfold scanLoop
    split
    · exact ih _ (wellFormed_insert _ _ _ h (isCounters_mk _ _))
    · exact h

theorem isCounters_index (v : GoMap Nat) (h : IsCounters v) :
    v = ⟨[(nTotalWorkCycles, v.index nTotalWorkCycles), (nTotalCycles, v.index nTotalCycles)]⟩ := by
  obtain ⟨w, t, rfl⟩ := h
  have h' : nTotalWorkCycles ≠ nTotalCycles := by decide
  simp [GoMap.index, GoMap.lookup, GoMap.find, h']

/-- The inner loop of `calcDerivatives` leaves the changes of both counters in `data`,
whatever it held before and in whichever order the two keys are visited. -/
theorem diffLoop_index (rt : Runtime) (iocore : String) (w t : Nat) (pv data : GoMap Nat) :
    (diffLoop rt iocore ⟨[(nTotalWorkCycles, w), (nTotalCycles, t)]⟩ pv data).index
        nTotalWorkCycles = diffVal w (pv.index nTotalWorkCycles) ∧
    (diffLoop rt iocore ⟨[(nTotalWorkCycles, w), (nTotalCycles, t)]⟩ pv data).index
        nTotalCycles = diffVal t (pv.index nTotalCycles) := by
  have h' : nTotalWorkCycles ≠ nTotalCycles := by decide
  unfold diffLoop Runtime.range
  rcases perm_pair _ _ _ (rt.rangeOrder_perm (.derivInner iocore)
    [(nTotalWorkCycles, w), (nTotalCycles, t)]) with h | h
  · rw [h]
    simp only [List.foldl_cons, List.foldl_nil, GoMap.index]
    rw [GoMap.lookup_insert_ne _ _ _ _ h', GoMap.lookup_insert_same, GoMap.lookup_insert_same]
    exact ⟨rfl, rfl⟩
  · rw [h]
    simp only [List.foldl_cons, List.foldl_nil, GoMap.index]
    rw [GoMap.lookup_insert_same, GoMap.lookup_insert_ne _ _ _ _ (Ne.symm h'),
      GoMap.lookup_insert_same]
    exact ⟨rfl, rfl⟩

theorem string_append_right_cancel (a b s : String) (h : a ++ s = b ++ s) : a = b := by
  rw [String.ext_iff, String.data_append, String.data_append] at h
  exact String.ext (List.append_cancel_right h)

theorem key_inj (a b : String) (h : a ++ "/" ++ nCpuUtilization = b ++ "/" ++ nCpuUtilization) :
    a = b :=
  string_append_right_cancel _ _ _ (string_append_right_cancel _ _ _ h)

theorem derivStep_some (rt : Runtime) (prev : GoMap (GoMap Nat)) (st : GoMap F64 × GoMap Nat)
    (kv : String × GoMap Nat) (pv : GoMap Nat) (hc : IsCounters kv.2)
    (hp : prev.lookup kv.1 = some pv) :
    (derivStep rt prev st kv).1 =
      st.1.insert (kv.1 ++ "/" ++ nCpuUtilization) (coreUtilization rt kv.2 pv) := by
  unfold derivStep
  rw [hp]
  simp only
  have h := isCounters_index kv.2 hc
  have h2 := diffLoop_index rt kv.1 (kv.2.index nTotalWorkCycles) (kv.2.index nTotalCycles) pv st.2
  rw [← h] at h2
  rw [h2.1, h2.2]
  rfl

theorem derivStep_none (rt : Runtime) (prev : GoMap (GoMap Nat)) (st : GoMap F64 × GoMap Nat)
    (kv : String × GoMap Nat) (hp : prev.lookup kv.1 = none) :
    derivStep rt prev st kv = st := by
  unfold derivStep
  rw [hp]

/-- The outer loop of `calcDerivatives` appends one pair for every visited core that the
previous snapshot holds. -/
theorem derivOuter_entries (rt : Runtime) (prev : GoMap (GoMap Nat))
    (L : List (String × GoMap Nat)) (hn : (L.map Prod.fst).Nodup)
    (hw : ∀ p ∈ L, IsCounters p.2) :
    ∀ st : GoMap F64 × GoMap Nat,
      (∀ p ∈ L, p.1 ++ "/" ++ nCpuUtilization ∉ st.1.keys) →
      (L.foldl (derivStep rt prev) st).1.entries =
        st.1.entries ++ L.filterMap (derivEntry rt prev) := by
  induction L with
  | nil => intro st _; simp
  | cons kv L ih =>
    intro st hst
    simp only [List.map_cons, List.nodup_cons] at hn
    rw [List.foldl_cons]
    have hw' : ∀ p ∈ L, IsCounters p.2 := fun p hp => hw p (List.mem_cons_of_mem _ hp)
    have hst' : ∀ p ∈ L, p.1 ++ "/" ++ nCpuUtilization ∉ st.1.keys :=
      fun p hp => hst p (List.mem_cons_of_mem _ hp)
    cases hp : prev.lookup kv.1 with
    | none =>
      rw [derivStep_none rt prev st kv hp, ih hn.2 hw' st hst']
      simp [derivEntry, hp]
    | some pv =>
      have hkey : kv.1 ++ "/" ++ nCpuUtilization ∉ st.1.keys := hst kv (List.mem_cons_self _ _)
      have h1 := derivStep_some rt prev st kv pv (hw kv (List.mem_cons_self _ _)) hp
      have h2 : (derivStep rt prev st kv).1.entries =
          st.1.entries ++ [(kv.1 ++ "/" ++ nCpuUtilization, coreUtilization rt kv.2 pv)] := by
        rw [h1]
        exact GoMap.assign_of_not_mem _ _ _ hkey
      rw [ih hn.2 hw' (derivStep rt prev st kv) ?_, h2]
      · simp [derivEntry, hp]
      · intro p hp' hmem
        unfold GoMap.keys at hmem
        rw [h2, List.map_append, List.mem_append] at hmem
        rcases hmem with hmem | hmem
        · exact hst' p hp' hmem
        · simp only [List.map_cons, List.map_nil, List.mem_singleton] at hmem
          have := key_inj _ _ hmem
          exact hn.1 (List.mem_map.mpr ⟨p, hp', this⟩)

/-- The table `calcDerivatives` leaves behind when it starts from a cleared table: the
pairs of the cores that both snapshots hold, in visiting order, and the sum of their values
under the aggregate key. -/
theorem calcDerivatives_output (rt : Runtime) (dc : IOCoreCollector)
    (hout : dc.output = GoMap.empty) (hwf : WellFormed dc.data.stats) :
    ∃ L : List (String × GoMap Nat), L.Perm dc.data.stats.entries ∧
      ∃ S : List (String × F64), S.Perm (L.filterMap (derivEntry rt dc.dataPrev.stats)) ∧
        (calcDerivatives rt dc).output =
          (GoMap.mk (L.filterMap (derivEntry rt dc.dataPrev.stats))).insert
            ("cpu/" ++ nCpuUtilization) ((S.map Prod.snd).foldl F64.add (F64.ofNat 0)) := by
  have hp := rt.rangeOrder_perm .derivOuter dc.data.stats.entries
  refine ⟨rt.rangeOrder .derivOuter dc.data.stats.entries, hp, ?_⟩
  have hn : ((rt.rangeOrder .derivOuter dc.data.stats.entries).map Prod.fst).Nodup :=
    (hp.map Prod.fst).nodup_iff.mpr hwf.1
  have hw : ∀ p ∈ rt.rangeOrder .derivOuter dc.data.stats.entries, IsCounters p.2 :=
    fun p h => hwf.2 p (hp.mem_iff.mp h)
  have he := derivOuter_entries rt dc.dataPrev.stats _ hn hw (dc.output, GoMap.empty)
    (by intro p _; rw [hout]; simp [GoMap.keys, GoMap.empty])
  rw [hout] at he
  simp only [GoMap.empty, List.nil_append] at he
  have hout1 : ((rt.rangeOrder .derivOuter dc.data.stats.entries).foldl
      (derivStep rt dc.dataPrev.stats) (dc.output, GoMap.empty)).1 =
      GoMap.mk ((rt.rangeOrder .derivOuter dc.data.stats.entries).filterMap
        (derivEntry rt dc.dataPrev.stats)) := by
    cases hm : ((rt.rangeOrder .derivOuter dc.data.stats.entries).foldl
      (derivStep rt dc.dataPrev.stats) (dc.output, GoMap.empty)).1 with
    | mk es =>
      rw [hout] at hm
      simp only [GoMap.empty] at hm
      rw [hm] at he
      simp only at he
      rw [he]
  refine ⟨rt.rangeOrder .derivSum ((rt.rangeOrder .derivOuter dc.data.stats.entries).filterMap
    (derivEntry rt dc.dataPrev.stats)), rt.rangeOrder_perm _ _, ?_⟩
  unfold calcDerivatives Runtime.range
  simp only
  rw [hout1, List.foldl_map]

/-! ## One call of `CollectMetrics` -/

theorem CollectMetrics_eq (rt : Runtime) (fs : Vhost) (dc : IOCoreCollector) (m : MetricType)
    (rest : List MetricType) (content : String) (stats : GoMap (GoMap Nat)) (nr : Int)
    (h1 : fs.iocores_utilization = some content)
    (h2 : scanLoop (scanLines content) GoMap.empty = (stats, .ok ()))
    (h3 : getNumOfIOCores fs = .ok nr) :
    CollectMetrics rt fs dc (m :: rest) =
      (refreshed rt dc fs.now stats nr,
        collectLoop rt (refreshed rt dc fs.now stats nr) 0 (m :: rest) []) := by
  unfold CollectMetrics getIOCoreStats
  simp only [h1, clearMap_eq, h2, h3]
  cases hf : dc.first <;> simp [refreshed, hf]

theorem CollectMetrics_ok (rt : Runtime) (fs : Vhost) (dc dc' : IOCoreCollector)
    (mts out : List MetricType) (h : CollectMetrics rt fs dc mts = (dc', .ok out)) :
    ∃ content stats nr, fs.iocores_utilization = some content ∧
      scanLoop (scanLines content) GoMap.empty = (stats, .ok ()) ∧
      getNumOfIOCores fs = .ok nr ∧ dc' = refreshed rt dc fs.now stats nr ∧
      collectLoop rt dc' 0 mts [] = .ok out ∧ mts ≠ [] := by
  cases mts with
  | nil => simp [CollectMetrics] at h
  | cons m rest =>
    cases h1 : fs.iocores_utilization with
    | none =>
      simp [CollectMetrics, getIOCoreStats, h1] at h
    | some content =>
      cases h2 : scanLoop (scanLines content) GoMap.empty with
      | mk stats r =>
        cases r with
        | ok u =>
          cases h3 : getNumOfIOCores fs with
          | ok nr =>
            rw [CollectMetrics_eq rt fs dc m rest content stats nr h1 h2 h3] at h
            injection h with ha hb
            exact ⟨content, stats, nr, rfl, h2, rfl, ha.symm, by rw [← ha]; exact hb, by simp⟩
          | error =>
            simp [CollectMetrics, getIOCoreStats, h1, clearMap_eq, h2, h3] at h
          | panic =>
            simp [CollectMetrics, getIOCoreStats, h1, clearMap_eq, h2, h3] at h
        | error =>
          simp [CollectMetrics, getIOCoreStats, h1, clearMap_eq, h2] at h
        | panic =>
          simp [CollectMetrics, getIOCoreStats, h1, clearMap_eq, h2] at h

theorem refreshed_data (rt : Runtime) (dc : IOCoreCollector) (now : Nat)
    (stats : GoMap (GoMap Nat)) (nr : Int) :
    (refreshed rt dc now stats nr).data = { stats := stats, timestamp := now } := by
  unfold refreshed calcDerivatives
  cases dc.first <;> simp

theorem refreshed_first (rt : Runtime) (dc : IOCoreCollector) (now : Nat)
    (stats : GoMap (GoMap Nat)) (nr : Int) :
    (refreshed rt dc now stats nr).first = false := by
  unfold refreshed calcDerivatives
  cases dc.first <;> simp

theorem refreshed_dataPrev (rt : Runtime) (dc : IOCoreCollector) (now : Nat)
    (stats : GoMap (GoMap Nat)) (nr : Int) :
    (refreshed rt dc now stats nr).dataPrev =
      if dc.first then dc.dataPrev else stashData rt dc.dataPrev dc.data := by
  unfold refreshed calcDerivatives
  cases dc.first <;> simp

/-- A successful call leaves a snapshot as `getIOCoreStats` builds it. -/
theorem CollectMetrics_wellFormed (rt : Runtime) (fs : Vhost) (dc dc' : IOCoreCollector)
    (mts out : List MetricType) (h : CollectMetrics rt fs dc mts = (dc', .ok out)) :
    WellFormed dc'.data.stats ∧ dc'.first = false := by
  obtain ⟨content, stats, nr, _, h2, _, h4, _, _⟩ := CollectMetrics_ok rt fs dc dc' mts out h
  rw [h4, refreshed_data, refreshed_first]
  have := scanLoop_wellFormed (scanLines content) GoMap.empty wellFormed_empty
  rw [h2] at this
  exact ⟨this, rfl⟩

theorem key_ne_nr (r : String) : r ++ "/" ++ nCpuUtilization ≠ nNumIOcores := by
  intro h
  have hm : '/' ∈ (r ++ "/" ++ nCpuUtilization).data := by
    simp [String.data_append]
  rw [h] at hm
  revert hm
  decide

theorem cpu_key_eq : "cpu/" ++ nCpuUtilization = "cpu" ++ "/" ++ nCpuUtilization := by decide

theorem cpu_key_ne_nr : "cpu/" ++ nCpuUtilization ≠ nNumIOcores := by decide

theorem key_ne_cpu (r : String) (h : r ≠ "cpu") :
    r ++ "/" ++ nCpuUtilization ≠ "cpu/" ++ nCpuUtilization := by
  rw [cpu_key_eq]
  intro hc
  exact h (key_inj _ _ hc)

theorem find_filterMap_derivEntry (rt : Runtime) (P : GoMap (GoMap Nat))
    (L : List (String × GoMap Nat)) (hn : (L.map Prod.fst).Nodup) (r : String)
    (v pv : GoMap Nat) (hm : (r, v) ∈ L) (hp : P.lookup r = some pv) :
    GoMap.find (L.filterMap (derivEntry rt P)) (r ++ "/" ++ nCpuUtilization) =
      some (coreUtilization rt v pv) := by
  induction L with
  | nil => simp at hm
  | cons kv L ih =>
    simp only [List.map_cons, List.nodup_cons] at hn
    rcases List.mem_cons.mp hm with h1 | h1
    · subst h1
      simp [List.filterMap_cons, derivEntry, hp, GoMap.find]
    · have hne : kv.1 ≠ r := by
        intro he
        exact hn.1 (List.mem_map.mpr ⟨(r, v), h1, he.symm⟩)
      cases hq : P.lookup kv.1 with
      | none =>
        simp only [List.filterMap_cons, derivEntry, hq, Option.map_none']
        exact ih hn.2 h1
      | some qv =>
        simp only [List.filterMap_cons, derivEntry, hq, Option.map_some', GoMap.find]
        rw [if_neg (fun hc => hne (key_inj _ _ hc))]
        exact ih hn.2 h1

theorem find_filterMap_derivEntry_some (rt : Runtime) (P : GoMap (GoMap Nat))
    (L : List (String × GoMap Nat)) (key : String) (x : F64)
    (h : GoMap.find (L.filterMap (derivEntry rt P)) key = some x) :
    ∃ kv ∈ L, ∃ pv, P.lookup kv.1 = some pv ∧ key = kv.1 ++ "/" ++ nCpuUtilization := by
  have hm := GoMap.find_mem _ _ _ h
  rw [List.mem_filterMap] at hm
  obtain ⟨kv, hkv, hd⟩ := hm
  unfold derivEntry at hd
  cases hp : P.lookup kv.1 with
  | none => rw [hp] at hd; simp at hd
  | some pv =>
    rw [hp] at hd
    simp only [Option.map_some', Option.some.injEq, Prod.mk.injEq] at hd
    exact ⟨kv, hkv, pv, hp, hd.1.symm⟩

theorem refreshed_output_first (rt : Runtime) (dc : IOCoreCollector) (now : Nat)
    (stats : GoMap (GoMap Nat)) (nr : Int) (hf : dc.first = true) :
    (refreshed rt dc now stats nr).output =
      (GoMap.empty : GoMap F64).insert nNumIOcores (F64.ofInt nr) := by
  unfold refreshed
  simp [hf]

/-- The table of derived values after a call that is not the first one. -/
theorem refreshed_output (rt : Runtime) (dc : IOCoreCollector) (now : Nat)
    (stats : GoMap (GoMap Nat)) (nr : Int) (hf : dc.first = false) (hwf : WellFormed stats) :
    ∃ L : List (String × GoMap Nat), L.Perm stats.entries ∧
      ∃ S : List (String × F64),
        S.Perm (L.filterMap (derivEntry rt (stashData rt dc.dataPrev dc.data).stats)) ∧
        (refreshed rt dc now stats nr).output =
          ((GoMap.mk (L.filterMap (derivEntry rt (stashData rt dc.dataPrev dc.data).stats))).insert
            ("cpu/" ++ nCpuUtilization) ((S.map Prod.snd).foldl F64.add (F64.ofNat 0))).insert
            nNumIOcores (F64.ofInt nr) := by
  obtain ⟨L, hL, S, hS, hout⟩ := calcDerivatives_output rt
    { data := { stats := stats, timestamp := now }
      dataPrev := stashData rt dc.dataPrev dc.data
      output := GoMap.empty
      first := false } rfl hwf
  refine ⟨L, hL, S, hS, ?_⟩
  unfold refreshed
  simp only [hf, Bool.false_eq_true, if_false]
  rw [hout]

theorem refreshed_lookup_core (rt : Runtime) (dc : IOCoreCollector) (now : Nat)
    (stats : GoMap (GoMap Nat)) (nr : Int) (hf : dc.first = false) (hwf : WellFormed stats)
    (r : String) (v pv : GoMap Nat) (hv : stats.lookup r = some v)
    (hp : (stashData rt dc.dataPrev dc.data).stats.lookup r = some pv) (hr : r ≠ "cpu") :
    (refreshed rt dc now stats nr).output.lookup (r ++ "/" ++ nCpuUtilization) =
      some (coreUtilization rt v pv) := by
  obtain ⟨L, hL, S, _, hout⟩ := refreshed_output rt dc now stats nr hf hwf
  rw [hout, GoMap.lookup_insert_ne _ _ _ _ (key_ne_nr r),
    GoMap.lookup_insert_ne _ _ _ _ (key_ne_cpu r hr)]
  have hn : (L.map Prod.fst).Nodup := (hL.map Prod.fst).nodup_iff.mpr hwf.1
  have hm : (r, v) ∈ L := hL.mem_iff.mpr (GoMap.find_mem _ _ _ hv)
  exact find_filterMap_derivEntry rt _ L hn r v pv hm hp

/-- The state a successful call reaches from a collector that has collected before. -/
theorem second_tick (rt₁ rt₂ : Runtime) (fs₁ fs₂ : Vhost) (dc₀ dc₁ dc₂ : IOCoreCollector)
    (mts₁ mts₂ out₁ out₂ : List MetricType)
    (h₁ : CollectMetrics rt₁ fs₁ dc₀ mts₁ = (dc₁, .ok out₁))
    (h₂ : CollectMetrics rt₂ fs₂ dc₁ mts₂ = (dc₂, .ok out₂))
    (r : String) (v₁ v₂ : GoMap Nat) (hv₁ : dc₁.data.stats.lookup r = some v₁)
    (hv₂ : dc₂.data.stats.lookup r = some v₂) (hr : r ≠ "cpu") :
    dc₂.output.lookup (r ++ "/" ++ nCpuUtilization) = some (coreUtilization rt₂ v₂ v₁) := by
  obtain ⟨hwf₁, hf₁⟩ := CollectMetrics_wellFormed rt₁ fs₁ dc₀ dc₁ mts₁ out₁ h₁
  obtain ⟨hwf₂, _⟩ := CollectMetrics_wellFormed rt₂ fs₂ dc₁ dc₂ mts₂ out₂ h₂
  obtain ⟨content, stats, nr, _, _, _, h4, _, _⟩ := CollectMetrics_ok rt₂ fs₂ dc₁ dc₂ mts₂ out₂ h₂
  subst h4
  rw [refreshed_data] at hv₂ hwf₂
  have hp : (stashData rt₂ dc₁.dataPrev dc₁.data).stats.lookup r = some v₁ := by
    rw [stashData_lookup rt₂ _ _ r hwf₁.1, hv₁]
  exact refreshed_lookup_core rt₂ dc₁ fs₂.now stats nr hf₁ hwf₂ r v₂ v₁ hv₂ hp hr

/-! ## The loop over the requested metrics -/

theorem foundFold_eq (dc : IOCoreCollector) (wn name : String) (L : List (String × F64)) :
    ∀ (metrics : List MetricType) (b : Bool),
      L.foldl (fun (acc : List MetricType × Bool) kv =>
          if lastSegment kv.1 = name then (acc.1 ++ [foundMetric dc wn kv.1], true) else acc)
        (metrics, b) =
      (metrics ++ ((L.map Prod.fst).filter (fun key => decide (lastSegment key = name))).map
          (foundMetric dc wn),
        b || decide ((L.map Prod.fst).filter (fun key => decide (lastSegment key = name)) ≠ [])) := by
  induction L with
  | nil => intro metrics b; simp
  | cons kv L ih =>
    intro metrics b
    rw [List.foldl_cons]
    by_cases h : lastSegment kv.1 = name
    · rw [if_pos h, ih]
      simp [List.filter_cons, h]
    · rw [if_neg h, ih, List.map_cons, List.filter_cons_of_neg (by simpa using h)]

theorem zeroFold_eq (dc : IOCoreCollector) (wn name : String) (L : List (String × GoMap Nat)) :
    ∀ (metrics : List MetricType),
      L.foldl (fun (acc : List MetricType) kv =>
          if lastSegment kv.1 = name then acc ++ [zeroMetric dc wn kv.1] else acc) metrics =
      metrics ++ ((L.map Prod.fst).filter (fun key => decide (lastSegment key = name))).map
          (zeroMetric dc wn) := by
  induction L with
  | nil => intro metrics; simp
  | cons kv L ih =>
    intro metrics
    rw [List.foldl_cons]
    by_cases h : lastSegment kv.1 = name
    · rw [if_pos h, ih]
      simp [List.filter_cons, h]
    · rw [if_neg h, ih]
      simp [List.filter_cons, h]

/-- The keys of a map in the order in which the loop at `site` visits them. -/
theorem range_keys_perm (rt : Runtime) {V : Type} (site : RangeSite) (m : GoMap V) :
    ((rt.range site m).map Prod.fst).Perm m.keys :=
  (rt.rangeOrder_perm site m.entries).map Prod.fst

/-- A wildcard request whose metric name ends some key of the table of derived values is
answered from that table. -/
theorem collectOne_wild_found (rt : Runtime) (dc : IOCoreCollector) (j : Nat) (m : MetricType)
    (metrics : List MetricType) (wild last : NamespaceElement)
    (hlen : 2 ≤ m.Namespace_.length)
    (hw : m.Namespace_[m.Namespace_.length - 2]? = some wild)
    (hl : m.Namespace_[m.Namespace_.length - 1]? = some last)
    (hstar : wild.Value = "*")
    (hex : ∃ key ∈ dc.output.keys, lastSegment key = last.Value) :
    collectOne rt dc j m metrics =
      .ok (metrics ++ ((((rt.range (.emitOutput j) dc.output).map Prod.fst).filter
        (fun key => decide (lastSegment key = last.Value))).map (foundMetric dc wild.Name))) := by
  unfold collectOne
  simp only [hw, hl, hstar, if_true, foundFold_eq, Bool.false_or]
  rw [if_neg (by omega)]
  have hne : ((rt.range (.emitOutput j) dc.output).map Prod.fst).filter
      (fun key => decide (lastSegment key = last.Value)) ≠ [] := by
    obtain ⟨key, hk, hs⟩ := hex
    have hk' : key ∈ (rt.range (.emitOutput j) dc.output).map Prod.fst :=
      (range_keys_perm rt _ dc.output).mem_iff.mpr hk
    intro hnil
    have : key ∈ ((rt.range (.emitOutput j) dc.output).map Prod.fst).filter
        (fun key => decide (lastSegment key = last.Value)) :=
      List.mem_filter.mpr ⟨hk', by simp [hs]⟩
    rw [hnil] at this
    simp at this
  simp [hne]

/-- A wildcard request whose metric name ends no key of the table of derived values is
answered from the current snapshot, with zeros. -/
theorem collectOne_wild_fallback (rt : Runtime) (dc : IOCoreCollector) (j : Nat)
    (m : MetricType) (metrics : List MetricType) (wild last : NamespaceElement)
    (hlen : 2 ≤ m.Namespace_.length)
    (hw : m.Namespace_[m.Namespace_.length - 2]? = some wild)
    (hl : m.Namespace_[m.Namespace_.length - 1]? = some last)
    (hstar : wild.Value = "*")
    (hex : ∀ key ∈ dc.output.keys, lastSegment key ≠ last.Value) :
    collectOne rt dc j m metrics =
      .ok (metrics ++ ((((rt.range (.emitStats j) dc.data.stats).map Prod.fst).filter
        (fun key => decide (lastSegment key = last.Value))).map (zeroMetric dc wild.Name))) := by
  unfold collectOne
  simp only [hw, hl, hstar, if_true, foundFold_eq, Bool.false_or, zeroFold_eq]
  rw [if_neg (by omega)]
  have hnil : ((rt.range (.emitOutput j) dc.output).map Prod.fst).filter
      (fun key => decide (lastSegment key = last.Value)) = [] := by
    rw [List.filter_eq_nil_iff]
    intro key hk
    have hk' : key ∈ dc.output.keys := (range_keys_perm rt _ dc.output).mem_iff.mp hk
    simp [hex key hk']
  simp [hnil]

/-- A static request is looked up in the table of derived values. -/
theorem collectOne_static (rt : Runtime) (dc : IOCoreCollector) (j : Nat) (m : MetricType)
    (metrics : List MetricType) (wild : NamespaceElement)
    (hlen : 3 ≤ m.Namespace_.length)
    (hw : m.Namespace_[m.Namespace_.length - 2]? = some wild)
    (hstar : wild.Value ≠ "*") :
    collectOne rt dc j m metrics =
      .ok (metrics ++
        match dc.output.lookup (Join ((Strings m.Namespace_).drop 3)) with
        | some v => [{ Namespace_ := m.Namespace_, Data_ := .float64 v,
                       Timestamp_ := dc.data.timestamp }]
        | none => []) := by
  have hl : ∃ last, m.Namespace_[m.Namespace_.length - 1]? = some last := by
    have : m.Namespace_.length - 1 < m.Namespace_.length := by omega
    exact ⟨_, List.getElem?_eq_getElem this⟩
  obtain ⟨last, hl⟩ := hl
  unfold collectOne
  simp only [hw, hl, hstar, if_false]
  rw [if_neg (by omega)]
  have hp : parseNamespace (Strings m.Namespace_) = .ok (Join ((Strings m.Namespace_).drop 3)) := by
    unfold parseNamespace
    have h3 : nsPrefix.length = 3 := rfl
    rw [h3, if_neg]
    simp only [Strings, List.length_map]
    omega
  rw [hp]
  simp only
  cases dc.output.lookup (Join ((Strings m.Namespace_).drop 3)) <;> simp

theorem namespace_last_two (ns : List NamespaceElement) (hlen : 2 ≤ ns.length) :
    ∃ wild last, ns[ns.length - 2]? = some wild ∧ ns[ns.length - 1]? = some last := by
  have h1 : ns.length - 2 < ns.length := by omega
  have h2 : ns.length - 1 < ns.length := by omega
  exact ⟨_, _, List.getElem?_eq_getElem h1, List.getElem?_eq_getElem h2⟩

theorem collectOne_short (rt : Runtime) (dc : IOCoreCollector) (j : Nat) (m : MetricType)
    (metrics : List MetricType) (hlen : m.Namespace_.length < 2) :
    collectOne rt dc j m metrics = .panic := by
  unfold collectOne
  simp only
  rw [if_pos hlen]

theorem collectOne_static_short (rt : Runtime) (dc : IOCoreCollector) (j : Nat)
    (m : MetricType) (metrics : List MetricType) (wild : NamespaceElement)
    (hlen : m.Namespace_.length = 2)
    (hw : m.Namespace_[m.Namespace_.length - 2]? = some wild)
    (hstar : wild.Value ≠ "*") :
    collectOne rt dc j m metrics = .panic := by
  obtain ⟨wild', last, hw', hl⟩ := namespace_last_two m.Namespace_ (by omega)
  unfold collectOne
  simp only [hw, hl, hstar, if_false]
  rw [if_neg (by omega)]
  have hp : parseNamespace (Strings m.Namespace_) = .panic := by
    unfold parseNamespace
    have h3 : nsPrefix.length = 3 := rfl
    rw [h3, if_pos]
    simp only [Strings, List.length_map]
    omega
  rw [hp]

/-- Whatever one pass of the loop returns without panic keeps the metrics collected so
far and depends on them in no other way. -/
theorem collectOne_append (rt : Runtime) (dc : IOCoreCollector) (j : Nat) (m : MetricType)
    (metrics out : List MetricType) (h : collectOne rt dc j m metrics = .ok out) :
    ∃ part, collectOne rt dc j m [] = .ok part ∧ out = metrics ++ part := by
  by_cases hlen : m.Namespace_.length < 2
  · rw [collectOne_short rt dc j m metrics hlen] at h
    simp at h
  · obtain ⟨wild, last, hw, hl⟩ := namespace_last_two m.Namespace_ (by omega)
    by_cases hstar : wild.Value = "*"
    · by_cases hex : ∃ key ∈ dc.output.keys, lastSegment key = last.Value
      · rw [collectOne_wild_found rt dc j m metrics wild last (by omega) hw hl hstar hex] at h
        rw [collectOne_wild_found rt dc j m [] wild last (by omega) hw hl hstar hex]
        injection h with h
        exact ⟨_, rfl, by rw [← h]; simp⟩
      · have hex' : ∀ key ∈ dc.output.keys, lastSegment key ≠ last.Value := by
          intro key hk hc
          exact hex ⟨key, hk, hc⟩
        rw [collectOne_wild_fallback rt dc j m metrics wild last (by omega) hw hl hstar hex'] at h
        rw [collectOne_wild_fallback rt dc j m [] wild last (by omega) hw hl hstar hex']
        injection h with h
        exact ⟨_, rfl, by rw [← h]; simp⟩
    · by_cases h3 : 3 ≤ m.Namespace_.length
      · rw [collectOne_static rt dc j m metrics wild h3 hw hstar] at h
        rw [collectOne_static rt dc j m [] wild h3 hw hstar]
        injection h with h
        exact ⟨_, rfl, by rw [← h]; simp⟩
      · rw [collectOne_static_short rt dc j m metrics wild (by omega) hw hstar] at h
        simp at h

/-- The loop over the requested metrics answers the requests one after the other. -/
theorem collectLoop_parts (rt : Runtime) (dc : IOCoreCollector) (mts : List MetricType) :
    ∀ (j : Nat) (metrics out : List MetricType),
      collectLoop rt dc j mts metrics = .ok out →
      ∃ parts : List (List MetricType), out = metrics ++ parts.flatten ∧
        parts.length = mts.length ∧
        ∀ i m, mts[i]? = some m →
          ∃ part, parts[i]? = some part ∧ collectOne rt dc (j + i) m [] = .ok part := by
  induction mts with
  | nil =>
    intro j metrics out h
    simp only [collectLoop] at h
    injection h with h
    exact ⟨[], by simp [h], rfl, by simp⟩
  | cons m rest ih =>
    intro j metrics out h
    unfold collectLoop at h
    cases h1 : collectOne rt dc j m metrics with
    | ok metrics' =>
      rw [h1] at h
      simp only at h
      obtain ⟨part, hp1, hp2⟩ := collectOne_append rt dc j m metrics metrics' h1
      obtain ⟨parts, ho, hlen, hall⟩ := ih (j + 1) metrics' out h
      refine ⟨part :: parts, ?_, by simp [hlen], ?_⟩
      · rw [ho, hp2]
        simp
      · intro i m' hi
        cases i with
        | zero =>
          simp only [List.getElem?_cons_zero, Option.some.injEq] at hi
          subst hi
          exact ⟨part, by simp, by simpa using hp1⟩
        | succ i =>
          simp only [List.getElem?_cons_succ] at hi
          obtain ⟨part', hq1, hq2⟩ := hall i m' hi
          refine ⟨part', by simpa using hq1, ?_⟩
          rw [show j + (i + 1) = j + 1 + i by omega]
          exact hq2
    | error => rw [h1] at h; simp at h
    | panic => rw [h1] at h; simp at h

/-! ## Keys and namespaces -/

theorem splitOnChar_ne_nil (sep : Char) (l : List Char) : splitOnChar sep l ≠ [] := by
  cases l with
  | nil => simp [splitOnChar]
  | cons c cs =>
    unfold splitOnChar
    split_ifs
    · simp
    · split <;> simp

theorem joinChars_splitOnChar (sep : Char) (l : List Char) :
    joinChars sep (splitOnChar sep l) = l := by
  induction l with
  | nil => simp [splitOnChar, joinChars]
  | cons c cs ih =>
    unfold splitOnChar
    split_ifs with h
    · cases hs : splitOnChar sep cs with
      | nil => exact absurd hs (splitOnChar_ne_nil sep cs)
      | cons w ws =>
        rw [hs] at ih
        simp [joinChars, ih, h]
    · cases hs : splitOnChar sep cs with
      | nil => exact absurd hs (splitOnChar_ne_nil sep cs)
      | cons w ws =>
        rw [hs] at ih
        cases ws with
        | nil =>
          simp only [joinChars] at ih ⊢
          rw [ih]
        | cons w' ws' =>
          simp only [joinChars] at ih ⊢
          rw [← ih]
          simp

theorem splitOnChar_append_sep (sep : Char) (a b : List Char) :
    splitOnChar sep (a ++ sep :: b) = splitOnChar sep a ++ splitOnChar sep b := by
  induction a with
  | nil => simp [splitOnChar]
  | cons c cs ih =>
    rw [List.cons_append]
    by_cases h : c = sep
    · simp only [splitOnChar, h, if_true, ih, List.cons_append]
    · cases hs : splitOnChar sep cs with
      | nil => exact absurd hs (splitOnChar_ne_nil sep cs)
      | cons w ws =>
        simp only [splitOnChar, h, if_false, ih, hs, List.cons_append]

theorem splitOnChar_no_sep (sep : Char) (b : List Char) (h : sep ∉ b) :
    splitOnChar sep b = [b] := by
  induction b with
  | nil => simp [splitOnChar]
  | cons c cs ih =>
    simp only [List.mem_cons, not_or] at h
    unfold splitOnChar
    rw [if_neg (Ne.symm h.1), ih h.2]

theorem Split_injective (a b : String) (h : Split a = Split b) : a = b := by
  unfold Split at h
  have h1 : splitOnChar '/' a.data = splitOnChar '/' b.data := by
    apply List.map_injective_iff.mpr _ h
    intro x y hxy
    injection hxy
  have h2 := congrArg (joinChars '/') h1
  rw [joinChars_splitOnChar, joinChars_splitOnChar] at h2
  exact String.ext h2

theorem Split_key (r name : String) (h : '/' ∉ name.data) :
    Split (r ++ "/" ++ name) = Split r ++ [name] := by
  unfold Split
  have hd : (r ++ "/" ++ name).data = r.data ++ '/' :: name.data := by
    simp [String.data_append]
  rw [hd, splitOnChar_append_sep, splitOnChar_no_sep _ _ h]
  simp

theorem Split_single (r : String) (h : '/' ∉ r.data) : Split r = [r] := by
  unfold Split
  rw [splitOnChar_no_sep _ _ h]
  simp

theorem lastSegment_key (r name : String) (h : '/' ∉ name.data) :
    lastSegment (r ++ "/" ++ name) = name := by
  unfold lastSegment
  rw [Split_key r name h]
  simp

theorem lastSegment_cpu_key : lastSegment ("cpu/" ++ nCpuUtilization) = nCpuUtilization := by
  decide

theorem Strings_NewNamespace (l : List String) : Strings (NewNamespace l) = l := by
  unfold Strings NewNamespace
  induction l with
  | nil => rfl
  | cons a l ih => simp only [List.map_cons, ih]

theorem Strings_setNameAt (ns : List NamespaceElement) :
    ∀ (i : Nat) (name : String), Strings (setNameAt ns i name) = Strings ns := by
  induction ns with
  | nil => intro i name; rfl
  | cons el els ih =>
    intro i name
    cases i with
    | zero => simp [setNameAt, Strings]
    | succ i =>
      have := ih i name
      simp only [Strings] at this
      simp [setNameAt, Strings, this]

theorem foundMetric_strings (dc : IOCoreCollector) (wn key : String) :
    Strings (foundMetric dc wn key).Namespace_ = nsPrefix ++ Split key := by
  unfold foundMetric createNamespace
  simp only
  rw [Strings_setNameAt, Strings_NewNamespace]

theorem derivEntries_nodup (rt : Runtime) (P : GoMap (GoMap Nat))
    (L : List (String × GoMap Nat)) (hn : (L.map Prod.fst).Nodup) :
    ((L.filterMap (derivEntry rt P)).map Prod.fst).Nodup := by
  induction L with
  | nil => simp
  | cons kv L ih =>
    simp only [List.map_cons, List.nodup_cons] at hn
    cases hp : P.lookup kv.1 with
    | none =>
      simp only [List.filterMap_cons, derivEntry, hp, Option.map_none']
      exact ih hn.2
    | some pv =>
      simp only [List.filterMap_cons, derivEntry, hp, Option.map_some', List.map_cons,
        List.nodup_cons]
      refine ⟨?_, ih hn.2⟩
      intro hmem
      rw [List.mem_map] at hmem
      obtain ⟨e, he, hk⟩ := hmem
      rw [List.mem_filterMap] at he
      obtain ⟨kv', hkv', hd⟩ := he
      unfold derivEntry at hd
      cases hq : P.lookup kv'.1 with
      | none => rw [hq] at hd; simp at hd
      | some qv =>
        rw [hq] at hd
        simp only [Option.map_some', Option.some.injEq] at hd
        rw [← hd] at hk
        simp only at hk
        have := key_inj _ _ hk
        exact hn.1 (List.mem_map.mpr ⟨kv', hkv', this⟩)

/-- After a successful call no key occurs twice in the table of derived values. -/
theorem CollectMetrics_output_nodup (rt : Runtime) (fs : Vhost) (dc dc' : IOCoreCollector)
    (mts out : List MetricType) (h : CollectMetrics rt fs dc mts = (dc', .ok out)) :
    dc'.output.keys.Nodup := by
  obtain ⟨content, stats, nr, _, h2, _, h4, _, _⟩ := CollectMetrics_ok rt fs dc dc' mts out h
  have hwf := scanLoop_wellFormed (scanLines content) GoMap.empty wellFormed_empty
  rw [h2] at hwf
  subst h4
  cases hf : dc.first with
  | true =>
    rw [refreshed_output_first rt dc fs.now stats nr hf]
    exact GoMap.nodup_assign _ _ _ List.nodup_nil
  | false =>
    obtain ⟨L, hL, S, _, hout⟩ := refreshed_output rt dc fs.now stats nr hf hwf
    rw [hout]
    apply GoMap.nodup_assign
    apply GoMap.nodup_assign
    exact derivEntries_nodup rt _ L ((hL.map Prod.fst).nodup_iff.mpr hwf.1)

/-- The metrics a successful call returns, request by request. -/
theorem CollectMetrics_parts (rt : Runtime) (fs : Vhost) (dc dc' : IOCoreCollector)
    (mts out : List MetricType) (h : CollectMetrics rt fs dc mts = (dc', .ok out)) :
    ∃ parts : List (List MetricType), out = parts.flatten ∧ parts.length = mts.length ∧
      ∀ j m, mts[j]? = some m →
        ∃ part, parts[j]? = some part ∧ collectOne rt dc' j m [] = .ok part := by
  obtain ⟨_, _, _, _, _, _, _, h5, _⟩ := CollectMetrics_ok rt fs dc dc' mts out h
  obtain ⟨parts, h1, h2, h3⟩ := collectLoop_parts rt dc' mts 0 [] out h5
  refine ⟨parts, by simpa using h1, h2, ?_⟩
  intro j m hj
  obtain ⟨part, hp1, hp2⟩ := h3 j m hj
  exact ⟨part, hp1, by simpa using hp2⟩

/-! ## The last segment of a key -/

theorem takeWhile_ne_split (sep : Char) (m : List Char) :
    ∃ rest : List Char, m = m.takeWhile (fun c => c ≠ sep) ++ rest ∧
      (rest = [] ∨ ∃ tl : List Char, rest = sep :: tl) := by
  induction m with
  | nil => exact ⟨[], by simp, Or.inl rfl⟩
  | cons c m ih =>
    by_cases h : c = sep
    · refine ⟨c :: m, ?_, Or.inr ⟨m, by rw [h]⟩⟩
      rw [List.takeWhile_cons_of_neg (by simpa using h)]
      rfl
    · obtain ⟨rest, h1, h2⟩ := ih
      refine ⟨rest, ?_, h2⟩
      rw [List.takeWhile_cons_of_pos (by simpa using h), List.cons_append, ← h1]

theorem not_mem_takeWhile_ne (sep : Char) (m : List Char) :
    sep ∉ (m.takeWhile (fun c => c ≠ sep)).reverse := by
  intro hmem
  have := List.mem_takeWhile_imp (List.mem_reverse.mp hmem)
  simp at this

theorem splitOnChar_getLast (sep : Char) (l : List Char) :
    (splitOnChar sep l).getLast? = some (l.reverse.takeWhile (fun c => c ≠ sep)).reverse := by
  obtain ⟨rest, h1, h2⟩ := takeWhile_ne_split sep l.reverse
  have hl : l = rest.reverse ++ (l.reverse.takeWhile (fun c => c ≠ sep)).reverse := by
    have := congrArg List.reverse h1
    rwa [List.reverse_reverse, List.reverse_append] at this
  have hT := not_mem_takeWhile_ne sep l.reverse
  rcases h2 with h2 | ⟨tl, h2⟩
  · rw [h2, List.reverse_nil, List.nil_append] at hl
    have hs : splitOnChar sep l = [(l.reverse.takeWhile (fun c => c ≠ sep)).reverse] := by
      conv_lhs => rw [hl]
      exact splitOnChar_no_sep _ _ hT
    rw [hs]
    rfl
  · rw [h2, List.reverse_cons, List.append_assoc, List.singleton_append] at hl
    have hs : splitOnChar sep l =
        splitOnChar sep tl.reverse ++ [(l.reverse.takeWhile (fun c => c ≠ sep)).reverse] := by
      conv_lhs => rw [hl]
      rw [splitOnChar_append_sep, splitOnChar_no_sep _ _ hT]
    rw [hs, List.getLast?_append_of_ne_nil _ (by simp)]
    rfl

/-- The segment that the code compares with the requested metric name is the last
`/`-separated segment of the key. -/
theorem lastSegment_eq_spec (key : String) : lastSegment key = Spec.lastSegment key := by
  unfold lastSegment Split Spec.lastSegment
  rw [List.getLast?_map, splitOnChar_getLast]
  rfl

/-- A key whose last segment is `name` is `name` itself or some `r/name`. -/
theorem lastSegment_form (key name : String) (h : Spec.lastSegment key = name) :
    key = name ∨ ∃ r : String, key = r ++ "/" ++ name := by
  have hd : (key.data.reverse.takeWhile (fun c => c ≠ '/')).reverse = name.data := by
    rw [← h]
    rfl
  obtain ⟨rest, h1, h2⟩ := takeWhile_ne_split '/' key.data.reverse
  have hl : key.data = rest.reverse ++ name.data := by
    have := congrArg List.reverse h1
    rwa [List.reverse_reverse, List.reverse_append, hd] at this
  rcases h2 with h2 | ⟨tl, h2⟩
  · left
    apply String.ext
    rw [hl, h2]
    rfl
  · right
    refine ⟨String.mk tl.reverse, ?_⟩
    apply String.ext
    rw [hl, h2]
    simp [String.data_append]

/-- Every key `r/name` has the last segment `name`. -/
theorem lastSegment_spec_key (r name : String) (h : '/' ∉ name.data) :
    Spec.lastSegment (r ++ "/" ++ name) = name := by
  rw [← lastSegment_eq_spec, lastSegment_key r name h]

/-! ## The counters of a line -/

theorem decimalFrom_nil (n : Nat) : decimalFrom n [] = n := rfl

theorem decimalFrom_cons (n : Nat) (c : Char) (cs : List Char) :
    decimalFrom n (c :: cs) = decimalFrom (n * 10 + (c.toNat - '0'.toNat)) cs := rfl

theorem le_decimalFrom (cs : List Char) : ∀ n : Nat, n ≤ decimalFrom n cs := by
  induction cs with
  | nil => intro n; exact le_refl _
  | cons c cs ih =>
    intro n
    rw [decimalFrom_cons]
    exact le_trans (by omega) (ih _)

theorem uintMax_eq : uintMax = 18446744073709551615 := by
  unfold uintMax
  norm_num

/-- The digit loop of `strconv.ParseUint` in closed form: a range error as soon as the
leading digits pass `max_uint64`, else the number for a text of digits, else a syntax
error with the value `0`. -/
theorem parseUintLoop_spec (cs : List Char) : ∀ n : Nat, n ≤ uintMax →
    parseUintLoop cs n =
      if uintMax < decimalFrom n (cs.takeWhile isDigit) then (uintMax, true)
      else if cs.all isDigit = true then (decimalFrom n cs, false) else (0, true) := by
  induction cs with
  | nil =>
    intro n hn
    simp only [parseUintLoop, List.takeWhile_nil, decimalFrom_nil, List.all_nil, if_true]
    rw [if_neg (by omega)]
  | cons c cs ih =>
    intro n hn
    by_cases hd : '0' ≤ c ∧ c ≤ '9'
    · have hdig : isDigit c = true := by simp [isDigit, hd]
      rw [List.takeWhile_cons_of_pos hdig]
      simp only [List.all_cons, hdig, Bool.true_and]
      unfold parseUintLoop
      rw [if_pos hd]
      simp only [decimalFrom_cons]
      by_cases h1 : uintMax / 10 + 1 ≤ n
      · rw [if_pos h1, if_pos]
        have := le_decimalFrom (cs.takeWhile isDigit) (n * 10 + (c.toNat - '0'.toNat))
        rw [uintMax_eq] at h1 ⊢
        omega
      · rw [if_neg h1]
        by_cases h2 : uintMax < n * 10 + (c.toNat - '0'.toNat)
        · rw [if_pos h2, if_pos]
          have := le_decimalFrom (cs.takeWhile isDigit) (n * 10 + (c.toNat - '0'.toNat))
          omega
        · rw [if_neg h2]
          exact ih _ (by omega)
    · have hdig : isDigit c = false := by simp [isDigit, hd]
      rw [List.takeWhile_cons_of_neg (by simp [hdig])]
      simp only [List.all_cons, hdig, Bool.false_and]
      unfold parseUintLoop
      rw [if_neg hd]
      simp only [decimalFrom_nil]
      rw [if_neg (by omega)]
      simp

theorem takeWhile_of_all (p : Char → Bool) (l : List Char) (h : l.all p = true) :
    l.takeWhile p = l := by
  induction l with
  | nil => rfl
  | cons c cs ih =>
    simp only [List.all_cons, Bool.and_eq_true] at h
    rw [List.takeWhile_cons_of_pos h.1, ih h.2]

/-- The function `strconv.ParseUint(field, 10, 64)` in closed form. -/
theorem ParseUint_spec (field : String) :
    (IsUint64 field → ParseUint field = (decimal field.data, false)) ∧
    (¬ IsUint64 field → ParseUint field =
      (if uintMax < decimal (field.data.takeWhile isDigit) then uintMax else 0, true)) := by
  unfold IsUint64 ParseUint decimal
  by_cases he : field.data = []
  · simp [he, decimalFrom_nil]
  · rw [if_neg he, parseUintLoop_spec _ 0 (Nat.zero_le _)]
    by_cases hall : field.data.all isDigit = true
    · rw [takeWhile_of_all _ _ hall]
      by_cases hle : decimalFrom 0 field.data ≤ uintMax
      · constructor
        · intro _
          rw [if_neg (by omega), if_pos hall]
        · intro hn
          exact absurd ⟨he, hall, hle⟩ hn
      · constructor
        · intro hp
          exact absurd hp.2.2 hle
        · intro _
          rw [if_pos (by omega), if_pos (by omega)]
    · constructor
      · intro hp
        exact absurd hp.2.1 hall
      · intro _
        by_cases hA : uintMax < decimalFrom 0 (field.data.takeWhile isDigit)
        · rw [if_pos hA, if_pos hA]
        · rw [if_neg hA, if_neg hall, if_neg hA]

/-! ## The claims -/

/-- C2: for 64-bit counter values the change computed in `calcDerivatives` is the plain
difference when the counter did not wrap and `(max_uint64 - prev) + curr + 1` when it did;
no intermediate sum leaves the 64-bit range, and the result is `(curr - prev) mod 2 ^ 64`
(in particular it is never negative). -/
theorem diffVal_wraparound (prev curr : Nat) (hp : prev < 2 ^ 64) (hc : curr < 2 ^ 64) :
    (prev ≤ curr → diffVal curr prev = curr - prev) ∧
    (curr < prev → diffVal curr prev = (uintMax - prev) + curr + 1 ∧
      1 + curr < 2 ^ 64 ∧ prev ≤ uintMax ∧ 1 + curr + (uintMax - prev) < 2 ^ 64) ∧
    (0 : Int) ≤ (diffVal curr prev : Int) ∧
    (diffVal curr prev : Int) = ((curr : Int) - (prev : Int)) % 2 ^ 64 := by
  unfold diffVal u64add u64sub uintMax
  refine ⟨?_, ?_, ?_, ?_⟩
  · intro h
    rw [if_neg (by omega)]
    omega
  · intro h
    rw [if_pos h]
    omega
  · omega
  · split_ifs with h <;> omega

theorem diffVal_wraparound_witness :
    (uintMax - 5 < 2 ^ 64 ∧ 10 < 2 ^ 64 ∧ 10 < uintMax - 5) ∧ diffVal 10 (uintMax - 5) = 16 :=
  ⟨by decide,
    (((diffVal_wraparound (uintMax - 5) 10 (by decide) (by decide)).2.1 (by decide)).1).trans
      (by decide)⟩

/-- C3, as amended: when the change of the total cycles is not zero the stored
utilisation is a number between `0.0` and `100.0`; when it is zero and the change of the
work cycles is not, the stored utilisation is `100.0`. -/
theorem utilization_bounds (rt : Runtime) (work total : Nat) (ht : total < 2 ^ 64) :
    (total ≠ 0 → F64.le (F64.ofNat 0) (utilization rt work total) = true ∧
      F64.le (utilization rt work total) (F64.ofNat 100) = true) ∧
    (total = 0 → work ≠ 0 → utilization rt work total = F64.ofNat 100) :=
  ⟨fun hne => utilization_range rt work total ht hne,
    fun h0 hw => utilization_zero_total rt work total h0 hw⟩

theorem utilization_bounds_witness :
    (500 < 2 ^ 64 ∧ 500 ≠ 0) ∧
      F64.le (F64.ofNat 0) (utilization Runtime.amd64 200 500) = true ∧
      F64.le (utilization Runtime.amd64 200 500) (F64.ofNat 100) = true :=
  ⟨by decide, (utilization_bounds Runtime.amd64 200 500 (by decide)).1 (by decide)⟩

set_option maxRecDepth 100000 in
/-- C3 fails as stated: the counters `(5, 100)` followed by `(10, 100)` give a zero change
of the total cycles, and the stored utilisation is `100.0`, not `0.0`, whatever the run
time.  Identical counters `(7, 9)` on two calls give the quotient `0 / 0`; with the
conversion to `int` of amd64 the stored utilisation is then a large negative number, which
is neither `0.0` nor in the interval from `0.0` to `100.0`. -/
theorem utilization_zero_total_counterexample :
    diffVal 100 100 = 0 ∧
    (CollectMetrics Runtime.amd64 (vhost 2 "iocore0 10 100\n" "1\n")
      (CollectMetrics Runtime.amd64 (vhost 1 "iocore0 5 100\n" "1\n") (New 0 0)
        [reqNumIOcores]).1 [reqNumIOcores]).1.output.lookup "iocore0/cpu_utilization" =
      some (F64.ofNat 100) ∧
    (CollectMetrics Runtime.reversed (vhost 2 "iocore0 10 100\n" "1\n")
      (CollectMetrics Runtime.reversed (vhost 1 "iocore0 5 100\n" "1\n") (New 0 0)
        [reqNumIOcores]).1 [reqNumIOcores]).1.output.lookup "iocore0/cpu_utilization" =
      some (F64.ofNat 100) ∧
    F64.eq (F64.ofNat 100) (F64.ofNat 0) = false ∧
    (CollectMetrics Runtime.amd64 (vhost 2 "iocore0 7 9\n" "1\n")
      (CollectMetrics Runtime.amd64 (vhost 1 "iocore0 7 9\n" "1\n") (New 0 0)
        [reqNumIOcores]).1 [reqNumIOcores]).1.output.lookup "iocore0/cpu_utilization" =
      some (.fin true 0x1999999999999a 7) ∧
    F64.le (F64.ofNat 0) (.fin true 0x1999999999999a 7) = false ∧
    F64.eq (.fin true 0x1999999999999a 7) (F64.ofNat 0) = false := by
  decide

/-- C1, as amended: for a core `r` other than the aggregate key `cpu` whose counters are
`(w₁, t₁)` after one successful call and `(w₂, t₂)` after the next, with a non-zero change of
the total cycles, the value stored under `r/cpu_utilization` is
`100 * delta(work) / delta(total)`, clamped to `[0, 100]` and truncated at the tenths digit,
both changes being taken against the counters of the earlier call. -/
theorem calcDerivatives_stores_utilization (rt₁ rt₂ : Runtime) (fs₁ fs₂ : Vhost)
    (dc₀ dc₁ dc₂ : IOCoreCollector) (mts₁ mts₂ out₁ out₂ : List MetricType)
    (r : String) (w₁ t₁ w₂ t₂ : Nat)
    (h₁ : CollectMetrics rt₁ fs₁ dc₀ mts₁ = (dc₁, .ok out₁))
    (h₂ : CollectMetrics rt₂ fs₂ dc₁ mts₂ = (dc₂, .ok out₂))
    (hc₁ : counters dc₁ r = some (w₁, t₁)) (hc₂ : counters dc₂ r = some (w₂, t₂))
    (hr : r ≠ "cpu") (hdt : diffVal t₂ t₁ ≠ 0) :
    dc₂.output.lookup (r ++ "/" ++ nCpuUtilization) =
      some (Spec.utilization (diffVal w₂ w₁) (diffVal t₂ t₁)) := by
  unfold counters at hc₁ hc₂
  cases hv₁ : dc₁.data.stats.lookup r with
  | none => rw [hv₁] at hc₁; simp at hc₁
  | some v₁ =>
    cases hv₂ : dc₂.data.stats.lookup r with
    | none => rw [hv₂] at hc₂; simp at hc₂
    | some v₂ =>
      rw [hv₁] at hc₁
      rw [hv₂] at hc₂
      simp only [Option.map_some', Option.some.injEq, Prod.mk.injEq] at hc₁ hc₂
      rw [second_tick rt₁ rt₂ fs₁ fs₂ dc₀ dc₁ dc₂ mts₁ mts₂ out₁ out₂ h₁ h₂ r v₁ v₂ hv₁ hv₂ hr]
      unfold coreUtilization
      rw [hc₁.1, hc₁.2, hc₂.1, hc₂.2,
        utilization_eq_spec rt₂ _ _ (diffVal_lt t₂ t₁) hdt]

set_option maxRecDepth 100000 in
theorem calcDerivatives_stores_utilization_witness :
    (counters scenarioB₁ "iocore0" = some (100, 1000) ∧
      counters scenarioB₂ "iocore0" = some (300, 1500) ∧ diffVal 1500 1000 ≠ 0) ∧
    scenarioB₂.output.lookup ("iocore0" ++ "/" ++ nCpuUtilization) =
      some (Spec.utilization (diffVal 300 100) (diffVal 1500 1000)) ∧
    Spec.utilization (diffVal 300 100) (diffVal 1500 1000) = F64.ofNat 40 ∧
    Spec.truncTenths (F64.round false 3326 100) = F64.round false 332 10 :=
  ⟨by decide,
    calcDerivatives_stores_utilization Runtime.amd64 Runtime.reversed
      (vhost 1 "iocore0 100 1000\n" "1\n") (vhost 2 "iocore0 300 1500\n" "1\n")
      (New 0 0) scenarioB₁ scenarioB₂ [reqNumIOcores] [reqNumIOcores]
      [numIOcoresMetric 1 1] [numIOcoresMetric 1 2] "iocore0" 100 1000 300 1500
      (by rfl) (by rfl) (by decide) (by decide) (by decide) (by decide),
    by decide, by decide⟩

set_option maxRecDepth 100000 in
/-- C1 fails as stated for a core named `cpu`: its key is the key of the aggregate, so the
sum over all cores replaces its own value (here `50.0` is replaced by `150.0`). -/
theorem cpu_core_counterexample :
    counters (CollectMetrics Runtime.amd64 (vhost 1 "cpu 0 100\na 0 100\n" "2\n")
        (New 0 0) [reqNumIOcores]).1 "cpu" = some (0, 100) ∧
    counters (CollectMetrics Runtime.amd64 (vhost 2 "cpu 50 200\na 100 200\n" "2\n")
      (CollectMetrics Runtime.amd64 (vhost 1 "cpu 0 100\na 0 100\n" "2\n") (New 0 0)
        [reqNumIOcores]).1 [reqNumIOcores]).1 "cpu" = some (50, 200) ∧
    diffVal 200 100 ≠ 0 ∧
    Spec.utilization (diffVal 50 0) (diffVal 200 100) = F64.ofNat 50 ∧
    (CollectMetrics Runtime.amd64 (vhost 2 "cpu 50 200\na 100 200\n" "2\n")
      (CollectMetrics Runtime.amd64 (vhost 1 "cpu 0 100\na 0 100\n" "2\n") (New 0 0)
        [reqNumIOcores]).1 [reqNumIOcores]).1.output.lookup ("cpu" ++ "/" ++ nCpuUtilization) =
      some (F64.ofNat 150) ∧
    F64.eq (F64.ofNat 150) (F64.ofNat 50) = false := by
  decide

/-- C5: after a call that is not the first one, the value under `cpu/cpu_utilization` is
the plain floating-point sum, taken in the order in which the table is visited, of the
values computed on this call for the cores that both snapshots hold, and of nothing else;
each of these values is the one stored for its core.  The sum is not divided by anything:
when the values are whole numbers with a total below `2 ^ 53` the aggregate is exactly
their total, and in general every addition of two finite numbers that gives a finite
number gives a binary64 number nearest to their exact sum. -/
theorem aggregate_is_plain_sum (rt : Runtime) (fs : Vhost) (dc dc' : IOCoreCollector)
    (mts out : List MetricType) (hf : dc.first = false)
    (h : CollectMetrics rt fs dc mts = (dc', .ok out)) :
    (∃ vs : List F64,
      vs.Perm ((dc'.data.stats.entries.filterMap
        (derivEntry rt dc'.dataPrev.stats)).map Prod.snd) ∧
      dc'.output.lookup ("cpu/" ++ nCpuUtilization) = some (vs.foldl F64.add (F64.ofNat 0)) ∧
      (∀ e ∈ dc'.data.stats.entries.filterMap (derivEntry rt dc'.dataPrev.stats),
        e.1 ≠ "cpu/" ++ nCpuUtilization → dc'.output.lookup e.1 = some e.2) ∧
      (∀ ks : List Nat, List.Forall₂ F64.IsNat vs ks → ks.sum < 2 ^ 53 →
        ∃ total, dc'.output.lookup ("cpu/" ++ nCpuUtilization) = some total ∧
          F64.IsNat total ks.sum)) ∧
    (∀ (s t u w : Bool) (m1 m2 m M : Nat) (e1 e2 e E : Int),
      F64.add (.fin s m1 e1) (.fin t m2 e2) = .fin u m e → M < 2 ^ 53 → F64.minExp ≤ E →
      |F64.sval u m e - (F64.sval s m1 e1 + F64.sval t m2 e2)| ≤
        |F64.sval w M E - (F64.sval s m1 e1 + F64.sval t m2 e2)|) := by
  refine ⟨?_, fun s t u w m1 m2 m M e1 e2 e E ha hM hE =>
    F64.add_nearest s t u w m1 m2 m M e1 e2 e E ha hM hE⟩
  obtain ⟨content, stats, nr, _, h2, _, h4, _, _⟩ := CollectMetrics_ok rt fs dc dc' mts out h
  have hwf := scanLoop_wellFormed (scanLines content) GoMap.empty wellFormed_empty
  rw [h2] at hwf
  subst h4
  rw [refreshed_data, refreshed_dataPrev]
  simp only [hf, Bool.false_eq_true, if_false]
  obtain ⟨L, hL, S, hS, hout⟩ := refreshed_output rt dc fs.now stats nr hf hwf
  have hcpu : (refreshed rt dc fs.now stats nr).output.lookup ("cpu/" ++ nCpuUtilization) =
      some ((S.map Prod.snd).foldl F64.add (F64.ofNat 0)) := by
    rw [hout, GoMap.lookup_insert_ne _ _ _ _ cpu_key_ne_nr, GoMap.lookup_insert_same]
  refine ⟨S.map Prod.snd, ?_, hcpu, ?_, ?_⟩
  · exact (hS.trans (hL.filterMap _)).map Prod.snd
  · intro e he hne
    rw [List.mem_filterMap] at he
    obtain ⟨kv, hkv, hd⟩ := he
    unfold derivEntry at hd
    cases hp : (stashData rt dc.dataPrev dc.data).stats.lookup kv.1 with
    | none => rw [hp] at hd; simp at hd
    | some pv =>
      rw [hp] at hd
      simp only [Option.map_some', Option.some.injEq] at hd
      subst hd
      have hr : kv.1 ≠ "cpu" := by
        intro hc
        apply hne
        simp only
        rw [hc, cpu_key_eq]
      exact refreshed_lookup_core rt dc fs.now stats nr hf hwf kv.1 kv.2 pv
        (GoMap.find_of_mem_nodup _ _ _ hwf.1 hkv) hp hr
  · intro ks hks hlt
    refine ⟨_, hcpu, ?_⟩
    have := F64.foldl_add_isNat (S.map Prod.snd) ks (F64.ofNat 0) 0 hks F64.isNat_zero
      (by omega)
    simpa using this

set_option maxRecDepth 100000 in
theorem aggregate_is_plain_sum_witness :
    (scenarioSum₁.first = false ∧
      scenarioSum₂.output.lookup "a/cpu_utilization" = some (F64.ofNat 40) ∧
      scenarioSum₂.output.lookup "b/cpu_utilization" = some (F64.ofNat 100) ∧
      scenarioSum₂.output.lookup "nr_iocores" = some (F64.ofNat 2)) ∧
    scenarioSum₂.output.lookup "cpu/cpu_utilization" = some (F64.ofNat 140) ∧
    F64.eq (F64.ofNat 140) (F64.ofNat 70) = false ∧
    ∃ total, scenarioSum₂.output.lookup ("cpu/" ++ nCpuUtilization) = some total ∧
      F64.IsNat total (40 + 100) := by
  refine ⟨by decide, by decide, by decide, ?_⟩
  obtain ⟨⟨vs, hperm, _, _, hnat⟩, _⟩ :=
    aggregate_is_plain_sum Runtime.reversed (vhost 2 "a 40 200\nb 100 200\n" "2\n")
      scenarioSum₁ scenarioSum₂ [reqCpuUtilization]
      ((CollectMetrics Runtime.reversed (vhost 2 "a 40 200\nb 100 200\n" "2\n") scenarioSum₁
        [reqCpuUtilization]).2.getD []) (by decide) (by rfl)
  have hvals : (scenarioSum₂.data.stats.entries.filterMap
      (derivEntry Runtime.reversed scenarioSum₂.dataPrev.stats)).map Prod.snd =
      [F64.ofNat 40, F64.ofNat 100] := by decide
  rw [hvals] at hperm
  have h40 : F64.IsNat (F64.ofNat 40) 40 := F64.isNat_ofNat 40 (by norm_num)
  have h100 : F64.IsNat (F64.ofNat 100) 100 := F64.isNat_ofNat 100 (by norm_num)
  rcases perm_pair _ _ _ hperm with hv | hv
  · obtain ⟨total, ht, hn⟩ := hnat [40, 100]
      (by rw [hv]; exact List.Forall₂.cons h40 (List.Forall₂.cons h100 List.Forall₂.nil))
      (by norm_num)
    exact ⟨total, ht, by simpa using hn⟩
  · obtain ⟨total, ht, hn⟩ := hnat [100, 40]
      (by rw [hv]; exact List.Forall₂.cons h100 (List.Forall₂.cons h40 List.Forall₂.nil))
      (by norm_num)
    exact ⟨total, ht, by simpa using hn⟩

/-- C7: after a successful call no key occurs twice in the table of derived values, and a
wildcard request whose metric name is the last `/`-separated segment of at least one key
(the text after the last `/` of the key) is answered with exactly one metric for each such
key and with nothing else.  Every key `r/name` of the table is among the answered keys when
`name` is the requested metric name, every answered key is `name` or some `r/name`, and the
key `nr_iocores` is not answered unless it is the requested name.  The metric of a key has
the namespace `ibm/sysfs/iocore` followed by the segments of the key (the core name `r` and
the metric name), the value stored under the key, and the time stamp of the current
snapshot. -/
theorem wildcard_projection (rt : Runtime) (fs : Vhost) (dc dc' : IOCoreCollector)
    (mts out : List MetricType) (h : CollectMetrics rt fs dc mts = (dc', .ok out)) :
    dc'.output.keys.Nodup ∧ dc'.data.timestamp = fs.now ∧
    ∃ parts : List (List MetricType), out = parts.flatten ∧ parts.length = mts.length ∧
      ∀ (j : Nat) (m : MetricType) (wild last : NamespaceElement), mts[j]? = some m →
        m.Namespace_[m.Namespace_.length - 2]? = some wild →
        m.Namespace_[m.Namespace_.length - 1]? = some last → wild.Value = "*" →
        (∃ key ∈ dc'.output.keys, Spec.lastSegment key = last.Value) →
        ∃ ks : List String,
          ks.Perm (dc'.output.keys.filter
            (fun key => decide (Spec.lastSegment key = last.Value))) ∧
          ks.Nodup ∧
          (∀ r : String, '/' ∉ last.Value.data → r ++ "/" ++ last.Value ∈ dc'.output.keys →
            r ++ "/" ++ last.Value ∈ ks) ∧
          (∀ key ∈ ks, key = last.Value ∨ ∃ r : String, key = r ++ "/" ++ last.Value) ∧
          (last.Value ≠ nNumIOcores → nNumIOcores ∉ ks) ∧
          parts[j]? = some (ks.map (foundMetric dc' wild.Name)) ∧
          ∀ key ∈ ks,
            Strings (foundMetric dc' wild.Name key).Namespace_ =
              ["ibm", "sysfs", "iocore"] ++ Split key ∧
            (∀ r : String, '/' ∉ r.data → '/' ∉ last.Value.data →
              key = r ++ "/" ++ last.Value →
              Strings (foundMetric dc' wild.Name key).Namespace_ =
                ["ibm", "sysfs", "iocore", r, last.Value]) ∧
            (∃ v, dc'.output.lookup key = some v ∧
              (foundMetric dc' wild.Name key).Data_ = .float64 v) ∧
            (foundMetric dc' wild.Name key).Timestamp_ = dc'.data.timestamp := by
  have hnd := CollectMetrics_output_nodup rt fs dc dc' mts out h
  obtain ⟨parts, hp1, hp2, hp3⟩ := CollectMetrics_parts rt fs dc dc' mts out h
  obtain ⟨_, stats, nr, _, _, _, h4, _, _⟩ := CollectMetrics_ok rt fs dc dc' mts out h
  refine ⟨hnd, by rw [h4, refreshed_data], parts, hp1, hp2, ?_⟩
  intro j m wild last hj hw hl hstar hex
  obtain ⟨part, hq1, hq2⟩ := hp3 j m hj
  have hlen : 2 ≤ m.Namespace_.length := by
    by_contra hc
    rw [collectOne_short rt dc' j m [] (by omega)] at hq2
    simp at hq2
  have hfil : (fun key => decide (lastSegment key = last.Value)) =
      (fun key => decide (Spec.lastSegment key = last.Value)) := by
    funext key
    rw [lastSegment_eq_spec]
  have hex' : ∃ key ∈ dc'.output.keys, lastSegment key = last.Value := by
    obtain ⟨key, hk, hs⟩ := hex
    exact ⟨key, hk, by rw [lastSegment_eq_spec]; exact hs⟩
  rw [collectOne_wild_found rt dc' j m [] wild last hlen hw hl hstar hex', hfil] at hq2
  injection hq2 with hq2
  simp only [List.nil_append] at hq2
  have hperm := range_keys_perm rt (.emitOutput j) dc'.output
  have hmem : ∀ key, key ∈ (((rt.range (.emitOutput j) dc'.output).map Prod.fst).filter
      (fun key => decide (Spec.lastSegment key = last.Value))) ↔
      key ∈ dc'.output.keys ∧ Spec.lastSegment key = last.Value := by
    intro key
    rw [List.mem_filter, hperm.mem_iff]
    simp
  refine ⟨_, hperm.filter _, (hperm.nodup_iff.mpr hnd).filter _, ?_, ?_, ?_,
    by rw [hq1, hq2], ?_⟩
  · intro r hn hk
    exact (hmem _).mpr ⟨hk, lastSegment_spec_key r last.Value hn⟩
  · intro key hkey
    exact lastSegment_form key last.Value ((hmem key).mp hkey).2
  · intro hne hkey
    apply hne
    rw [← ((hmem _).mp hkey).2]
    decide
  · intro key hkey
    have hk : key ∈ dc'.output.keys := ((hmem key).mp hkey).1
    refine ⟨foundMetric_strings dc' wild.Name key, ?_, ?_, rfl⟩
    · intro r hr hn hkr
      rw [foundMetric_strings, hkr, Split_key r last.Value hn, Split_single r hr]
      rfl
    · cases hv : dc'.output.lookup key with
      | none =>
        exact absurd hk ((GoMap.find_eq_none_iff _ _).mp hv)
      | some v =>
        refine ⟨v, rfl, ?_⟩
        unfold foundMetric GoMap.indexF
        rw [hv]
        rfl

set_option maxRecDepth 100000 in
theorem wildcard_projection_witness :
    (scenarioNew₂.1.output.keys = ["a/cpu_utilization", "cpu/cpu_utilization", "nr_iocores"] ∧
      scenarioNew₂.2 = .ok
        [{ Namespace_ := [⟨"ibm", "", ""⟩, ⟨"sysfs", "", ""⟩, ⟨"iocore", "", ""⟩,
            ⟨"cpu", "", "iocore"⟩, ⟨"cpu_utilization", "", ""⟩],
           Data_ := .float64 (F64.ofNat 10), Timestamp_ := 2 },
         { Namespace_ := [⟨"ibm", "", ""⟩, ⟨"sysfs", "", ""⟩, ⟨"iocore", "", ""⟩,
            ⟨"a", "", "iocore"⟩, ⟨"cpu_utilization", "", ""⟩],
           Data_ := .float64 (F64.ofNat 10), Timestamp_ := 2 },
         { Namespace_ := [⟨"ibm", "", ""⟩, ⟨"sysfs", "", ""⟩, ⟨"iocore", "", ""⟩,
            ⟨"nr_iocores", "", ""⟩],
           Data_ := .float64 (F64.ofNat 2), Timestamp_ := 2 }]) ∧
    ∃ ks : List String,
      ks.Perm ["a/cpu_utilization", "cpu/cpu_utilization"] ∧
      "a/cpu_utilization" ∈ ks ∧ "cpu/cpu_utilization" ∈ ks ∧ "nr_iocores" ∉ ks ∧
      (∃ rest : List MetricType, scenarioNew₂.2.getD [] =
        ks.map (foundMetric scenarioNew₂.1 "iocore") ++ rest) ∧
      ∀ key ∈ ks,
        Strings (foundMetric scenarioNew₂.1 "iocore" key).Namespace_ =
          ["ibm", "sysfs", "iocore"] ++ Split key ∧
        (∃ v, scenarioNew₂.1.output.lookup key = some v ∧
          (foundMetric scenarioNew₂.1 "iocore" key).Data_ = .float64 v) ∧
        (foundMetric scenarioNew₂.1 "iocore" key).Timestamp_ = 2 := by
  refine ⟨by decide, ?_⟩
  obtain ⟨_, hts, parts, hflat, hlen, hall⟩ :=
    wildcard_projection Runtime.reversed (vhost 2 "a 2 20\nb 1 10\n" "2\n") scenarioNew₁
      scenarioNew₂.1 [reqCpuUtilization, reqNumIOcores] (scenarioNew₂.2.getD []) (by rfl)
  obtain ⟨ks, hperm, _, hin, _, hnr, hpart, hks⟩ :=
    hall 0 reqCpuUtilization
      { Value := "*", Description := "I/O core effective utilization (percentage)",
        Name := "iocore" }
      { Value := nCpuUtilization, Description := "", Name := "" }
      (by rfl) (by rfl) (by rfl) (by rfl) ⟨"a/cpu_utilization", by decide, by decide⟩
  have hkeys : scenarioNew₂.1.output.keys.filter
      (fun key => decide (Spec.lastSegment key = nCpuUtilization)) =
      ["a/cpu_utilization", "cpu/cpu_utilization"] := by decide
  rw [hkeys] at hperm
  refine ⟨ks, hperm, hin "a" (by decide) (by decide), hin "cpu" (by decide) (by decide),
    hnr (by decide), ?_, ?_⟩
  · match parts, hlen, hpart, hflat with
    | [p0, p1], _, hpart, hflat =>
      refine ⟨p1, ?_⟩
      simp only [List.getElem?_cons_zero, Option.some.injEq] at hpart
      rw [hflat, hpart]
      simp
  · intro key hkey
    obtain ⟨h1, _, h3, h4⟩ := hks key hkey
    exact ⟨h1, h3, by rw [h4]; exact hts⟩

theorem strings_four (ns : List NamespaceElement) (a b c d : String)
    (h : Strings ns = [a, b, c, d]) :
    ns.length = 4 ∧ ∃ el, ns[ns.length - 2]? = some el ∧ el.Value = c := by
  unfold Strings at h
  match ns, h with
  | [x, y, z, w], h =>
    simp only [List.map_cons, List.map_nil, List.cons.injEq, and_true] at h
    exact ⟨rfl, z, rfl, h.2.2.1⟩

theorem Atoi_range (s : String) (n : Int) (h : Atoi s = some n) : n.natAbs ≤ 2 ^ 63 := by
  unfold Atoi at h
  split at h
  · simp at h
  · simp only at h
    split_ifs at h
    all_goals
      revert h
      generalize parseUintLoop _ 0 = r
      obtain ⟨un, b⟩ := r
      intro h
      cases b <;> simp only [reduceCtorEq] at h
      split_ifs at h
      simp only [Option.some.injEq] at h
      subst h
      simp only [Int.natAbs_neg, Int.natAbs_ofNat]
      omega

theorem getNumOfIOCores_range (fs : Vhost) (nr : Int) (h : getNumOfIOCores fs = .ok nr) :
    nr.natAbs ≤ 2 ^ 63 := by
  unfold getNumOfIOCores at h
  split at h
  · simp at h
  · split at h
    · simp at h
    · split at h
      · simp at h
      · rename_i n hn
        injection h with h
        subst h
        exact Atoi_range _ _ hn

/-- The conversion of a 64-bit integer to `float64` is finite and no binary64 number is
closer to the integer. -/
theorem ofInt_nearest (nr : Int) (h : nr.natAbs ≤ 2 ^ 63) :
    ∃ m e, F64.ofInt nr = .fin (decide (nr < 0)) m e ∧ m < 2 ^ 53 ∧ F64.minExp ≤ e ∧
      ∀ (M : Nat) (E : Int), M < 2 ^ 53 → F64.minExp ≤ E →
        |(m : ℚ) * 2 ^ e - (nr.natAbs : ℚ)| ≤ |(M : ℚ) * 2 ^ E - (nr.natAbs : ℚ)| := by
  unfold F64.ofInt
  obtain ⟨m, e, hr, _⟩ := F64.round_le (decide (nr < 0)) nr.natAbs 1 1 63 (by norm_num)
    (by norm_num) (by decide) (by decide) (by
      have h2 : (2 : ℚ) ^ (63 : Int) = ((2 ^ 63 : Nat) : ℚ) := by norm_num
      rw [Nat.cast_one, div_one, one_mul, h2]
      exact_mod_cast h)
  obtain ⟨_, hm, he, _⟩ := F64.round_representable _ _ _ _ _ _ (by norm_num) hr
  refine ⟨m, e, hr, hm, he, ?_⟩
  intro M E hM hE
  have := F64.round_nearest _ _ _ _ _ M _ E (by norm_num) hr hM hE
  simpa using this

/-- C8, as amended: in a successful call the key `nr_iocores` of the table of derived
values holds the integer read from the count file converted to `float64`: a finite
binary64 number nearest to the integer, which is the integer itself when its magnitude is
below `2 ^ 53`.  A static
request is answered with one metric carrying the value found under the key that
`parseNamespace` gives, or with no metric when the table lacks the key; the request for
`ibm/sysfs/iocore/nr_iocores` is always answered.  For any table, the pass over a static
request of three or more elements returns without error and keeps the metrics collected
so far. -/
theorem static_projection (rt : Runtime) (fs : Vhost) (dc dc' : IOCoreCollector)
    (mts out : List MetricType) (h : CollectMetrics rt fs dc mts = (dc', .ok out)) :
    ∃ nr : Int, getNumOfIOCores fs = .ok nr ∧
      dc'.output.lookup nNumIOcores = some (F64.ofInt nr) ∧
      (nr.natAbs < 2 ^ 53 → ∃ m e, F64.ofInt nr = .fin (decide (nr < 0)) m e ∧
        (m : ℚ) * 2 ^ e = (nr.natAbs : ℚ)) ∧
      (∃ m e, F64.ofInt nr = .fin (decide (nr < 0)) m e ∧ m < 2 ^ 53 ∧ F64.minExp ≤ e ∧
        ∀ (M : Nat) (E : Int), M < 2 ^ 53 → F64.minExp ≤ E →
          |(m : ℚ) * 2 ^ e - (nr.natAbs : ℚ)| ≤ |(M : ℚ) * 2 ^ E - (nr.natAbs : ℚ)|) ∧
      (∃ parts : List (List MetricType), out = parts.flatten ∧ parts.length = mts.length ∧
        (∀ (j : Nat) (m : MetricType) (wild : NamespaceElement), mts[j]? = some m →
          m.Namespace_[m.Namespace_.length - 2]? = some wild → wild.Value ≠ "*" →
          parseNamespace (Strings m.Namespace_) = .ok (Join ((Strings m.Namespace_).drop 3)) ∧
          parts[j]? = some ((dc'.output.lookup (Join ((Strings m.Namespace_).drop 3))).toList.map
            (fun v => { Namespace_ := m.Namespace_, Data_ := .float64 v,
                        Timestamp_ := dc'.data.timestamp }))) ∧
        (∀ (j : Nat) (m : MetricType), mts[j]? = some m →
          Strings m.Namespace_ = ["ibm", "sysfs", "iocore", "nr_iocores"] →
          parts[j]? = some [{ Namespace_ := m.Namespace_, Data_ := .float64 (F64.ofInt nr),
                              Timestamp_ := fs.now }])) ∧
      (∀ (dc₀ : IOCoreCollector) (j : Nat) (m : MetricType) (metrics : List MetricType)
          (wild : NamespaceElement), 3 ≤ m.Namespace_.length →
          m.Namespace_[m.Namespace_.length - 2]? = some wild → wild.Value ≠ "*" →
          ∃ part, collectOne rt dc₀ j m metrics = .ok (metrics ++ part) ∧
            (part = [] ↔ dc₀.output.lookup (Join ((Strings m.Namespace_).drop 3)) = none)) := by
  obtain ⟨parts, hp1, hp2, hp3⟩ := CollectMetrics_parts rt fs dc dc' mts out h
  obtain ⟨_, stats, nr, _, _, h3, h4, _, _⟩ := CollectMetrics_ok rt fs dc dc' mts out h
  have hnr : dc'.output.lookup nNumIOcores = some (F64.ofInt nr) := by
    rw [h4]
    unfold refreshed
    exact GoMap.lookup_insert_same _ _ _
  have hts : dc'.data.timestamp = fs.now := by rw [h4, refreshed_data]
  have hstatic : ∀ (j : Nat) (m : MetricType) (wild : NamespaceElement), mts[j]? = some m →
      m.Namespace_[m.Namespace_.length - 2]? = some wild → wild.Value ≠ "*" →
      parseNamespace (Strings m.Namespace_) = .ok (Join ((Strings m.Namespace_).drop 3)) ∧
      parts[j]? = some ((dc'.output.lookup (Join ((Strings m.Namespace_).drop 3))).toList.map
        (fun v => { Namespace_ := m.Namespace_, Data_ := .float64 v,
                    Timestamp_ := dc'.data.timestamp })) := by
    intro j m wild hj hw hstar
    obtain ⟨part, hq1, hq2⟩ := hp3 j m hj
    have hlen : 3 ≤ m.Namespace_.length := by
      by_contra hc
      by_cases h2 : m.Namespace_.length < 2
      · rw [collectOne_short rt dc' j m [] h2] at hq2
        simp at hq2
      · rw [collectOne_static_short rt dc' j m [] wild (by omega) hw hstar] at hq2
        simp at hq2
    rw [collectOne_static rt dc' j m [] wild hlen hw hstar] at hq2
    injection hq2 with hq2
    constructor
    · unfold parseNamespace
      have h3' : nsPrefix.length = 3 := rfl
      rw [h3', if_neg]
      simp only [Strings, List.length_map]
      omega
    · rw [hq1, ← hq2]
      cases dc'.output.lookup (Join ((Strings m.Namespace_).drop 3)) <;> simp
  refine ⟨nr, h3, hnr, ?_, ofInt_nearest nr (getNumOfIOCores_range fs nr h3),
    ⟨parts, hp1, hp2, hstatic, ?_⟩, ?_⟩
  · intro hlt
    exact F64.round_exact _ _ hlt
  · intro j m hj hs
    obtain ⟨_, el, hel, hv⟩ := strings_four m.Namespace_ _ _ _ _ hs
    have hne : el.Value ≠ "*" := by rw [hv]; decide
    have := (hstatic j m el hj hel hne).2
    rw [hs] at this
    have hj' : Join (["ibm", "sysfs", "iocore", "nr_iocores"].drop 3) = nNumIOcores := by decide
    rw [hj', hnr, hts] at this
    simpa using this
  · intro dc₀ j m metrics wild hlen hw hstar
    rw [collectOne_static rt dc₀ j m metrics wild hlen hw hstar]
    cases dc₀.output.lookup (Join ((Strings m.Namespace_).drop 3)) with
    | none => exact ⟨[], rfl, by simp⟩
    | some v => exact ⟨_, rfl, by simp⟩

set_option maxRecDepth 100000 in
theorem static_projection_witness :
    scenarioNew₂.2 =
      .ok [foundMetric scenarioNew₂.1 "iocore" "cpu/cpu_utilization",
           foundMetric scenarioNew₂.1 "iocore" "a/cpu_utilization",
           numIOcoresMetric 2 2] ∧
    ∃ nr : Int, getNumOfIOCores (vhost 2 "a 2 20\nb 1 10\n" "2\n") = .ok nr ∧
      scenarioNew₂.1.output.lookup nNumIOcores = some (F64.ofInt nr) ∧
      (nr.natAbs < 2 ^ 53 → ∃ m e, F64.ofInt nr = .fin (decide (nr < 0)) m e ∧
        (m : ℚ) * 2 ^ e = (nr.natAbs : ℚ)) ∧
      (∃ m e, F64.ofInt nr = .fin (decide (nr < 0)) m e ∧ m < 2 ^ 53 ∧ F64.minExp ≤ e ∧
        ∀ (M : Nat) (E : Int), M < 2 ^ 53 → F64.minExp ≤ E →
          |(m : ℚ) * 2 ^ e - (nr.natAbs : ℚ)| ≤ |(M : ℚ) * 2 ^ E - (nr.natAbs : ℚ)|) ∧
      (∃ parts : List (List MetricType),
        scenarioNew₂.2.getD [] = parts.flatten ∧ parts.length = 2 ∧
        (∀ (j : Nat) (m : MetricType) (wild : NamespaceElement),
          [reqCpuUtilization, reqNumIOcores][j]? = some m →
          m.Namespace_[m.Namespace_.length - 2]? = some wild → wild.Value ≠ "*" →
          parseNamespace (Strings m.Namespace_) = .ok (Join ((Strings m.Namespace_).drop 3)) ∧
          parts[j]? = some ((scenarioNew₂.1.output.lookup
            (Join ((Strings m.Namespace_).drop 3))).toList.map
            (fun v => { Namespace_ := m.Namespace_, Data_ := .float64 v,
                        Timestamp_ := scenarioNew₂.1.data.timestamp }))) ∧
        (∀ (j : Nat) (m : MetricType), [reqCpuUtilization, reqNumIOcores][j]? = some m →
          Strings m.Namespace_ = ["ibm", "sysfs", "iocore", "nr_iocores"] →
          parts[j]? = some [{ Namespace_ := m.Namespace_, Data_ := .float64 (F64.ofInt nr),
                              Timestamp_ := 2 }])) ∧
      (∀ (dc₀ : IOCoreCollector) (j : Nat) (m : MetricType) (metrics : List MetricType)
          (wild : NamespaceElement), 3 ≤ m.Namespace_.length →
          m.Namespace_[m.Namespace_.length - 2]? = some wild → wild.Value ≠ "*" →
          ∃ part, collectOne Runtime.reversed dc₀ j m metrics = .ok (metrics ++ part) ∧
            (part = [] ↔ dc₀.output.lookup (Join ((Strings m.Namespace_).drop 3)) = none)) :=
  ⟨by decide,
    static_projection Runtime.reversed (vhost 2 "a 2 20\nb 1 10\n" "2\n") scenarioNew₁
      scenarioNew₂.1 [reqCpuUtilization, reqNumIOcores] (scenarioNew₂.2.getD []) (by rfl)⟩

set_option maxRecDepth 100000 in
/-- C8 fails as stated: the count file holds `2 ^ 53 + 1`.  The call succeeds and the
request for `ibm/sysfs/iocore/nr_iocores` is answered with the `float64` value `2 ^ 53`,
which is not the integer read.  A static request of two segments makes the call fail at
the slice `ns[len(prefix):]`. -/
theorem nr_iocores_rounded_counterexample :
    getNumOfIOCores (vhost 1 "a 1 10\n" "9007199254740993\n") = .ok 9007199254740993 ∧
    (CollectMetrics Runtime.amd64 (vhost 1 "a 1 10\n" "9007199254740993\n") (New 0 0)
        [reqNumIOcores]).2 =
      .ok [{ Namespace_ := [⟨"ibm", "", ""⟩, ⟨"sysfs", "", ""⟩, ⟨"iocore", "", ""⟩,
              ⟨"nr_iocores", "", ""⟩],
             Data_ := .float64 (.fin false 4503599627370496 1), Timestamp_ := 1 }] ∧
    F64.trunc (.fin false 4503599627370496 1) = some 9007199254740992 ∧
    F64.eq (.fin false 4503599627370496 1) (F64.ofInt 9007199254740992) = true ∧
    F64.eq (.fin false 4503599627370496 1) (F64.ofInt 9007199254740993) = true ∧
    (CollectMetrics Runtime.amd64 (vhost 1 "a 1 10\n" "2\n") (New 0 0)
        [{ Namespace_ := NewNamespace ["ibm", "nr_iocores"], Data_ := .none,
           Timestamp_ := 0 }]).2 = .panic := by
  decide

/-- C10: a call that is not the first one always leaves the key `cpu/cpu_utilization` in
the table of derived values, so a wildcard request for `cpu_utilization` is answered from
the table (one metric with a `float64` value for each matching key, the aggregate key among
them) and never from the zero-filling loop; a core of the current snapshot without a derived
value gets no metric. -/
theorem aggregate_key_suppresses_fallback (rt : Runtime) (fs : Vhost)
    (dc dc' : IOCoreCollector) (mts out : List MetricType) (hf : dc.first = false)
    (h : CollectMetrics rt fs dc mts = (dc', .ok out)) :
    (∃ v, dc'.output.lookup ("cpu/" ++ nCpuUtilization) = some v) ∧
    ∃ parts : List (List MetricType), out = parts.flatten ∧ parts.length = mts.length ∧
      ∀ (j : Nat) (m : MetricType) (wild last : NamespaceElement), mts[j]? = some m →
        m.Namespace_[m.Namespace_.length - 2]? = some wild →
        m.Namespace_[m.Namespace_.length - 1]? = some last → wild.Value = "*" →
        last.Value = nCpuUtilization →
        ∃ ks : List String,
          ks.Perm (dc'.output.keys.filter (fun key => decide (lastSegment key = last.Value))) ∧
          "cpu/" ++ nCpuUtilization ∈ ks ∧
          parts[j]? = some (ks.map (foundMetric dc' wild.Name)) ∧
          (∀ mt ∈ ks.map (foundMetric dc' wild.Name), ∃ key v,
            dc'.output.lookup key = some v ∧ mt.Data_ = .float64 v) ∧
          ∀ r : String, r ∈ dc'.data.stats.keys →
            dc'.output.lookup (r ++ "/" ++ nCpuUtilization) = none →
            ∀ mt ∈ ks.map (foundMetric dc' wild.Name),
              Strings mt.Namespace_ ≠ createNamespace (r ++ "/" ++ nCpuUtilization) := by
  obtain ⟨content, stats, nr, _, h2, _, h4, _, _⟩ := CollectMetrics_ok rt fs dc dc' mts out h
  have hwf := scanLoop_wellFormed (scanLines content) GoMap.empty wellFormed_empty
  rw [h2] at hwf
  have hcpu : ∃ v, dc'.output.lookup ("cpu/" ++ nCpuUtilization) = some v := by
    obtain ⟨L, _, S, _, hout⟩ := refreshed_output rt dc fs.now stats nr hf hwf
    rw [h4, hout, GoMap.lookup_insert_ne _ _ _ _ cpu_key_ne_nr, GoMap.lookup_insert_same]
    exact ⟨_, rfl⟩
  obtain ⟨parts, hp1, hp2, hp3⟩ := CollectMetrics_parts rt fs dc dc' mts out h
  refine ⟨hcpu, parts, hp1, hp2, ?_⟩
  intro j m wild last hj hw hl hstar hlast
  obtain ⟨part, hq1, hq2⟩ := hp3 j m hj
  have hlen : 2 ≤ m.Namespace_.length := by
    by_contra hc
    rw [collectOne_short rt dc' j m [] (by omega)] at hq2
    simp at hq2
  have hcpuk : "cpu/" ++ nCpuUtilization ∈ dc'.output.keys := by
    obtain ⟨v, hv⟩ := hcpu
    by_contra hc
    have := (GoMap.find_eq_none_iff _ _).mpr hc
    unfold GoMap.lookup at hv
    rw [this] at hv
    simp at hv
  have hex : ∃ key ∈ dc'.output.keys, lastSegment key = last.Value :=
    ⟨_, hcpuk, by rw [hlast]; exact lastSegment_cpu_key⟩
  rw [collectOne_wild_found rt dc' j m [] wild last hlen hw hl hstar hex] at hq2
  injection hq2 with hq2
  simp only [List.nil_append] at hq2
  have hperm := range_keys_perm rt (.emitOutput j) dc'.output
  refine ⟨_, hperm.filter _, ?_, by rw [hq1, hq2], ?_, ?_⟩
  · exact List.mem_filter.mpr ⟨hperm.mem_iff.mpr hcpuk,
      by rw [hlast]; simp [lastSegment_cpu_key]⟩
  · intro mt hmt
    rw [List.mem_map] at hmt
    obtain ⟨key, hkey, hmk⟩ := hmt
    have hk : key ∈ dc'.output.keys := hperm.mem_iff.mp (List.mem_filter.mp hkey).1
    cases hv : dc'.output.lookup key with
    | none => exact absurd hk ((GoMap.find_eq_none_iff _ _).mp hv)
    | some v =>
      refine ⟨key, v, hv, ?_⟩
      rw [← hmk]
      unfold foundMetric GoMap.indexF
      rw [hv]
      rfl
  · intro r _ hnone mt hmt hc
    rw [List.mem_map] at hmt
    obtain ⟨key, hkey, hmk⟩ := hmt
    have hk : key ∈ dc'.output.keys := hperm.mem_iff.mp (List.mem_filter.mp hkey).1
    rw [← hmk, foundMetric_strings] at hc
    unfold createNamespace at hc
    have hs := Split_injective _ _ (List.append_cancel_left hc)
    rw [hs] at hk
    exact absurd hk ((GoMap.find_eq_none_iff _ _).mp hnone)

set_option maxRecDepth 100000 in
theorem aggregate_key_suppresses_fallback_witness :
    (scenarioNew₁.first = false ∧ "b" ∈ scenarioNew₂.1.data.stats.keys ∧
      scenarioNew₂.1.output.lookup ("b" ++ "/" ++ nCpuUtilization) = none) ∧
    ((∃ v, scenarioNew₂.1.output.lookup ("cpu/" ++ nCpuUtilization) = some v) ∧
    ∃ parts : List (List MetricType),
      scenarioNew₂.2.getD [] = parts.flatten ∧ parts.length = 2 ∧
      ∀ (j : Nat) (m : MetricType) (wild last : NamespaceElement),
        [reqCpuUtilization, reqNumIOcores][j]? = some m →
        m.Namespace_[m.Namespace_.length - 2]? = some wild →
        m.Namespace_[m.Namespace_.length - 1]? = some last → wild.Value = "*" →
        last.Value = nCpuUtilization →
        ∃ ks : List String,
          ks.Perm (scenarioNew₂.1.output.keys.filter
            (fun key => decide (lastSegment key = last.Value))) ∧
          "cpu/" ++ nCpuUtilization ∈ ks ∧
          parts[j]? = some (ks.map (foundMetric scenarioNew₂.1 wild.Name)) ∧
          (∀ mt ∈ ks.map (foundMetric scenarioNew₂.1 wild.Name), ∃ key v,
            scenarioNew₂.1.output.lookup key = some v ∧ mt.Data_ = .float64 v) ∧
          ∀ r : String, r ∈ scenarioNew₂.1.data.stats.keys →
            scenarioNew₂.1.output.lookup (r ++ "/" ++ nCpuUtilization) = none →
            ∀ mt ∈ ks.map (foundMetric scenarioNew₂.1 wild.Name),
              Strings mt.Namespace_ ≠ createNamespace (r ++ "/" ++ nCpuUtilization)) :=
  ⟨by decide,
    aggregate_key_suppresses_fallback Runtime.reversed (vhost 2 "a 2 20\nb 1 10\n" "2\n")
      scenarioNew₁ scenarioNew₂.1 [reqCpuUtilization, reqNumIOcores] (scenarioNew₂.2.getD [])
      (by decide) (by rfl)⟩

set_option maxRecDepth 100000 in
/-- C4, evaluated: the core `a` is read on the first call, missing on the second and read
again on the third.  On the second call it gets no derived value and no error is raised; on
the third call `stashData` has left its counters of the first call in the previous snapshot,
and a value is derived for it (`50.0`, against the counters of the first call). -/
theorem stale_previous_snapshot_evaluation :
    scenarioBack₁.data.stats.keys = ["a"] ∧
    scenarioBack₂.data.stats.keys = ["b"] ∧
    scenarioBack₂.output.keys = ["cpu/cpu_utilization", "nr_iocores"] ∧
    (CollectMetrics Runtime.amd64 (vhost 3 "a 50 200\n" "1\n") scenarioBack₂
      [reqCpuUtilization]).2 =
      .ok [foundMetric scenarioBack₃ "iocore" "a/cpu_utilization",
           foundMetric scenarioBack₃ "iocore" "cpu/cpu_utilization"] ∧
    scenarioBack₃.data.stats.keys = ["a"] ∧
    scenarioBack₃.dataPrev.stats.keys = ["a", "b"] ∧
    scenarioBack₃.output.lookup "a/cpu_utilization" = some (F64.ofNat 50) := by
  decide

set_option maxRecDepth 100000 in
/-- C6, evaluated: on the first call, with the count file `2` and two cores in the counters
file, the requests for `*/cpu_utilization` and `nr_iocores` are answered with the count
metric alone.  The zero-filling loop compares the last `/`-separated segment of the core
name with the metric name, so it only fires for a core that is itself named
`.../cpu_utilization`. -/
theorem first_call_zero_fill_evaluation :
    (CollectMetrics Runtime.amd64 (vhost 5 "iocore0 100 1000\niocore1 7 9\n" "2\n") (New 0 0)
      [reqCpuUtilization, reqNumIOcores]).2 = .ok [numIOcoresMetric 2 5] ∧
    (CollectMetrics Runtime.reversed (vhost 5 "iocore0 100 1000\niocore1 7 9\n" "2\n") (New 0 0)
      [reqCpuUtilization, reqNumIOcores]).2 = .ok [numIOcoresMetric 2 5] ∧
    (CollectMetrics Runtime.amd64 (vhost 5 "iocore0 100 1000\niocore1 7 9\n" "2\n") (New 0 0)
      [reqCpuUtilization, reqNumIOcores]).1.data.stats.keys = ["iocore0", "iocore1"] ∧
    (CollectMetrics Runtime.amd64 (vhost 5 "x/cpu_utilization 100 1000\n" "1\n") (New 0 0)
      [reqCpuUtilization]).2 =
      .ok [{ Namespace_ := [⟨"ibm", "", ""⟩, ⟨"sysfs", "", ""⟩, ⟨"iocore", "", ""⟩,
                            ⟨"x", "", "iocore"⟩, ⟨"cpu_utilization", "", ""⟩],
             Data_ := .int 0, Timestamp_ := 5 }] := by
  decide

theorem scanLoop_ok (lines : List String) (hl : ∀ line ∈ lines, 3 ≤ (Fields line).length) :
    ∀ stats : GoMap (GoMap Nat),
      scanLoop lines stats =
        (lines.foldl (fun st line => st.insert ((Fields line).getD 0 "") (lineCounters line))
          stats, .ok ()) := by
  induction lines with
  | nil => intro stats; rfl
  | cons line rest ih =>
    intro stats
    have hlen := hl line (List.mem_cons_self _ _)
    have hrest : ∀ l ∈ rest, 3 ≤ (Fields l).length :=
      fun l h => hl l (List.mem_cons_of_mem _ h)
    unfold scanLoop
    match hf : Fields line, hlen with
    | a :: b :: c :: tl, _ =>
      simp only
      rw [ih hrest, List.foldl_cons]
      simp [lineCounters, hf]

theorem foldl_insert_lines_lookup (lines : List String) (name : String) :
    ∀ stats : GoMap (GoMap Nat),
      (lines.foldl (fun st line => st.insert ((Fields line).getD 0 "") (lineCounters line))
        stats).lookup name =
        ((lines.reverse.find? (fun line => decide ((Fields line).getD 0 "" = name))).map
          lineCounters).or (stats.lookup name) := by
  induction lines with
  | nil => intro stats; simp
  | cons line rest ih =>
    intro stats
    rw [List.foldl_cons, ih, List.reverse_cons, List.find?_append]
    cases hr : rest.reverse.find? (fun line => decide ((Fields line).getD 0 "" = name)) with
    | some l => simp
    | none =>
      simp only [Option.none_or, Option.map_none']
      by_cases h : (Fields line).getD 0 "" = name
      · rw [List.find?_cons_of_pos _ (by simpa using h), ← h, GoMap.lookup_insert_same]
        simp
      · rw [List.find?_cons_of_neg _ (by simpa using h),
          GoMap.lookup_insert_ne _ _ _ _ (Ne.symm h)]
        simp

/-- C9, as amended: when every line that the scanner hands out has at least three
whitespace-separated fields, `getIOCoreStats` returns without error or panic; each core is
stored with the counters of its last line, each counter being what `strconv.ParseUint`
returns for the field.  For a field that is a decimal number of the `uint64` range that is
the number, without error; for every other field `ParseUint` reports an error and the
counter is `max_uint64` when the decimal digits at the start of the field denote a number
above `max_uint64`, and `0` otherwise. -/
theorem getIOCoreStats_three_fields (rt : Runtime) (now : Nat) (content : String)
    (count : Option String) (dc : IOCoreCollector)
    (hl : ∀ line ∈ scanLines content, 3 ≤ (Fields line).length) :
    (getIOCoreStats rt ⟨now, some content, count⟩ dc).2 = .ok () ∧
    (∀ name : String,
      (getIOCoreStats rt ⟨now, some content, count⟩ dc).1.data.stats.lookup name =
        ((scanLines content).reverse.find?
          (fun line => decide ((Fields line).getD 0 "" = name))).map lineCounters) ∧
    (∀ line : String,
      (lineCounters line).index nTotalWorkCycles = (ParseUint ((Fields line).getD 1 "")).1 ∧
      (lineCounters line).index nTotalCycles = (ParseUint ((Fields line).getD 2 "")).1) ∧
    (∀ field : String,
      (IsUint64 field → ParseUint field = (decimal field.data, false)) ∧
      (¬ IsUint64 field → ParseUint field =
        (if uintMax < decimal (field.data.takeWhile isDigit) then uintMax else 0, true))) := by
  refine ⟨?_, ?_, ?_, ParseUint_spec⟩
  · unfold getIOCoreStats
    simp only [clearMap_eq, scanLoop_ok _ hl]
  · intro name
    unfold getIOCoreStats
    simp only [clearMap_eq, scanLoop_ok _ hl]
    rw [foldl_insert_lines_lookup]
    simp [GoMap.lookup, GoMap.empty, GoMap.find]
  · intro line
    have h' : nTotalWorkCycles ≠ nTotalCycles := by decide
    unfold lineCounters GoMap.index
    rw [GoMap.lookup_insert_ne _ _ _ _ h', GoMap.lookup_insert_same, GoMap.lookup_insert_same]
    exact ⟨rfl, rfl⟩

set_option maxRecDepth 100000 in
theorem getIOCoreStats_three_fields_witness :
    (∀ line ∈ scanLines "a 1 x\r\nb 7 99999999999999999999 extra\nc 5x 99999999999999999999x",
      3 ≤ (Fields line).length) ∧
    (getIOCoreStats Runtime.amd64
      ⟨1, some "a 1 x\r\nb 7 99999999999999999999 extra\nc 5x 99999999999999999999x", none⟩
      (New 0 0)).2 = .ok () ∧
    (getIOCoreStats Runtime.amd64
      ⟨1, some "a 1 x\r\nb 7 99999999999999999999 extra\nc 5x 99999999999999999999x", none⟩
      (New 0 0)).1.data.stats =
      ⟨[("a", ⟨[(nTotalWorkCycles, 1), (nTotalCycles, 0)]⟩),
        ("b", ⟨[(nTotalWorkCycles, 7), (nTotalCycles, 18446744073709551615)]⟩),
        ("c", ⟨[(nTotalWorkCycles, 0), (nTotalCycles, 18446744073709551615)]⟩)]⟩ ∧
    ParseUint "7" = (decimal "7".data, false) ∧
    ParseUint "x" =
      (if uintMax < decimal ("x".data.takeWhile isDigit) then uintMax else 0, true) ∧
    ParseUint "99999999999999999999x" =
      (if uintMax < decimal ("99999999999999999999x".data.takeWhile isDigit) then uintMax
        else 0, true) ∧
    (ParseUint "7" = (7, false) ∧ ParseUint "x" = (0, true) ∧ ParseUint "5x" = (0, true) ∧
      ParseUint "" = (0, true) ∧ ParseUint "-1" = (0, true) ∧
      ParseUint "18446744073709551615" = (18446744073709551615, false) ∧
      ParseUint "18446744073709551616" = (18446744073709551615, true) ∧
      ParseUint "99999999999999999999" = (18446744073709551615, true) ∧
      ParseUint "99999999999999999999x" = (18446744073709551615, true)) :=
  ⟨by decide,
    (getIOCoreStats_three_fields Runtime.amd64 1
      "a 1 x\r\nb 7 99999999999999999999 extra\nc 5x 99999999999999999999x"
      none (New 0 0) (by decide)).1,
    by decide,
    ((getIOCoreStats_three_fields Runtime.amd64 1
      "a 1 x\r\nb 7 99999999999999999999 extra\nc 5x 99999999999999999999x"
      none (New 0 0) (by decide)).2.2.2 "7").1 ⟨by decide, by decide, by decide⟩,
    ((getIOCoreStats_three_fields Runtime.amd64 1
      "a 1 x\r\nb 7 99999999999999999999 extra\nc 5x 99999999999999999999x"
      none (New 0 0) (by decide)).2.2.2 "x").2 (fun hx => absurd hx.2.1 (by decide)),
    ((getIOCoreStats_three_fields Runtime.amd64 1
      "a 1 x\r\nb 7 99999999999999999999 extra\nc 5x 99999999999999999999x"
      none (New 0 0) (by decide)).2.2.2 "99999999999999999999x").2
      (fun hx => absurd hx.2.1 (by decide)),
    by decide⟩

set_option maxRecDepth 100000 in
/-- C9 fails as stated: a blank line, or a line of fewer than three fields, makes
`getIOCoreStats` panic on an index out of range, and a counter field beyond the 64-bit
range is stored as `max_uint64`, not as `0`. -/
theorem getIOCoreStats_malformed_counterexample :
    (getIOCoreStats Runtime.amd64 ⟨1, some "a 1 2\n\nb 3 4\n", none⟩ (New 0 0)).2 = .panic ∧
    (getIOCoreStats Runtime.amd64 ⟨1, some "a 1\n", none⟩ (New 0 0)).2 = .panic ∧
    (CollectMetrics Runtime.amd64 (vhost 1 "a 1 2\n\nb 3 4\n" "2\n") (New 0 0)
      [reqNumIOcores]).2 = .panic ∧
    ParseUint "18446744073709551616" = (uintMax, true) ∧
    (getIOCoreStats Runtime.amd64 ⟨1, some "a 18446744073709551616 7\n", none⟩
      (New 0 0)).1.data.stats = ⟨[("a", ⟨[(nTotalWorkCycles, uintMax), (nTotalCycles, 7)]⟩)]⟩ ∧
    uintMax ≠ 0 := by
  decide

end Iocore
